import Mathlib

/-!
# lrcd: a verification development

A shallow embedding of the coordination core of `lrcd` (models, lyric parser,
multi-pattern matcher, cache codec, controller) together with theorems about it.

Conventions of the embedding.

* A Go `string` or `[]byte` is the list of its byte values (`Bytes`).
* A Go `int` is a signed 64-bit integer, held in an `Int`.  Where an input can push a
  result past the 64-bit bounds (the tag arithmetic of the parser and the comparator
  of its sort, `position - offset` in `IndexOf`, the difference of two durations),
  the result goes through `wrapInt64`; the fixed-width conversions of the code
  (`uint16`, `uint32`, byte arithmetic) are written out with their modulus.  Lengths,
  indices and counters are plain numbers.  The controller's position is set from
  the player's position, a 64-bit count of microseconds divided by 1000, and grows by
  100 per tick of 100 ms, so it stays far below the bounds and its increment is a
  plain addition.
* A pointer into the matcher's node array is the index of the node; `nil` is `none`.
  Where the code follows a `fail` or `suffix` pointer without a test, the pointer
  was set by `buildTrie` (every node but the root gets both); the model reads
  `none` there as the root.
* Loops are structural recursions, either on the data they range over or on an
  explicit iteration bound.
-/

namespace Lrcd

/-- A Go string or byte slice: the list of its byte values. -/
abbrev Bytes := List Nat

/-! ## Machine integers -/

/-- The value a signed 64-bit variable holds after an arithmetic result `x`: Go's
`int` and `int64` arithmetic wraps around. -/
def wrapInt64 (x : Int) : Int :=
  (x + 9223372036854775808) % 18446744073709551616 - 9223372036854775808

/-- The integer `x` is a value of a signed 64-bit variable. -/
def IsInt64 (x : Int) : Prop :=
  -9223372036854775808 ≤ x ∧ x ≤ 9223372036854775807

/-! ## models/models.go -/

/-- Go `models.PlaybackStatus`. -/
inductive PlaybackStatus where
  | Unknown
  | Playing
  | Paused
  | Stopped
  deriving DecidableEq, Repr

/-- Go `models.LyricLine`: a position in milliseconds and a text. -/
structure LyricLine where
  Position : Int
  Text : Bytes
  deriving DecidableEq, Repr

/-- Go `models.Lyrics`. -/
structure Lyrics where
  Lines : List LyricLine
  Source : Bytes
  deriving DecidableEq, Repr

/-- The loop of Go's `sort.Search`: `i, j := 0, n; for i < j { h := (i+j)/2;
if !f(h) { i = h + 1 } else { j = h } }; return i`.  The first argument bounds the
number of iterations. -/
def searchLoop (f : Nat → Bool) : Nat → Nat → Nat → Nat
  | 0, i, _ => i
  | fuel + 1, i, j =>
    if i < j then
      let h := (i + j) / 2
      if !f h then searchLoop f fuel (h + 1) j else searchLoop f fuel i h
    else i

/-- Go's `sort.Search(n, f)`; the interval `[i, j)` shrinks at every iteration, so
`n` iterations are enough. -/
def sortSearch (n : Nat) (f : Nat → Bool) : Nat :=
  searchLoop f n 0 n

/-- Go `Lyrics.Len`. -/
def Lyrics.Len (l : Lyrics) : Int :=
  l.Lines.length

/-- The closure `func(i int) bool { return l.Lines[i].Position >= offPos }` that
`Lyrics.IndexOf` hands to `sort.Search`, which calls it on indices below
`len(l.Lines)` only. -/
def Lyrics.atOrAfter (l : Lyrics) (offPos : Int) (i : Nat) : Bool :=
  match l.Lines[i]? with
  | some line => decide (line.Position ≥ offPos)
  | none => true

/-- Go `Lyrics.IndexOf`: `sort.Search(len(l.Lines), func(i) { return
l.Lines[i].Position >= offPos }) - 1` with `offPos := position - offset`. -/
def Lyrics.IndexOf (l : Lyrics) (position offset : Int) : Int :=
  let offPos := wrapInt64 (position - offset)
  (sortSearch l.Lines.length (l.atOrAfter offPos) : Nat) - 1

/-- Go `Lyrics.Get`: the text at `index`, or the empty string when out of range. -/
def Lyrics.Get (l : Lyrics) (index : Int) : Bytes :=
  if index < 0 ∨ index ≥ l.Lines.length then []
  else match l.Lines[index.toNat]? with
    | some line => line.Text
    | none => []

/-- The lines are in non-decreasing position order. -/
def Lyrics.SortedByPosition (l : Lyrics) : Prop :=
  l.Lines.Pairwise (fun a b => a.Position ≤ b.Position)

/-- Lyrics with empty texts at the given positions. -/
def lyricsAt (ps : List Int) : Lyrics :=
  { Lines := ps.map (fun p => { Position := p, Text := [] }), Source := [] }

/-! ## Byte strings and the Go library functions the code calls -/

/-- The UTF-8 encoding of one code point. -/
def utf8EncodeChar (c : Nat) : Bytes :=
  if c < 0x80 then [c]
  else if c < 0x800 then [0xC0 + c / 64, 0x80 + c % 64]
  else if c < 0x10000 then [0xE0 + c / 4096, 0x80 + c / 64 % 64, 0x80 + c % 64]
  else [0xF0 + c / 262144, 0x80 + c / 4096 % 64, 0x80 + c / 64 % 64, 0x80 + c % 64]

/-- The bytes of a string literal of the source. -/
def utf8 (s : String) : Bytes :=
  (s.toList.map (fun c => utf8EncodeChar c.toNat)).flatten

/-- Go `bytes.IndexByte`: the index of the first `c` in `s`; `none` stands for `-1`. -/
def indexByte : Bytes → Nat → Option Nat
  | [], _ => none
  | b :: s, c => if b = c then some 0 else (indexByte s c).map (· + 1)

/-- The UTF-8 encodings of the code points for which Go's `unicode.IsSpace` holds:
tab, LF, VT, FF, CR, space, U+0085, U+00A0, U+1680, U+2000..U+200A, U+2028, U+2029,
U+202F, U+205F, U+3000. -/
def spaceSeqs : List Bytes :=
  [[0x09], [0x0A], [0x0B], [0x0C], [0x0D], [0x20], [0xC2, 0x85], [0xC2, 0xA0],
   [0xE1, 0x9A, 0x80],
   [0xE2, 0x80, 0x80], [0xE2, 0x80, 0x81], [0xE2, 0x80, 0x82], [0xE2, 0x80, 0x83],
   [0xE2, 0x80, 0x84], [0xE2, 0x80, 0x85], [0xE2, 0x80, 0x86], [0xE2, 0x80, 0x87],
   [0xE2, 0x80, 0x88], [0xE2, 0x80, 0x89], [0xE2, 0x80, 0x8A],
   [0xE2, 0x80, 0xA8], [0xE2, 0x80, 0xA9], [0xE2, 0x80, 0xAF], [0xE2, 0x81, 0x9F],
   [0xE3, 0x80, 0x80]]

/-- One step of trimming on the left: the input without its leading white-space
rune, if it starts with one. -/
def stripSpacePrefix (s : Bytes) : Option Bytes :=
  spaceSeqs.findSome? (fun p => if p.isPrefixOf s then some (s.drop p.length) else none)

/-- One step of trimming on the right: the input without its trailing white-space
rune, if it ends with one. -/
def stripSpaceSuffix (s : Bytes) : Option Bytes :=
  spaceSeqs.findSome? (fun p =>
    if p.reverse.isPrefixOf s.reverse then some (s.take (s.length - p.length)) else none)

/-- Removal of all leading white space, at most `fuel` runes of it. -/
def trimLeftLoop : Nat → Bytes → Bytes
  | 0, s => s
  | fuel + 1, s =>
    match stripSpacePrefix s with
    | some r => trimLeftLoop fuel r
    | none => s

/-- Removal of all trailing white space, at most `fuel` runes of it. -/
def trimRightLoop : Nat → Bytes → Bytes
  | 0, s => s
  | fuel + 1, s =>
    match stripSpaceSuffix s with
    | some r => trimRightLoop fuel r
    | none => s

/-- Go's `bytes.TrimSpace` and `strings.TrimSpace`: the input without leading and
trailing white space, as defined by Unicode, on the UTF-8 decoding of the input. -/
def TrimSpace (s : Bytes) : Bytes :=
  let l := trimLeftLoop s.length s
  trimRightLoop l.length l

/-- The insertion step of Go's `insertionSortCmpFunc`: `x` moves left past every
element `y` with `cmp(x, y) < 0`.  The argument is the sorted prefix, last element
first. -/
def sinkInto {α : Type} (cmp : α → α → Int) (x : α) : List α → List α
  | [] => [x]
  | y :: ys => if cmp x y < 0 then y :: sinkInto cmp x ys else x :: y :: ys

/-- Go's `slices.SortFunc` on a slice of at most 12 elements, where the library runs
its insertion sort `insertionSortCmpFunc`: the result here is the library's.  On a
longer slice the library runs a quicksort that is not stable: with a comparison that
orders consistently its result is again sorted by `cmp` and a permutation of the
input, but elements that compare equal may come in another order than here.  Of a
sort of more than 12 elements only its order by `cmp` and its content are used. -/
def sortFunc {α : Type} (cmp : α → α → Int) (data : List α) : List α :=
  (data.foldl (fun acc x => sinkInto cmp x acc) []).reverse

/-! ## utils/utils.go: the lyric parser -/

/-- The loop variables of `parseLRCPosition`. -/
structure PosState where
  n : Int
  sec : Int
  sepIdx : Nat
  sepCnt : Nat
  deriving DecidableEq, Repr

/-- The loop of `parseLRCPosition` over the bytes from index `i` on; `none` is the
early `return 0, false` on a byte that is neither a separator nor a digit.  The
variables `n` and `sec` are of type `int`, whose arithmetic wraps around. -/
def posLoop : Bytes → Nat → PosState → Option PosState
  | [], _, st => some st
  | ch :: rest, i, st =>
    if ch = 58 ∨ ch = 46 then
      posLoop rest (i + 1)
        { n := 0, sec := wrapInt64 (wrapInt64 (st.sec * 60) + st.n), sepIdx := i,
          sepCnt := st.sepCnt + 1 }
    else
      let d := (ch + 256 - 48) % 256
      if d > 9 then none
      else posLoop rest (i + 1) { st with n := wrapInt64 (wrapInt64 (st.n * 10) + d) }

/-- Go `parseLRCPosition`: the position in milliseconds of a tag body, `none` when the
second result is `false`. -/
def parseLRCPosition (s : Bytes) : Option Int :=
  let sLen := s.length
  if sLen < 5 ∨ sLen > 12 then none
  else
    match posLoop s 0 { n := 0, sec := 0, sepIdx := 0, sepCnt := 0 } with
    | none => none
    | some st =>
      if sLen - st.sepIdx = 3 ∧ st.sepCnt = 1 ∧ s[st.sepIdx]? = some 58 then
        some (wrapInt64 (wrapInt64 (wrapInt64 (st.sec * 60) + st.n) * 1000))
      else
        let position := wrapInt64 (st.sec * 1000)
        if sLen - st.sepIdx = 2 then some (wrapInt64 (position + wrapInt64 (st.n * 100)))
        else if sLen - st.sepIdx = 3 then some (wrapInt64 (position + wrapInt64 (st.n * 10)))
        else if sLen - st.sepIdx = 4 then some (wrapInt64 (position + st.n))
        else some position

/-- The tag loop of `ParseLrc` on one line: `for len(line) > 0 && line[0] == '['`,
leaving the loop when there is no `]` or the tag body does not parse.  The result
is the list of positions and what is left of the line. -/
def tagLoop : Nat → Bytes → List Int → List Int × Bytes
  | 0, line, positions => (positions, line)
  | fuel + 1, line, positions =>
    if line.head? = some 91 then
      match indexByte line 93 with
      | none => (positions, line)
      | some j =>
        match parseLRCPosition ((line.take j).drop 1) with
        | none => (positions, line)
        | some p => tagLoop fuel (line.drop (j + 1)) (positions ++ [p])
    else (positions, line)

/-- The entries that `ParseLrc` appends for one line of the document: one per
position of the tag loop, each with the trimmed rest of the line as its text. -/
def lineEntries (line : Bytes) : List LyricLine :=
  let r := tagLoop line.length line []
  let text := TrimSpace r.2
  r.1.map (fun t => { Position := t, Text := text })

/-- The outer loop of `ParseLrc`: `for len(data) > 0`, cutting one line off `data`
at the first `'\n'` and appending its entries to `lines`. -/
def scanLoop : Nat → Bytes → List LyricLine → List LyricLine
  | 0, _, lines => lines
  | fuel + 1, data, lines =>
    if data.length > 0 then
      match indexByte data 10 with
      | some 0 => scanLoop fuel (data.drop 1) lines
      | none => scanLoop fuel [] (lines ++ lineEntries data)
      | some lineLen =>
        scanLoop fuel (data.drop (lineLen + 1)) (lines ++ lineEntries (data.take lineLen))
    else lines

/-- The entries emitted while scanning the document line by line, in emission
order: the value of `lines` when the outer loop of `ParseLrc` ends. -/
def scanLrc (lrc : Bytes) : List LyricLine :=
  scanLoop lrc.length lrc []

deriving instance DecidableEq for Except

/-- The errors of `ParseLrc`. -/
inductive ParseError where
  | notSynced
  deriving DecidableEq, Repr

/-- Go `utils.ParseLrc`.  On a document of more than 12 entries, entries with the
same position may come in another order than the library's sort leaves them in. -/
def ParseLrc (lrc : Bytes) : Except ParseError (List LyricLine) :=
  let lines := scanLrc lrc
  if lines.length = 0 then .error .notSynced
  else .ok (sortFunc (fun a b => wrapInt64 (a.Position - b.Position)) lines)

/-! ## utils/ahocorasick.go: the multi-pattern matcher -/

/-- The `node` of the matcher.  `child` lists the non-nil entries of the array
`child [256]*node` as pairs (byte, node index).  The array `fails [256]*node` is
given by the function `Matcher.fails` that fills it. -/
structure Node where
  root : Bool := false
  b : Bytes := []
  output : Bool := false
  child : List (Nat × Nat) := []
  suffix : Option Nat := none
  fail : Option Nat := none
  deriving DecidableEq, Repr

/-- The node at index `i` of the node array. -/
def nodeAt (trie : List Node) (i : Nat) : Node :=
  trie.getD i {}

/-- The pointer `n.child[c]`. -/
def childOf (trie : List Node) (n c : Nat) : Option Nat :=
  (nodeAt trie n).child.lookup c

/-- An update of the node at index `i`. -/
def modifyNode (f : Node → Node) : List Node → Nat → List Node
  | [], _ => []
  | x :: xs, 0 => f x :: xs
  | x :: xs, i + 1 => x :: modifyNode f xs i

/-- Go `Matcher.findBlice`, from the node pointer `n` on: `for n != nil && len(b) > 0
{ n = n.child[b[0]]; b = b[1:] }`. -/
def findBliceFrom (trie : List Node) : Option Nat → Bytes → Option Nat
  | n, [] => n
  | none, _ :: _ => none
  | some n, c :: rest => findBliceFrom trie (childOf trie n c) rest

/-- Go `Matcher.findBlice`: the node reached from the root along `b`, if any. -/
def findBlice (trie : List Node) (b : Bytes) : Option Nat :=
  findBliceFrom trie (some 0) b

/-- The insertion of one pattern in `buildTrie`: the loop over the bytes of the
pattern, from node `n` with the bytes read so far in `path`.  A missing child is
taken from `getFreeNode` (the next index of the array), linked to its parent, and
given its `b`, `suffix = root` and, at depth one, `fail = root`.  The result is the
array and the node of the whole pattern. -/
def insertLoop : Bytes → Bytes → Nat → List Node → List Node × Nat
  | [], _, n, trie => (trie, n)
  | b :: rest, path, n, trie =>
    let path := path ++ [b]
    match childOf trie n b with
    | some c => insertLoop rest path c trie
    | none =>
      let c := trie.length
      let trie := modifyNode (fun nd => { nd with child := (b, c) :: nd.child }) trie n
      let fresh : Node :=
        { b := path, fail := if path.length = 1 then some 0 else none, suffix := some 0 }
      insertLoop rest path c (trie ++ [fresh])

/-- The first loop of `buildTrie`: every pattern is inserted and its node marked
`output`. -/
def insertAll (dictionary : List Bytes) (trie : List Node) : List Node :=
  dictionary.foldl (fun trie blice =>
    let r := insertLoop blice [] 0 trie
    modifyNode (fun nd => { nd with output := true }) r.1 r.2) trie

/-- The slices `b[j:]` for `j = 1, ..., len(b) - 1`. -/
def properSuffixes (b : Bytes) : List Bytes :=
  (b.tails.drop 1).dropLast

/-- The loop `for j := 1; j < len(c.b); j++ { c.fail = m.findBlice(c.b[j:]); if
c.fail != nil { break } }` over the remaining suffixes; `cur` is the value of
`c.fail`. -/
def failSearch (trie : List Node) : List Bytes → Option Nat → Option Nat
  | [], cur => cur
  | s :: rest, _ =>
    match findBlice trie s with
    | some f => some f
    | none => failSearch trie rest none

/-- The loop `for j := 1; j < len(c.b); j++ { s := m.findBlice(c.b[j:]); if s != nil
&& s.output { c.suffix = s; break } }` over the remaining suffixes; `cur` is the
value of `c.suffix`. -/
def suffixSearch (trie : List Node) : List Bytes → Option Nat → Option Nat
  | [], cur => cur
  | s :: rest, cur =>
    match findBlice trie s with
    | some f => if (nodeAt trie f).output then some f else suffixSearch trie rest cur
    | none => suffixSearch trie rest cur

/-- What the breadth-first pass of `buildTrie` does to a child `c` it meets: it sets
`c.fail` (the root when the search leaves it nil) and `c.suffix`. -/
def linkNode (trie : List Node) (c : Nat) : List Node :=
  let nd := nodeAt trie c
  let fail :=
    match failSearch trie (properSuffixes nd.b) nd.fail with
    | some f => some f
    | none => some 0
  let trie := modifyNode (fun nd => { nd with fail := fail }) trie c
  let suffix := suffixSearch trie (properSuffixes nd.b) (nodeAt trie c).suffix
  modifyNode (fun nd => { nd with suffix := suffix }) trie c

/-- The body of the breadth-first loop for the node `n` taken from the queue:
`for i := range 256 { c := n.child[i]; if c != nil { l.PushBack(c); ... } }`. -/
def visitChildren (n : Nat) (queue : List Nat) (trie : List Node) : List Nat × List Node :=
  (List.range 256).foldl (fun (st : List Nat × List Node) i =>
    match childOf st.2 n i with
    | some c => (st.1 ++ [c], linkNode st.2 c)
    | none => st) (queue, trie)

/-- The breadth-first loop of `buildTrie`, `for l.Len() > 0`, for at most `fuel`
nodes taken from the queue. -/
def bfsLoop : Nat → List Nat → List Node → List Node
  | 0, _, trie => trie
  | _ + 1, [], trie => trie
  | fuel + 1, n :: queue, trie =>
    let r := visitChildren n queue trie
    bfsLoop fuel r.1 r.2

/-- The loop that fills `m.trie[i].fails[c]`: `n := &m.trie[i]; for n.child[c] ==
nil && !n.root { n = n.fail }`, for at most `fuel` steps. -/
def failsLoop (trie : List Node) (c : Nat) : Nat → Nat → Nat
  | 0, n => n
  | fuel + 1, n =>
    if (childOf trie n c).isNone ∧ (nodeAt trie n).root = false then
      failsLoop trie c fuel ((nodeAt trie n).fail.getD 0)
    else n

/-- The `Matcher`: its node array `m.trie[:m.extent]`; `m.root` is index 0. -/
structure Matcher where
  trie : List Node
  deriving DecidableEq, Repr

/-- Go `Matcher.buildTrie`: the root from `getFreeNode`, the patterns, the
breadth-first pass from the root.  Every node enters the queue once, so the pass
takes as many nodes from the queue as the array has. -/
def buildTrie (dictionary : List Bytes) : Matcher :=
  let trie := insertAll dictionary [{ root := true }]
  { trie := bfsLoop trie.length [0] trie }

/-- Go `NewMatcher`. -/
def NewMatcher (dictionary : List Bytes) : Matcher :=
  buildTrie dictionary

/-- Go `NewStringMatcher`. -/
def NewStringMatcher (dictionary : List Bytes) : Matcher :=
  buildTrie dictionary

/-- The table entry `m.trie[i].fails[c]`, as `buildTrie` computes it.  A fail chain
visits nodes of strictly decreasing depth, so it is shorter than the array. -/
def Matcher.fails (m : Matcher) (i c : Nat) : Nat :=
  failsLoop m.trie c m.trie.length i

/-- The loop of `Matcher.Contains` from node `n` on. -/
def containsLoop (m : Matcher) : Bytes → Nat → Bool
  | [], _ => false
  | c :: rest, n =>
    let n := if (nodeAt m.trie n).root = false then m.fails n c else n
    match childOf m.trie n c with
    | some f =>
      if (nodeAt m.trie f).output then true
      else if (nodeAt m.trie ((nodeAt m.trie f).suffix.getD 0)).root = false then true
      else containsLoop m rest f
    | none => containsLoop m rest n

/-- Go `Matcher.Contains`. -/
def Matcher.Contains (m : Matcher) (input : Bytes) : Bool :=
  containsLoop m input 0

/-- The loop `for !f.suffix.root { f = f.suffix; if f.output { return i - len(f.b)
+ 1 } }` of `Matcher.Index`, for at most `fuel` steps; `none` when the loop ends
without a return. -/
def suffixWalk (m : Matcher) (i : Nat) : Nat → Nat → Option Int
  | 0, _ => none
  | fuel + 1, f =>
    let s := (nodeAt m.trie f).suffix.getD 0
    if (nodeAt m.trie s).root = false then
      if (nodeAt m.trie s).output then some ((i : Int) - (nodeAt m.trie s).b.length + 1)
      else suffixWalk m i fuel s
    else none

/-- The loop of `Matcher.Index` from input index `i` and node `n` on. -/
def indexLoop (m : Matcher) : Bytes → Nat → Nat → Int
  | [], _, _ => -1
  | c :: rest, i, n =>
    let n := if (nodeAt m.trie n).root = false then m.fails n c else n
    match childOf m.trie n c with
    | some f =>
      if (nodeAt m.trie f).output then (i : Int) - (nodeAt m.trie f).b.length + 1
      else
        match suffixWalk m i m.trie.length f with
        | some r => r
        | none => indexLoop m rest (i + 1) f
    | none => indexLoop m rest (i + 1) n

/-- Go `Matcher.Index`. -/
def Matcher.Index (m : Matcher) (input : Bytes) : Int :=
  indexLoop m input 0 0

/-- The separators of `utils.matcher`. -/
def separators : List Bytes :=
  [utf8 "(", utf8 "（", utf8 "[", utf8 "［", utf8 "【", utf8 "〖", utf8 "＜", utf8 "〈",
   utf8 "《", utf8 "-", utf8 "―", utf8 "—", utf8 " feat.", utf8 " ft.", utf8 " ver."]

/-- The package variable `matcher` of `utils`. -/
def matcher : Matcher :=
  NewStringMatcher separators

/-- Go `utils.StripTitle`. -/
def StripTitle (title : Bytes) : Bytes :=
  let idx := matcher.Index title
  if idx = -1 then TrimSpace title
  else TrimSpace (title.take idx.toNat)

/-! ## models/models.go: metadata and candidates -/

/-- Go `models.MPRISMetadata`; `Duration` is a `time.Duration`, a signed 64-bit count
of nanoseconds. -/
structure MPRISMetadata where
  Title : Bytes
  Artists : List Bytes
  Text : Bytes
  URL : Bytes
  Duration : Int
  deriving DecidableEq, Repr

/-- Go `models.MPRISProperties`. -/
structure MPRISProperties where
  Metadata : MPRISMetadata
  Position : Int
  PlaybackStatus : PlaybackStatus
  deriving DecidableEq, Repr

/-- The errors a provider or a candidate's deferred fetch reports, by kind. -/
inductive FetchError where
  | Canceled
  | DeadlineExceeded
  | Other
  deriving DecidableEq, Repr

/-- Go `models.Candidate`; the deferred fetch `Lyrics func(context.Context) (*Lyrics,
error)` is given by its result. -/
structure Candidate where
  Titles : List Bytes
  Artists : List Bytes
  Duration : Int
  Lyrics : Except FetchError Lrcd.Lyrics

/-- Go's `time.Duration.Abs`: the absolute value, with the least duration mapped to
the greatest. -/
def durationAbs (d : Int) : Int :=
  if d ≥ 0 then d
  else if d = -9223372036854775808 then 9223372036854775807
  else -d

/-- Go's `time.Second`, in nanoseconds. -/
def Second : Int := 1000000000

/-- Go's `time.Millisecond`, in nanoseconds. -/
def Millisecond : Int := 1000000

/-- Go `Controller.checkCandidate`; `artistSet` is the key set of the map. -/
def checkCandidate (meta : MPRISMetadata) (candidate : Candidate) (altTitle : Bytes)
    (artistSet : List Bytes) : Bool :=
  let titleMatched := candidate.Titles.any (fun t => t == meta.Title || StripTitle t == altTitle)
  if !titleMatched then false
  else
    let artistMatched := candidate.Artists.any (fun a => artistSet.contains a)
    if !artistMatched then false
    else if durationAbs (wrapInt64 (meta.Duration - candidate.Duration)) > 2 * Second then false
    else true

/-! ## utils/utils.go: formatting -/

/-- The three-way comparison of two strings, byte by byte. -/
def compareBytes : Bytes → Bytes → Int
  | [], [] => 0
  | [], _ :: _ => -1
  | _ :: _, [] => 1
  | a :: as, b :: bs => if a < b then -1 else if a > b then 1 else compareBytes as bs

/-- Go `utils.Equal`: same title and same artist list. -/
def Equal (a b : MPRISMetadata) : Bool :=
  a.Title == b.Title && a.Artists == b.Artists

/-- Go `utils.FormatTrack`. -/
def FormatTrack (meta : MPRISMetadata) : Bytes :=
  if meta.Title = [] then utf8 "<nil>"
  else
    let artists := sortFunc compareBytes meta.Artists
    artists.foldl (fun builder artist => builder ++ [32] ++ artist) (meta.Title ++ utf8 " -")

/-- Go `utils.FormatFilename`: every `/` of the track string replaced by `_`, followed
by `.cache`. -/
def FormatFilename (meta : MPRISMetadata) : Bytes :=
  (FormatTrack meta).map (fun b => if b = 47 then 95 else b) ++ utf8 ".cache"

/-! ## cache.go: the cache codec -/

/-- The conversion `uint16(x)`. -/
def uint16 (x : Int) : Nat := (x % 65536).toNat

/-- The conversion `uint32(x)`. -/
def uint32 (x : Int) : Nat := (x % 4294967296).toNat

/-- The two bytes `binary.LittleEndian.PutUint16` writes. -/
def le16 (x : Nat) : Bytes := [x % 256, x / 256 % 256]

/-- The four bytes `binary.LittleEndian.PutUint32` writes. -/
def le32 (x : Nat) : Bytes := [x % 256, x / 256 % 256, x / 65536 % 256, x / 16777216 % 256]

/-- Go `binary.LittleEndian.Uint16(b)`; `none` is the panic on fewer than two bytes. -/
def readLE16 : Bytes → Option Nat
  | b0 :: b1 :: _ => some (b0 + 256 * b1)
  | _ => none

/-- Go `binary.LittleEndian.Uint32(b)`; `none` is the panic on fewer than four bytes. -/
def readLE32 : Bytes → Option Nat
  | b0 :: b1 :: b2 :: b3 :: _ => some (b0 + 256 * b1 + 65536 * b2 + 16777216 * b3)
  | _ => none

/-- The LZ4 block codec of `github.com/pierrec/lz4/v4`, which is not part of the
repository: `compress` is `CompressorHC.CompressBlock` into a buffer of
`CompressBlockBound` bytes (`none` is an error), `decompress` is the content a
block decodes to (`none` for a malformed block). -/
structure LZ4 where
  compress : Bytes → Option Bytes
  decompress : Bytes → Option Bytes

/-- Go `lz4.UncompressBlock(src, dst)` with `len(dst) = dstLen`: the content of `dst`
after the call, or `none` for its error, which it also returns when the decoded
content does not fit in `dst`. -/
def LZ4.UncompressBlock (z : LZ4) (src : Bytes) (dstLen : Nat) : Option Bytes :=
  match z.decompress src with
  | none => none
  | some out =>
    if out.length ≤ dstLen then some (out ++ List.replicate (dstLen - out.length) 0)
    else none

/-- Decompression inverts compression. -/
def LZ4.Inverts (z : LZ4) : Prop :=
  ∀ b c, z.compress b = some c → z.decompress c = some b

/-- The compressor returns its error on a block of 2^32 bytes or more, whose length
the 32-bit `BodySize` of the header cannot hold. -/
def LZ4.Bounded (z : LZ4) : Prop :=
  ∀ b c, z.compress b = some c → b.length < 4294967296

/-- The codec that stores a block as it is. -/
def storeCodec : LZ4 :=
  { compress := fun b => some b, decompress := fun b => some b }

/-- The codec that stores a block of fewer than 2^32 bytes as it is and returns an
error on a longer one. -/
def boundedStoreCodec : LZ4 :=
  { compress := fun b => if b.length < 4294967296 then some b else none
    decompress := fun b => some b }

/-- Go `Cache`: the directory of the cache files. -/
structure Cache where
  path : Bytes
  deriving DecidableEq, Repr

/-- The file system as the cache sees it: the content of the file at a path. -/
abbrev FS := Bytes → Option Bytes

/-- Go `CacheHeader`. -/
structure CacheHeader where
  Signature : Bytes
  BodySize : Nat
  LineCount : Nat
  Source : Bytes
  deriving DecidableEq, Repr

/-- The package variable `signature`: the bytes of `lrcd`. -/
def signature : Bytes := [108, 114, 99, 100]

/-- The failures of the cache, by kind. -/
inductive CacheError where
  | Open
  | Read
  | SignatureMismatch
  | Codec
  deriving DecidableEq, Repr

/-- The outcome of a call that can also panic. -/
inductive Outcome (α : Type) where
  | ok (a : α)
  | error (e : CacheError)
  | panic
  deriving DecidableEq, Repr

/-- Go `copy(h.Source[:], []byte(lyrics.Source))` into the zeroed six-byte array. -/
def padSource (source : Bytes) : Bytes :=
  source.take 6 ++ List.replicate (6 - source.length) 0

/-- The bytes `binary.Encode` writes for a header: 16 bytes, little-endian. -/
def encodeHeader (h : CacheHeader) : Bytes :=
  h.Signature ++ le32 h.BodySize ++ le16 h.LineCount ++ h.Source

/-- The record `Cache.Set` writes for one line: position, text length, text. -/
def encodeRecord (line : LyricLine) : Bytes :=
  le32 (uint32 line.Position) ++ le16 (uint16 line.Text.length) ++ line.Text

/-- The variable `bodySize` of `Cache.Set`. -/
def bodySizeOf (lyrics : Lyrics) : Nat :=
  (lyrics.Lines.map (fun line => line.Text.length + 6)).sum

/-- The buffer `body` of `Cache.Set` when its loop ends. -/
def encodeBody (lyrics : Lyrics) : Bytes :=
  (lyrics.Lines.map encodeRecord).flatten

/-- The bytes `Cache.Set` hands to `os.WriteFile`; `none` when compression fails. -/
def encodeFrame (z : LZ4) (lyrics : Lyrics) : Option Bytes :=
  let h : CacheHeader :=
    { Signature := signature
      LineCount := uint16 lyrics.Lines.length
      BodySize := uint32 (bodySizeOf lyrics)
      Source := padSource lyrics.Source }
  match z.compress (encodeBody lyrics) with
  | none => none
  | some compressed => some (encodeHeader h ++ compressed)

/-- The path of the cache file of a track: `filepath.Join(c.path,
utils.FormatFilename(meta))`. -/
def Cache.filePath (c : Cache) (meta : MPRISMetadata) : Bytes :=
  c.path ++ [47] ++ FormatFilename meta

/-- The file system after `os.WriteFile(path, data, 0o644)`. -/
def writeFile (fs : FS) (path data : Bytes) : FS :=
  fun p => if p = path then some data else fs p

/-- The file system after `os.Rename(oldpath, newpath)`. -/
def renameFile (fs : FS) (oldpath newpath : Bytes) : FS :=
  fun p => if p = newpath then fs oldpath else if p = oldpath then none else fs p

/-- Go `Cache.Set`: the frame is written to the temporary file, which is then renamed
to the cache file.  The file operations are taken to succeed. -/
def Cache.Set (c : Cache) (z : LZ4) (fs : FS) (meta : MPRISMetadata) (lyrics : Lyrics) :
    Except CacheError FS :=
  match encodeFrame z lyrics with
  | none => .error .Codec
  | some frame =>
    let fpath := c.filePath meta
    let tmp := fpath ++ utf8 ".tmp"
    .ok (renameFile (writeFile fs tmp frame) tmp fpath)

/-- The record loop of `Cache.Get`, `for i := range int(header.LineCount)`, from
`offset` on; `none` is the panic of a slice expression or of a read that runs past
the end of `deflated`. -/
def decodeLines (deflated : Bytes) : Nat → Nat → Option (List LyricLine)
  | 0, _ => some []
  | count + 1, offset =>
    match readLE32 (deflated.drop offset) with
    | none => none
    | some position =>
      match readLE16 (deflated.drop (offset + 4)) with
      | none => none
      | some textLen =>
        if offset + 6 + textLen ≤ deflated.length then
          match decodeLines deflated count (offset + 6 + textLen) with
          | none => none
          | some rest =>
            some ({ Position := position,
                    Text := (deflated.drop (offset + 6)).take textLen } :: rest)
        else none

/-- The loop `for offset = 5; offset >= 0; offset-- { if header.Source[offset] !=
0 { break } }` and the slice `header.Source[:offset+1]`. -/
def trimSource (source : Bytes) : Bytes :=
  (source.reverse.dropWhile (fun b => b = 0)).reverse

/-- What `Cache.Get` does with the content of the cache file. -/
def decodeFrame (z : LZ4) (file : Bytes) : Outcome Lyrics :=
  if file.length < 16 then .error .Read
  else
    let header : CacheHeader :=
      { Signature := file.take 4
        BodySize := (readLE32 (file.drop 4)).getD 0
        LineCount := (readLE16 (file.drop 8)).getD 0
        Source := (file.drop 10).take 6 }
    if header.Signature ≠ signature then .error .SignatureMismatch
    else
      let buf := file.drop 16
      match z.UncompressBlock buf header.BodySize with
      | none => .error .Codec
      | some deflated =>
        match decodeLines deflated header.LineCount 0 with
        | none => .panic
        | some lines => .ok { Lines := lines, Source := trimSource header.Source }

/-- Go `Cache.Get`. -/
def Cache.Get (c : Cache) (z : LZ4) (fs : FS) (meta : MPRISMetadata) : Outcome Lyrics :=
  match fs (c.filePath meta) with
  | none => .error .Open
  | some file => decodeFrame z file

/-! ## controller.go -/

/-- The clear instruction `ETX`. -/
def ETX : Bytes := [3]

/-- The shutdown instruction `EOT`. -/
def EOT : Bytes := [4]

/-- Go `PublisherEntry`: `ch` holds the messages buffered in the channel of capacity
16, oldest first. -/
structure PublisherEntry where
  ch : List Bytes
  Offset : Int
  SentIndex : Int
  deriving DecidableEq, Repr

/-- Go `PublisherEntry.Send`: `select { case p.ch <- txt: default: }`. -/
def PublisherEntry.Send (p : PublisherEntry) (txt : Bytes) : PublisherEntry :=
  if p.ch.length < 16 then { p with ch := p.ch ++ [txt] } else p

/-- Go `FetchMode`. -/
inductive FetchMode where
  | Fallback
  | Fastest
  deriving DecidableEq, Repr

/-- The state of the `Controller`.  A cancel function is given by whether the
field is non-nil. -/
structure Controller where
  fetchMode : FetchMode
  fetchTimeout : Int
  publishers : List PublisherEntry
  showTitle : Bool
  filterMatcher : Option Matcher
  urlMatcher : Option Matcher
  cache : Option Cache
  lyrics : Option Lyrics
  props : MPRISProperties
  position : Int
  cancelTicking : Bool
  cancelFetching : Bool
  currentRequestID : Int
  deriving DecidableEq, Repr

/-- What a step of the controller starts or calls besides changing its state: the
task `timedSend`, the cache write, the fetch task of `process` with its request id,
and the calls of the cancel functions `cancelTicking` and `cancelFetching`. -/
inductive Effect where
  | timedSend
  | cacheSet (meta : MPRISMetadata) (lyrics : Lyrics)
  | fetch (meta : MPRISMetadata) (reqID : Int)
  | cancelTicking
  | cancelFetching
  deriving DecidableEq, Repr

/-- The loop `for _, line := range filtered` of `Controller.setLyrics` over the
clone `filtered`, with `count` iterations left from index `i` on: the line read at
index `i` is written at index `n`, which then advances, when the matcher does not
contain its text. -/
def filterLoop (m : Matcher) : Nat → Nat → List LyricLine → Nat → List LyricLine × Nat
  | 0, _, filtered, n => (filtered, n)
  | count + 1, i, filtered, n =>
    match filtered[i]? with
    | none => (filtered, n)
    | some line =>
      if !m.Contains line.Text then filterLoop m count (i + 1) (filtered.set n line) (n + 1)
      else filterLoop m count (i + 1) filtered n

/-- Go `Controller.setLyrics`. -/
def Controller.setLyrics (c : Controller) (lyrics : Lyrics) : Controller :=
  match c.filterMatcher with
  | none => { c with lyrics := some lyrics }
  | some m =>
    let r := filterLoop m lyrics.Lines.length 0 lyrics.Lines 0
    { c with lyrics := some { Source := lyrics.Source, Lines := r.1.take r.2 } }

/-- The end of a fetch task, under the mutex: the result is dropped when the
request is no longer the current one or when there are no lyrics; otherwise the
lyrics are installed and, while playing, `timedSend` is started. -/
def Controller.commit (c : Controller) (reqID : Int) (lyrics : Option Lyrics) :
    Controller × List Effect :=
  if reqID ≠ c.currentRequestID then (c, [])
  else
    match lyrics with
    | none => (c, [])
    | some l =>
      let c := c.setLyrics l
      if c.props.PlaybackStatus = .Playing then (c, [.timedSend]) else (c, [])

/-- The fetch task that `process` starts, from the return of `fetchLyrics` on: the
cache write that is started when a cache is configured and `shouldCache` holds, then
the commit. -/
def Controller.finishFetch (c : Controller) (meta : MPRISMetadata) (reqID : Int)
    (lyrics : Option Lyrics) (shouldCache : Bool) : Controller × List Effect :=
  let writes : List Effect :=
    match c.cache, lyrics with
    | some _, some l => if shouldCache then [.cacheSet meta l] else []
    | _, _ => []
  let r := c.commit reqID lyrics
  (r.1, writes ++ r.2)

/-- The loop over the publishers in a tick of `timedSend`; `allDone` is the
variable of that name. -/
def tickLoop (l : Lyrics) (position : Int) :
    List PublisherEntry → Bool → List PublisherEntry × Bool
  | [], allDone => ([], allDone)
  | p :: ps, allDone =>
    let idx := l.IndexOf position p.Offset
    let allDone := if idx < l.Len - 1 then false else allDone
    let p := if idx = p.SentIndex then p else ({ p with SentIndex := idx }).Send (l.Get idx)
    let r := tickLoop l position ps allDone
    (p :: r.1, r.2)

/-- One tick of `Controller.timedSend`, under the mutex.  The second component tells
whether the task goes on ticking; when it returns, its deferred function clears
`cancelTicking`. -/
def Controller.tick (c : Controller) : Controller × Bool :=
  match c.lyrics with
  | none => ({ c with cancelTicking := false }, false)
  | some l =>
    let position := c.position + 100
    let r := tickLoop l position c.publishers true
    if r.2 then ({ c with position := position, publishers := r.1, cancelTicking := false }, false)
    else ({ c with position := position, publishers := r.1 }, true)

/-- The specification's reading of `IndexOf`: `r` is the greatest index of a line
at or before `target`, or -1 when there is none. -/
def IsLastAtOrBefore (l : Lyrics) (target r : Int) : Prop :=
  -1 ≤ r ∧ r < l.Lines.length ∧
    ∀ (i : Nat) (line : LyricLine), l.Lines[i]? = some line →
      ((i : Int) ≤ r ↔ line.Position ≤ target)

/-- The index `r` is the greatest index of a line strictly before `target`, or -1
when there is none. -/
def IsLastBefore (l : Lyrics) (target r : Int) : Prop :=
  -1 ≤ r ∧ r < l.Lines.length ∧
    ∀ (i : Nat) (line : LyricLine), l.Lines[i]? = some line →
      ((i : Int) ≤ r ↔ line.Position < target)

/-- The lines of `lyrics` whose text contains no pattern of `m`, in their order. -/
def keptLines (m : Matcher) (lines : List LyricLine) : List LyricLine :=
  lines.filter (fun line => !m.Contains line.Text)

/-- A track used in the examples. -/
def sampleMeta : MPRISMetadata :=
  { Title := utf8 "Song", Artists := [utf8 "Band"], Text := [], URL := [],
    Duration := 258 * Second }

/-- Lyrics used in the examples: three lines, at 0, 1000 and 2000 ms. -/
def sampleLyrics : Lyrics :=
  { Lines := [⟨0, utf8 "a"⟩, ⟨1000, utf8 "b"⟩, ⟨2000, utf8 "c"⟩], Source := utf8 "lrclib" }

/-- A controller used in the examples: playing `sampleMeta` at position 900 with
`sampleLyrics`, request 3 being the current one, and two sinks, the second with an
offset of 500 ms. -/
def sampleController : Controller :=
  { fetchMode := .Fallback
    fetchTimeout := 0
    publishers := [⟨[], 0, 0⟩, ⟨[utf8 "a"], 500, -1⟩]
    showTitle := true
    filterMatcher := none
    urlMatcher := none
    cache := some ⟨utf8 "/cache"⟩
    lyrics := some sampleLyrics
    props := { Metadata := sampleMeta, Position := 0, PlaybackStatus := .Playing }
    position := 900
    cancelTicking := true
    cancelFetching := false
    currentRequestID := 3 }

/-- The specification's effect of a tick on one sink: the sent index becomes the
index of the current line, and the text of that line is appended to the inbox iff
the index differs from the previous sent index. -/
def TickedAsSpecified (l : Lyrics) (position : Int) (p q : PublisherEntry) : Prop :=
  q.Offset = p.Offset ∧
  q.SentIndex = l.IndexOf position p.Offset ∧
  q.ch = if l.IndexOf position p.Offset ≠ p.SentIndex
    then p.ch ++ [l.Get (l.IndexOf position p.Offset)] else p.ch

/-- The effect of a tick on one sink: the sent index becomes the index of the current
line, and the text of that line is appended to the inbox iff the index differs from
the previous sent index and the inbox holds fewer than 16 messages. -/
def tickedEntry (l : Lyrics) (position : Int) (p : PublisherEntry) : PublisherEntry :=
  { Offset := p.Offset
    SentIndex := l.IndexOf position p.Offset
    ch := if l.IndexOf position p.Offset ≠ p.SentIndex ∧ p.ch.length < 16
      then p.ch ++ [l.Get (l.IndexOf position p.Offset)] else p.ch }

/-- A sink whose inbox is full: 16 pending messages, nothing sent yet. -/
def fullSink : PublisherEntry :=
  { ch := List.replicate 16 ETX, Offset := 0, SentIndex := -1 }

/-- The acceptance condition of a candidate for a track, as specified: a title
matches exactly or after stripping, an artist is shared, and the durations differ by
at most two seconds. -/
def Accepts (meta : MPRISMetadata) (candidate : Candidate) : Prop :=
  (∃ t ∈ candidate.Titles, t = meta.Title ∨ StripTitle t = StripTitle meta.Title) ∧
  (∃ a ∈ candidate.Artists, a ∈ meta.Artists) ∧
  |meta.Duration - candidate.Duration| ≤ 2 * Second

/-- A candidate for `sampleMeta` under its own title, 1.9 s longer. -/
def sampleCandidate : Candidate :=
  { Titles := [utf8 "Other", utf8 "Song"], Artists := [utf8 "Band", utf8 "Guest"],
    Duration := 259900 * Millisecond, Lyrics := .ok sampleLyrics }

/-- The bounds of the frame on a `Lyrics` value: at most 65535 lines, every text of
at most 65535 bytes, every position in `[0, 2^32)`, a source of at most 6 bytes that
does not end in a NUL byte. -/
def Lyrics.FitsFields (l : Lyrics) : Prop :=
  l.Lines.length ≤ 65535 ∧
  (∀ line ∈ l.Lines, line.Text.length ≤ 65535 ∧ 0 ≤ line.Position ∧ line.Position < 4294967296) ∧
  l.Source.length ≤ 6 ∧ l.Source.getLast? ≠ some 0

/-- Lyrics of `n` lines at position 0, each with a text of `k` bytes `a`, and no
source. -/
def uniformLyrics (n k : Nat) : Lyrics :=
  { Lines := List.replicate n { Position := 0, Text := List.replicate k 97 }, Source := [] }

/-- A file system without files. -/
def emptyFS : FS := fun _ => none

/-- The cache used in the examples. -/
def sampleCache : Cache := { path := utf8 "/cache" }

/-- The file system after `Cache.Set`; it is the one before when `Set` fails. -/
def Cache.written (c : Cache) (z : LZ4) (fs : FS) (meta : MPRISMetadata) (l : Lyrics) : FS :=
  match c.Set z fs meta l with
  | .ok fs' => fs'
  | .error _ => fs

/-- The bytes of `ds` are ASCII digits. -/
def AllDigits (ds : Bytes) : Prop :=
  ∀ d ∈ ds, 48 ≤ d ∧ d ≤ 57

/-- The number a string of ASCII digits denotes in base ten, continuing from `n`. -/
def decimalFrom (n : Int) (ds : Bytes) : Int :=
  ds.foldl (fun n d => n * 10 + ((d - 48 : Nat) : Int)) n

/-- The number a string of ASCII digits denotes in base ten. -/
def decimal (ds : Bytes) : Int :=
  decimalFrom 0 ds

/-- A bracketed tag: `[`, the body, `]`. -/
def bracketed (body : Bytes) : Bytes :=
  91 :: body ++ [93]

/-- The line begins with a valid bracketed time tag: `[`, a body that
`parseLRCPosition` accepts, `]`. -/
def BeginsWithTag (line : Bytes) : Prop :=
  ∃ (body : Bytes) (p : Int) (rest : Bytes),
    line = bracketed body ++ rest ∧ parseLRCPosition body = some p

/-- The lines of a document: the segments between its newline bytes. -/
def docLines : Bytes → List Bytes
  | [] => [[]]
  | b :: rest =>
    if b = 10 then [] :: docLines rest
    else
      match docLines rest with
      | [] => [[b]]
      | l :: ls => (b :: l) :: ls

/-- The concatenation of the bracketed tags with the given bodies. -/
def tagsBytes (bodies : List Bytes) : Bytes :=
  (bodies.map bracketed).flatten

/-- The list holds byte values. -/
def IsBytes (s : Bytes) : Prop :=
  ∀ b ∈ s, b < 256

/-- The longest non-empty suffix of `w` for which `p` holds, and the empty list when
there is none. -/
def longestSuffix (p : Bytes → Bool) : Bytes → Bytes
  | [] => []
  | x :: r => if p (x :: r) then x :: r else longestSuffix p r

/-! ## The matcher: the notions of its correctness proof -/

/-- The shape of the node array while `buildTrie` inserts patterns: node 0 is the
root, a child has a greater index than its parent, its `b` is the parent's with the
byte of the edge appended, and a node other than the root has the `suffix` and `fail`
it was created with. -/
structure TrieInv (T : List Node) : Prop where
  pos : 0 < T.length
  root0 : (nodeAt T 0).root = true
  b0 : (nodeAt T 0).b = []
  child : ∀ i c j, childOf T i c = some j →
    i < j ∧ j < T.length ∧ (nodeAt T j).b = (nodeAt T i).b ++ [c] ∧ c < 256
  created : ∀ j, 0 < j → j < T.length →
    (nodeAt T j).root = false ∧ (nodeAt T j).suffix = some 0 ∧
    (nodeAt T j).fail = (if (nodeAt T j).b.length = 1 then some 0 else none)

/-- Whether `findBlice` finds a node for `w`: `w` is a path of the trie. -/
def knownAt (T : List Node) (w : Bytes) : Bool :=
  (findBlice T w).isSome

/-- Whether `findBlice` finds a node for `w` and that node is marked `output`. -/
def outAt (T : List Node) (w : Bytes) : Bool :=
  match findBlice T w with
  | some i => (nodeAt T i).output
  | none => false

/-- The node array holds the patterns of `D`: the paths from the root are the
prefixes of the patterns, and the nodes marked `output` are those of the patterns. -/
structure TrieFor (T : List Node) (D : List Bytes) : Prop where
  known : ∀ w, knownAt T w = true ↔ (w = [] ∨ ∃ p ∈ D, w <+: p)
  out : ∀ w, outAt T w = true ↔ w ∈ D

/-- The node array after `buildTrie` creates the child of node `n` for byte `b`, with
`path` the bytes of the new node. -/
def createChild (T : List Node) (n b : Nat) (path : Bytes) : List Node :=
  modifyNode (fun nd => { nd with child := (b, T.length) :: nd.child }) T n ++
    [{ b := path, fail := if path.length = 1 then some 0 else none, suffix := some 0 }]

/-- The node arrays have the same trie: they differ at most in the `fail` and
`suffix` pointers of their nodes. -/
def SameShape (T0 T : List Node) : Prop :=
  T.length = T0.length ∧ ∀ i, (nodeAt T i).root = (nodeAt T0 i).root ∧
    (nodeAt T i).b = (nodeAt T0 i).b ∧ (nodeAt T i).output = (nodeAt T0 i).output ∧
    (nodeAt T i).child = (nodeAt T0 i).child

/-- The node of the longest proper suffix of `w` that is a path of the trie, the root
when there is none. -/
def failTarget (T0 : List Node) (w : Bytes) : Option Nat :=
  findBlice T0 (longestSuffix (knownAt T0) w.tail)

/-- The node of the longest proper suffix of `w` that is a pattern, the root when
there is none. -/
def suffixTarget (T0 : List Node) (w : Bytes) : Option Nat :=
  findBlice T0 (longestSuffix (outAt T0) w.tail)

/-- The pointers of a node that the breadth-first pass has met. -/
def Linked (T0 : List Node) (nd : Node) : Prop :=
  nd.fail = failTarget T0 nd.b ∧ nd.suffix = suffixTarget T0 nd.b

/-- The pointers of a node before or after the breadth-first pass meets it. -/
def Linkable (T0 : List Node) (nd : Node) : Prop :=
  (nd.b.length ≤ 1 → nd.fail = some 0 ∨ nd.fail = none) ∧
  (nd.suffix = some 0 ∨ nd.suffix = suffixTarget T0 nd.b)

/-- The body of the loop `for i := range 256` in the breadth-first pass, for the
node `n` taken from the queue. -/
def visitStep (n : Nat) (st : List Nat × List Node) (i : Nat) : List Nat × List Node :=
  match childOf st.2 n i with
  | some c => (st.1 ++ [c], linkNode st.2 c)
  | none => st

/-- The children of node `n`, in the order of their bytes. -/
def childrenOf (T0 : List Node) (n : Nat) : List Nat :=
  (List.range 256).filterMap (childOf T0 n)

/-- Every node other than the root has pointers that the breadth-first pass can
start from. -/
def AllLinkable (T0 T : List Node) : Prop :=
  ∀ j, 0 < j → j < T0.length → Linkable T0 (nodeAt T j)

/-- The state of the breadth-first pass over the trie `T0`: `V` lists the nodes
already taken from the queue, `q` is the queue, `T` the node array. -/
structure BfsInv (T0 : List Node) (V q : List Nat) (T : List Node) : Prop where
  shape : SameShape T0 T
  linkable : AllLinkable T0 T
  nodup : (V ++ q).Nodup
  reach : ∀ x ∈ V ++ q, findBlice T0 (nodeAt T0 x).b = some x
  parent : ∀ x ∈ V ++ q, x ≠ 0 → ∃ v ∈ V, ∃ c, childOf T0 v c = some x
  closed : ∀ v ∈ V, ∀ c j, childOf T0 v c = some j → j ∈ V ++ q
  linked : ∀ x ∈ V ++ q, x ≠ 0 → Linked T0 (nodeAt T x)
  root : 0 ∈ V ++ q

/-- The node array `T` is a built matcher over the trie `T0`: the same trie, with
every node other than the root linked to its longest proper suffixes. -/
structure Built (T0 T : List Node) : Prop where
  inv : TrieInv T0
  shape : SameShape T0 T
  linked : ∀ (w : Bytes) (i : Nat), w ≠ [] → findBlice T0 w = some i →
    Linked T0 (nodeAt T i)

/-- The scan of `Matcher.Index` in terms of the patterns alone: `s` is the input read
so far, `p` tells the patterns.  At the first byte after which some non-empty pattern
is a suffix of the input read, the result is the start of the longest such suffix. -/
def firstHit (p : Bytes → Bool) : Bytes → Bytes → Int
  | _, [] => -1
  | s, c :: rest =>
    if longestSuffix p (s ++ [c]) = [] then firstHit p (s ++ [c]) rest
    else (s.length : Int) - (longestSuffix p (s ++ [c])).length + 1

/-- Some pattern of `D` starts at offset `j` of `input`. -/
def OccursAt (D : List Bytes) (input : Bytes) (j : Nat) : Prop :=
  ∃ p ∈ D, p <+: input.drop j

/-- No pattern of `D` occurs inside a pattern of `D` at an offset other than 0. -/
def NoInnerOccurrence (D : List Bytes) : Prop :=
  ∀ p ∈ D, ∀ q ∈ D, ∀ j, j < p.length → 0 < j → ¬ q <+: p.drop j

instance (D : List Bytes) : Decidable (NoInnerOccurrence D) := by
  unfold NoInnerOccurrence
  infer_instance

/-- Go `strings.Index` on byte strings: the index of the first instance of `sep` in
`s`, or -1 when `sep` does not occur in `s`. -/
def stringsIndex : Bytes → Bytes → Int
  | [], sep => if sep = [] then 0 else -1
  | x :: r, sep =>
    if sep.isPrefixOf (x :: r) then 0
    else if stringsIndex r sep = -1 then -1
    else stringsIndex r sep + 1

/-- The specification's value of `Index`: the minimum over the patterns that occur in
`input` of the pattern's first occurrence index, or -1 when no pattern occurs. -/
def leftmostIndex (D : List Bytes) (input : Bytes) : Int :=
  match (D.map (stringsIndex input)).filter (fun i => i ≠ -1) with
  | [] => -1
  | i :: rest => rest.foldl min i

/-- The loop of the naive reference `BenchmarkMinIndex`: `for _, sep := range
splitters { if i := strings.Index(title, sep); i != -1 && i < min { min = i } }`. -/
def minIndexLoop (title : Bytes) (seps : List Bytes) (min : Int) : Int :=
  seps.foldl (fun min sep =>
    if stringsIndex title sep ≠ -1 ∧ stringsIndex title sep < min then stringsIndex title sep
    else min) min

/-- The naive reference for `StripTitle`, after `BenchmarkMinIndex`: the title cut at
the least first-occurrence index of a separator, then trimmed. -/
def naiveStripTitle (title : Bytes) : Bytes :=
  TrimSpace (title.take (minIndexLoop title separators title.length).toNat)

instance (s : Bytes) : Decidable (IsBytes s) := by
  unfold IsBytes
  infer_instance

/-! ## controller.go: fetching -/

/-- Go `providers.Provider`: `IterAll` is given by its result for the track at hand,
an error or the candidates the iterator yields, in order. -/
structure Provider where
  ID : Bytes
  IterAll : Except FetchError (List Candidate)

/-- The test `errors.Is(err, context.Canceled) || errors.Is(err,
context.DeadlineExceeded)`. -/
def FetchError.aborts : FetchError → Bool
  | .Canceled => true
  | .DeadlineExceeded => true
  | .Other => false

/-- The loop `for candidate := range iter` of `fetchFallback`.  The first component
is `some r` when the loop returns `r` from the function and `none` when the loop
ends; the second lists the candidates whose `Lyrics` function was called. -/
def candidateLoop (check : Candidate → Bool) :
    List Candidate → Option (Option Lyrics) × List Candidate
  | [] => (none, [])
  | candidate :: rest =>
    if !check candidate then candidateLoop check rest
    else
      match candidate.Lyrics with
      | .error e =>
        if e.aborts then (some none, [candidate])
        else
          let r := candidateLoop check rest
          (r.1, candidate :: r.2)
      | .ok lyrics => (some (some lyrics), [candidate])

/-- The loop `for _, prov := range c.providers` of `fetchFallback`, followed by the
final `return nil`. -/
def providerLoop (check : Candidate → Bool) : List Provider → Option Lyrics × List Candidate
  | [] => (none, [])
  | prov :: rest =>
    match prov.IterAll with
    | .error e => if e.aborts then (none, []) else providerLoop check rest
    | .ok iter =>
      match candidateLoop check iter with
      | (some r, fetched) => (r, fetched)
      | (none, fetched) =>
        let r := providerLoop check rest
        (r.1, fetched ++ r.2)

/-- Go `Controller.fetchFallback`, with `c.providers` as `providers`: the lyrics it
returns and the candidates whose `Lyrics` function it called, in order.  The key set
of `artistSet` is the artist list. -/
def fetchFallback (providers : List Provider) (meta : MPRISMetadata) :
    Option Lyrics × List Candidate :=
  let altTitle := StripTitle meta.Title
  let artistSet := meta.Artists
  providerLoop (fun candidate => checkCandidate meta candidate altTitle artistSet) providers

/-- What a call of `fetchLyrics` ends in: its two results with the state of the
controller and the cancel function it called, or a panic. -/
inductive FetchResult where
  | returned (c : Controller) (lyrics : Option Lyrics) (shouldCache : Bool)
      (effects : List Effect)
  | panic
  deriving DecidableEq, Repr

/-- The part of `Controller.fetchLyrics` after the test `len(c.providers) == 0` of the
providers: nothing for a request that is no longer the current one, else the cancel
function of the previous fetch is called, the new one stored, and the policy of
`c.fetchMode` run.  The configuration admits the two fetch modes only, so the code
after the `switch` is not reached. -/
def Controller.fetchFromProviders (c : Controller) (providers : List Provider)
    (fastest : Option Lyrics) (meta : MPRISMetadata) (reqID : Int) : FetchResult :=
  if providers.length = 0 then .returned c none false []
  else if reqID ≠ c.currentRequestID then .returned c none false []
  else
    let effects : List Effect := if c.cancelFetching then [.cancelFetching] else []
    let c := { c with cancelFetching := true }
    match c.fetchMode with
    | .Fallback => .returned c (fetchFallback providers meta).1 true effects
    | .Fastest => .returned c fastest true effects

/-- The part of `Controller.fetchLyrics` after the cache lookup: the embedded text
when it is not empty and parses, else the providers. -/
def Controller.fetchFromText (c : Controller) (providers : List Provider)
    (fastest : Option Lyrics) (meta : MPRISMetadata) (reqID : Int) : FetchResult :=
  if meta.Text ≠ [] then
    match ParseLrc meta.Text with
    | .ok lines => .returned c (some { Lines := lines, Source := utf8 "mpris" }) false []
    | .error _ => c.fetchFromProviders providers fastest meta reqID
  else c.fetchFromProviders providers fastest meta reqID

/-- Go `Controller.fetchLyrics`, with `c.providers` as `providers`.  The cache is read
through the codec `z` from the file system `fs`; `fastest` is the result of the
concurrent policy `fetchFastest`. -/
def Controller.fetchLyrics (c : Controller) (z : LZ4) (fs : FS) (providers : List Provider)
    (fastest : Option Lyrics) (meta : MPRISMetadata) (reqID : Int) : FetchResult :=
  match c.cache with
  | none => c.fetchFromText providers fastest meta reqID
  | some cache =>
    match cache.Get z fs meta with
    | .ok lyrics => .returned c (some lyrics) false []
    | .error _ => c.fetchFromText providers fastest meta reqID
    | .panic => .panic

/-! ## controller.go: snapshots -/

/-- Go `PublisherEntry.Clear`: `p.ch <- ETX`, a send that waits while the channel is
full.  The result is `none` when the channel holds its 16 messages: the send cannot
proceed until the consumer of the sink takes one. -/
def PublisherEntry.Clear (p : PublisherEntry) : Option PublisherEntry :=
  if p.ch.length < 16 then some { p with ch := p.ch ++ [ETX] } else none

/-- The loop `for _, publisher := range c.publishers { publisher.SentIndex = -1;
publisher.Clear() }` of `resetAll`; `none` when a `Clear` cannot proceed. -/
def resetLoop : List PublisherEntry → Option (List PublisherEntry)
  | [] => some []
  | p :: ps =>
    match ({ p with SentIndex := -1 }).Clear with
    | none => none
    | some p =>
      match resetLoop ps with
      | none => none
      | some ps => some (p :: ps)

/-- Go `Controller.resetAll`; `none` when a `Clear` cannot proceed. -/
def Controller.resetAll (c : Controller) : Option (Controller × List Effect) :=
  let effects : List Effect :=
    (if c.cancelTicking then [.cancelTicking] else []) ++
    (if c.cancelFetching then [.cancelFetching] else [])
  match resetLoop c.publishers with
  | none => none
  | some ps =>
    some ({ c with cancelTicking := false, cancelFetching := false, position := 0,
                   lyrics := none, publishers := ps }, effects)

/-- The loop `for _, p := range c.publishers { p.Clear() }` of the branch of `process`
for a playback that stopped; `none` when a `Clear` cannot proceed. -/
def clearLoop : List PublisherEntry → Option (List PublisherEntry)
  | [] => some []
  | p :: ps =>
    match p.Clear with
    | none => none
    | some p =>
      match clearLoop ps with
      | none => none
      | some ps => some (p :: ps)

/-- The last statement of `process`: `if props.Position != c.props.Position {
c.position = props.Position }`, with the previous snapshot in `prev`. -/
def updatePosition (prev props : MPRISProperties) (c : Controller) : Controller :=
  if props.Position ≠ prev.Position then { c with position := props.Position } else c

/-- Go `Controller.process`, under the mutex: the state when it returns, after the
deferred `c.props = props`, and what it started or called; `none` when a `Clear`
cannot proceed.  The two `return` statements of the branch for a changed track leave
the function before its last statement. -/
def Controller.process (c : Controller) (props : MPRISProperties) :
    Option (Controller × List Effect) :=
  if props.PlaybackStatus = .Unknown ∧ props.Metadata.Title = [] then
    match c.resetAll with
    | none => none
    | some (c1, effects) =>
      some ({ updatePosition c.props props c1 with props := props }, effects)
  else if !Equal props.Metadata c.props.Metadata then
    match c.resetAll with
    | none => none
    | some (c1, effects) =>
      if props.Metadata.Title = [] ∨ props.Metadata.Artists.length = 0 then
        some ({ c1 with props := props }, effects)
      else if (match c1.urlMatcher with
          | some m => m.Contains props.Metadata.URL
          | none => false) then
        some ({ c1 with props := props }, effects)
      else
        let trackStr := FormatTrack props.Metadata
        let c2 :=
          if c1.showTitle ∧ props.Metadata.Title ≠ [] then
            { c1 with publishers := c1.publishers.map (fun p => p.Send trackStr) }
          else c1
        let c3 := { c2 with currentRequestID := wrapInt64 (c2.currentRequestID + 1) }
        some ({ updatePosition c.props props c3 with props := props },
          effects ++ [.fetch props.Metadata c3.currentRequestID])
  else if props.PlaybackStatus ≠ c.props.PlaybackStatus then
    if props.PlaybackStatus = .Playing then
      let ps := c.publishers.map (fun p =>
        match c.lyrics with
        | some l =>
          if l.IndexOf c.position p.Offset ≠ -1 then p.Send (l.Get p.SentIndex)
          else if c.showTitle ∧ props.Metadata.Title ≠ [] then
            p.Send (FormatTrack props.Metadata)
          else p
        | none =>
          if c.showTitle ∧ props.Metadata.Title ≠ [] then
            p.Send (FormatTrack props.Metadata)
          else p)
      some ({ updatePosition c.props props { c with publishers := ps } with props := props },
        [.timedSend])
    else
      let effects : List Effect := if c.cancelTicking then [.cancelTicking] else []
      match clearLoop c.publishers with
      | none => none
      | some ps =>
        some ({ updatePosition c.props props
                  { c with cancelTicking := false, publishers := ps } with props := props },
          effects)
  else some ({ updatePosition c.props props c with props := props }, [])

/-! ## Specification-side definitions for the fetch policies and snapshots -/

/-- What the fallback policy meets, as specified: the error of an enumeration, or the
fetch of an accepted candidate with its result. -/
inductive Attempt where
  | enumeration (e : FetchError)
  | fetch (r : Except FetchError Lyrics)

/-- What the fallback policy meets, in provider order and then candidate order:
a provider is an enumeration error or the fetches of its accepted candidates. -/
def attemptsOf (check : Candidate → Bool) (providers : List Provider) : List Attempt :=
  providers.flatMap (fun prov =>
    match prov.IterAll with
    | .error e => [Attempt.enumeration e]
    | .ok iter => (iter.filter check).map (fun candidate => Attempt.fetch candidate.Lyrics))

/-- Whether an attempt ends the policy, and with which result: a fetch that succeeds
ends it with its lyrics, a cancellation or deadline error ends it with none, any
other error moves on. -/
def Attempt.decides : Attempt → Option (Option Lyrics)
  | .enumeration e => if e.aborts then some none else none
  | .fetch (.ok lyrics) => some (some lyrics)
  | .fetch (.error e) => if e.aborts then some none else none

/-- The specified result of the fallback policy: that of the first attempt that ends
it, and none when no attempt does. -/
def firstDecided (attempts : List Attempt) : Option Lyrics :=
  (attempts.findSome? Attempt.decides).getD none

/-- The track `sampleMeta` with embedded lyrics of one line. -/
def embeddedMeta : MPRISMetadata :=
  { sampleMeta with Text := utf8 "[00:01.00]hello" }

/-- A cache file whose header announces one line and a body of no bytes. -/
def truncatedCacheFile : Bytes :=
  encodeHeader
    { Signature := signature, BodySize := 0, LineCount := 1, Source := padSource (utf8 "lrclib") }

/-- A file system whose only file is `truncatedCacheFile`, as the cache file of
`embeddedMeta`. -/
def truncatedFS : FS :=
  writeFile emptyFS (sampleCache.filePath embeddedMeta) truncatedCacheFile

/-- The lines the specification keeps under the filter patterns: those whose text
contains no non-empty pattern, in their order. -/
def linesWithoutPattern (filters : List Bytes) (lines : List LyricLine) : List LyricLine :=
  lines.filter (fun line => decide (∀ p ∈ filters, p ≠ [] → ¬ p <:+: line.Text))

/-- Lyrics with a credit line between two sung lines. -/
def creditLyrics : Lyrics :=
  { Lines := [⟨0, utf8 "la la"⟩, ⟨1000, utf8 "作词: X"⟩, ⟨2000, utf8 "na na"⟩],
    Source := utf8 "ncm" }

/-- The sink after `resetAll`: nothing sent, and the clear instruction appended to its
inbox. -/
def clearedSink (p : PublisherEntry) : PublisherEntry :=
  { p with SentIndex := -1, ch := p.ch ++ [ETX] }

/-- The calls of cancel functions in `resetAll`. -/
def resetCancels (c : Controller) : List Effect :=
  (if c.cancelTicking then [.cancelTicking] else []) ++
  (if c.cancelFetching then [.cancelFetching] else [])

/-- A snapshot of a backend reset: status `Unknown`, no title, position 700. -/
def resetSnapshot : MPRISProperties :=
  { Metadata := { Title := [], Artists := [], Text := [], URL := [], Duration := 0 },
    Position := 700, PlaybackStatus := .Unknown }

/-- The controller `sampleController` with one sink, whose inbox is full. -/
def blockedController : Controller :=
  { sampleController with publishers := [fullSink] }

/-- A snapshot of another track without artists, playing at 5000 ms. -/
def invalidSnapshot : MPRISProperties :=
  { Metadata := { Title := utf8 "Other", Artists := [], Text := [], URL := [],
                  Duration := 200 * Second },
    Position := 5000, PlaybackStatus := .Playing }

/-- The controller `sampleController` with the URL blacklist `ads.example`. -/
def blacklistController : Controller :=
  { sampleController with urlMatcher := some (NewStringMatcher [utf8 "ads.example"]) }

/-- A snapshot of another track from a blacklisted URL, playing at 5000 ms. -/
def blacklistedSnapshot : MPRISProperties :=
  { Metadata := { Title := utf8 "Advert", Artists := [utf8 "Shop"], Text := [],
                  URL := utf8 "https://ads.example/1", Duration := 30 * Second },
    Position := 5000, PlaybackStatus := .Playing }

/-! ## Definitions for the sinks, the cache file and the reachable states -/

/-- The naive substring search over a dictionary: some pattern has an instance in
`input`, by `strings.Index`. -/
def naiveContains (D : List Bytes) (input : Bytes) : Bool :=
  D.any (fun p => decide (stringsIndex input p ≠ -1))

/-- Go `NewPublisherEntry`: an empty channel of capacity 16, nothing sent. -/
def NewPublisherEntry (offset : Int) : PublisherEntry :=
  { ch := [], Offset := offset, SentIndex := -1 }

/-- One iteration of the worker `for txt := range p.ch` of `NewPublisherEntry`: the
message it receives, the oldest of the channel, and the entry without it; `none` when
the channel is empty. -/
def PublisherEntry.receive (p : PublisherEntry) : Option (Bytes × PublisherEntry) :=
  match p.ch with
  | [] => none
  | txt :: rest => some (txt, { p with ch := rest })

/-- The messages the worker hands to `Publisher.Send` in at most `fuel` iterations,
in the order of delivery. -/
def PublisherEntry.deliveries : Nat → PublisherEntry → List Bytes
  | 0, _ => []
  | fuel + 1, p =>
    match p.receive with
    | none => []
    | some (txt, q) => txt :: PublisherEntry.deliveries fuel q

/-- The entry after `k` iterations of the worker `for txt := range p.ch`, each taking
the oldest message of the channel; on an empty channel the worker waits and the entry
stays as it is. -/
def PublisherEntry.drained : Nat → PublisherEntry → PublisherEntry
  | 0, p => p
  | k + 1, p =>
    match p.receive with
    | none => p
    | some (_, q) => PublisherEntry.drained k q

/-- The sinks after the worker of each went through as many iterations as `ks` tells
for it, in the order of the sinks, and through none where `ks` has no entry. -/
def drainedEach : List PublisherEntry → List Nat → List PublisherEntry
  | [], _ => []
  | p :: ps, [] => p :: ps
  | p :: ps, k :: ks => p.drained k :: drainedEach ps ks

/-- The controller after the workers of its sinks took messages, `ks` telling how many
each.  The workers run beside the controller and without its mutex: while `process`
waits in `p.ch <- ETX` on a full channel the worker of that sink goes on taking
messages, and the send proceeds on the channel as the worker left it. -/
def Controller.drained (c : Controller) (ks : List Nat) : Controller :=
  { c with publishers := drainedEach c.publishers ks }

/-- The fewest receives that let every `Clear` proceed: for each sink, the messages
buffered beyond 15. -/
def Controller.waitedFor (c : Controller) : List Nat :=
  c.publishers.map (fun p => p.ch.length - 15)

/-- The start of `Controller.timedSend`, under the mutex: the cancel function of the
ticking before is called, if there is one, and that of the new ticking is stored. -/
def Controller.startTicking (c : Controller) : Controller × List Effect :=
  ({ c with cancelTicking := true }, if c.cancelTicking then [.cancelTicking] else [])

/-- The return of `Controller.timedSend` on `ctx.Done()`: its deferred function calls
the cancel function stored, if there is one, and clears the field. -/
def Controller.stopTicking (c : Controller) : Controller × List Effect :=
  ({ c with cancelTicking := false }, if c.cancelTicking then [.cancelTicking] else [])

/-- The condition under which `process` leaves at one of the two `return` statements
of its branch for a changed track: the snapshot is no backend reset, its metadata is
not equivalent to that of the previous snapshot, and its title is empty, it has no
artists, or the URL matcher contains its URL. -/
def Controller.leavesEarly (c : Controller) (props : MPRISProperties) : Prop :=
  ¬ (props.PlaybackStatus = .Unknown ∧ props.Metadata.Title = []) ∧
  Equal props.Metadata c.props.Metadata = false ∧
  (props.Metadata.Title = [] ∨ props.Metadata.Artists = [] ∨
    (c.urlMatcher.map (fun m => m.Contains props.Metadata.URL)) = some true)

/-- The calls `p.Send(t)` for the texts `txts`, in order. -/
def PublisherEntry.sendAll (p : PublisherEntry) (txts : List Bytes) : PublisherEntry :=
  txts.foldl (fun p txt => p.Send txt) p

/-- A cache file of eight bytes that does not begin with the signature. -/
def shortForeignFile : Bytes := utf8 "notlrcd!"

/-- A cache file of sixteen bytes that does not begin with the signature. -/
def foreignFile : Bytes := utf8 "notlrcd!notlrcd!"

/-- A cache file with the signature whose only record announces a text of five bytes
and holds none: a body of the six bytes of position and text length. -/
def overlongRecordFile : Bytes :=
  encodeHeader
    { Signature := signature, BodySize := 6, LineCount := 1, Source := padSource (utf8 "lrclib") }
    ++ le32 1000 ++ le16 5

/-- The cache writes a fetch task starts, as the code orders them: one write of the
lyrics obtained when a cache is configured and `shouldCache` holds, whatever the
request id. -/
def cacheWrites (c : Controller) (meta : MPRISMetadata) (lyrics : Option Lyrics)
    (shouldCache : Bool) : List Effect :=
  if c.cache.isSome ∧ shouldCache = true then (lyrics.map (Effect.cacheSet meta)).toList
  else []

/-- A snapshot in which the playback of `sampleMeta` is paused. -/
def pausedSnapshot : MPRISProperties :=
  { Metadata := sampleMeta, Position := 0, PlaybackStatus := .Paused }

/-- The controller `sampleController` paused at 1500 ms with one sink to which
nothing was sent. -/
def seekedController : Controller :=
  { sampleController with
    publishers := [NewPublisherEntry 0]
    props := { Metadata := sampleMeta, Position := 1500, PlaybackStatus := .Paused }
    position := 1500
    cancelTicking := false }

/-- A snapshot in which the playback of `sampleMeta` goes on at 1500 ms. -/
def resumeSnapshot : MPRISProperties :=
  { Metadata := sampleMeta, Position := 1500, PlaybackStatus := .Playing }

/-- The byte is an ASCII digit, `:` or `.`. -/
def IsTagByte (b : Nat) : Prop :=
  (48 ≤ b ∧ b ≤ 57) ∨ b = 58 ∨ b = 46

instance (b : Nat) : Decidable (IsTagByte b) := by
  unfold IsTagByte
  infer_instance

/-! ## The controller from its start -/

/-- Go `ControllerOptions`, without the snapshot channel and the providers. -/
structure ControllerOptions where
  publishers : List PublisherEntry
  fetchMode : FetchMode
  fetchTimeout : Int
  filters : List Bytes
  urlBlacklist : List Bytes
  showTitle : Bool
  cacheDir : Bytes

/-- Go `NewController`; the fields it does not set hold their zero values. -/
def NewController (opt : ControllerOptions) : Controller :=
  { fetchMode := opt.fetchMode
    fetchTimeout := opt.fetchTimeout
    publishers := opt.publishers
    showTitle := opt.showTitle
    filterMatcher := if opt.filters.length > 0 then some (NewStringMatcher opt.filters) else none
    urlMatcher :=
      if opt.urlBlacklist.length > 0 then some (NewStringMatcher opt.urlBlacklist) else none
    cache := if opt.cacheDir ≠ [] then some { path := opt.cacheDir } else none
    lyrics := none
    props := { Metadata := { Title := [], Artists := [], Text := [], URL := [], Duration := 0 },
               Position := 0, PlaybackStatus := .Unknown }
    position := 0
    cancelTicking := false
    cancelFetching := false
    currentRequestID := 0 }

/-- The sinks of the options come from `NewPublisherEntry`. -/
def ControllerOptions.Fresh (opt : ControllerOptions) : Prop :=
  ∀ p ∈ opt.publishers, p = NewPublisherEntry p.Offset

/-- The controller with the fetch tasks that `process` launched and that did not
finish yet, each with its request id and the track it fetches for. -/
structure Machine where
  c : Controller
  pending : List (Int × MPRISMetadata)

/-- The fetch tasks among what a step started. -/
def launched : List Effect → List (Int × MPRISMetadata)
  | [] => []
  | .fetch meta reqID :: rest => (reqID, meta) :: launched rest
  | _ :: rest => launched rest

/-- The steps of the program on the state of the controller.  Under the mutex:
`process` handles a snapshot and returns, `timedSend` starts, a tick of `timedSend` is
taken, or a fetch task that was launched finishes with some result and commits it,
once.  Without the mutex: the worker of a sink takes the oldest message of its
channel, or `timedSend` returns on `ctx.Done()`.  A `process` that waits in a `Clear`
returns after the receives that make room in the channel, so its run is a run of
`receive` steps followed by its step.  The steps of `timedSend` and of the workers are
admitted in every state: the relation has every run of the program, and what holds in
every state it reaches holds in every state of the program.  The request counter is
taken not to reach the greatest `int`, which takes 2^63 changes of track. -/
inductive Step : Machine → Machine → Prop where
  | process (s : Machine) (props : MPRISProperties) (c : Controller) (effects : List Effect) :
      s.c.currentRequestID < 9223372036854775807 →
      s.c.process props = some (c, effects) →
      Step s { c := c, pending := s.pending ++ launched effects }
  | tick (s : Machine) : Step s { c := s.c.tick.1, pending := s.pending }
  | commit (s : Machine) (task : Int × MPRISMetadata) (lyrics : Option Lyrics) :
      task ∈ s.pending →
      Step s { c := (s.c.commit task.1 lyrics).1, pending := s.pending.erase task }
  | receive (s : Machine) (i : Nat) (p q : PublisherEntry) (txt : Bytes) :
      s.c.publishers[i]? = some p →
      p.receive = some (txt, q) →
      Step s { c := { s.c with publishers := s.c.publishers.set i q }, pending := s.pending }
  | startTicking (s : Machine) : Step s { c := s.c.startTicking.1, pending := s.pending }
  | stopTicking (s : Machine) : Step s { c := s.c.stopTicking.1, pending := s.pending }

/-- The states the controller reaches from its start with the options `opt`. -/
inductive Reachable (opt : ControllerOptions) : Machine → Prop where
  | start : Reachable opt { c := NewController opt, pending := [] }
  | step (s t : Machine) : Reachable opt s → Step s t → Reachable opt t

/-- The specified bounds of the sent indices: every sink's sent index is -1 when
there are no lyrics, and else at least -1 and below the number of lines. -/
def SentIndexInvariant (c : Controller) : Prop :=
  ∀ p ∈ c.publishers,
    (c.lyrics = none → p.SentIndex = -1) ∧
    (∀ l, c.lyrics = some l → -1 ≤ p.SentIndex ∧ p.SentIndex < l.Lines.length)

/-- What holds of the fetch tasks in a reachable state: the request counter is not
negative, no task has a request id above it, no two tasks have the same request id,
and there are no lyrics while the task of the current request id did not finish. -/
structure PendingInvariant (s : Machine) : Prop where
  counter : 0 ≤ s.c.currentRequestID
  below : ∀ task ∈ s.pending, task.1 ≤ s.c.currentRequestID
  distinct : (s.pending.map Prod.fst).Nodup
  waiting : ∀ task ∈ s.pending, task.1 = s.c.currentRequestID → s.c.lyrics = none

/-- The state after `process` handles the snapshot; the state stays as it is when
`process` does not return. -/
def Machine.processed (s : Machine) (props : MPRISProperties) : Machine :=
  match s.c.process props with
  | some (c, effects) => { c := c, pending := s.pending ++ launched effects }
  | none => s

/-- The state after a tick of `timedSend`. -/
def Machine.ticked (s : Machine) : Machine :=
  { c := s.c.tick.1, pending := s.pending }

/-- The state after the fetch task `task` finishes with `lyrics` and commits. -/
def Machine.committed (s : Machine) (task : Int × MPRISMetadata) (lyrics : Option Lyrics) :
    Machine :=
  { c := (s.c.commit task.1 lyrics).1, pending := s.pending.erase task }

/-- The state after `timedSend` starts. -/
def Machine.started (s : Machine) : Machine :=
  { c := s.c.startTicking.1, pending := s.pending }

/-- The state after the worker of the sink at index `i` takes a message; the state
stays as it is when there is no such sink or its channel is empty. -/
def Machine.received (s : Machine) (i : Nat) : Machine :=
  match s.c.publishers[i]? with
  | none => s
  | some p =>
    match p.receive with
    | none => s
    | some (_, q) =>
      { c := { s.c with publishers := s.c.publishers.set i q }, pending := s.pending }

/-- Options used in the examples: one sink without offset, nothing else configured. -/
def sampleOptions : ControllerOptions :=
  { publishers := [NewPublisherEntry 0], fetchMode := .Fallback, fetchTimeout := 0,
    filters := [], urlBlacklist := [], showTitle := false, cacheDir := [] }

/-- The start of the controller with `sampleOptions`. -/
def sampleStart : Machine :=
  { c := NewController sampleOptions, pending := [] }

/-- A snapshot in which `sampleMeta` plays from its beginning. -/
def playingSnapshot : MPRISProperties :=
  { Metadata := sampleMeta, Position := 0, PlaybackStatus := .Playing }

/-- A run of the controller: the track `sampleMeta` starts, its fetch task commits
`sampleLyrics`, and a tick is taken. -/
def playedTrace : Machine :=
  ((sampleStart.processed playingSnapshot).committed (1, sampleMeta) (some sampleLyrics)).ticked

/-- A run of the controller with the worker of its sink: the track `sampleMeta`
starts, its fetch task commits `sampleLyrics`, `timedSend` starts and takes a tick,
and the worker takes the clear instruction of the reset from the channel. -/
def servedTrace : Machine :=
  ((((sampleStart.processed playingSnapshot).committed (1, sampleMeta)
    (some sampleLyrics)).started).ticked).received 0

/-- A snapshot in which `embeddedMeta`, a track with embedded lyrics, plays from its
beginning. -/
def embeddedSnapshot : MPRISProperties :=
  { Metadata := embeddedMeta, Position := 0, PlaybackStatus := .Playing }

/-- The lyrics embedded in `embeddedMeta`, as `fetchLyrics` returns them. -/
def embeddedLyrics : Lyrics :=
  { Lines := [{ Position := 1000, Text := utf8 "hello" }], Source := utf8 "mpris" }

/-- A run of the controller: the track `embeddedMeta` starts, the snapshot of another
track without artists is handled, and then the fetch task launched for `embeddedMeta`
finishes with the embedded lyrics and commits. -/
def staleTrace : Machine :=
  ((sampleStart.processed embeddedSnapshot).processed invalidSnapshot).committed
    (1, embeddedMeta) (some embeddedLyrics)

instance (opt : ControllerOptions) : Decidable opt.Fresh := by
  unfold ControllerOptions.Fresh
  infer_instance

instance (c : Controller) (props : MPRISProperties) : Decidable (c.leavesEarly props) := by
  unfold Controller.leavesEarly
  infer_instance

/-! ## Theorems -/

theorem wrapInt64_of_isInt64 (x : Int) (h : IsInt64 x) : wrapInt64 x = x := by
  unfold IsInt64 at h
  unfold wrapInt64
  omega

theorem searchLoop_spec (f : Nat → Bool) (hf : ∀ a b, a ≤ b → f a = true → f b = true) :
    ∀ fuel i j, i ≤ j → j - i ≤ fuel →
      (∀ k, k < i → f k = false) → (∀ k, j ≤ k → f k = true) →
      (∀ k, k < searchLoop f fuel i j → f k = false) ∧
      (∀ k, searchLoop f fuel i j ≤ k → f k = true) ∧
      i ≤ searchLoop f fuel i j ∧ searchLoop f fuel i j ≤ j := by
  intro fuel
  induction fuel with
  | zero =>
    intro i j hij hfuel hlo hhi
    have : i = j := by omega
    subst this
    simp only [searchLoop]
    exact ⟨hlo, hhi, le_refl _, le_refl _⟩
  | succ fuel ih =>
    intro i j hij hfuel hlo hhi
    by_cases hlt : i < j
    · by_cases hfh : f ((i + j) / 2) = true
      · have hstep : searchLoop f (fuel + 1) i j = searchLoop f fuel i ((i + j) / 2) := by
          simp [searchLoop, hlt, hfh]
        rw [hstep]
        have := ih i ((i + j) / 2) (by omega) (by omega) hlo
          (fun k hk => hf _ _ hk hfh)
        exact ⟨this.1, this.2.1, this.2.2.1, by omega⟩
      · have hfh' : f ((i + j) / 2) = false := by simpa using hfh
        have hstep : searchLoop f (fuel + 1) i j = searchLoop f fuel ((i + j) / 2 + 1) j := by
          simp [searchLoop, hlt, hfh']
        rw [hstep]
        have := ih ((i + j) / 2 + 1) j (by omega) (by omega)
          (fun k hk => by
            by_contra hc
            have hk' : f k = true := by simpa using hc
            have := hf k ((i + j) / 2) (by omega) hk'
            simp [hfh'] at this)
          hhi
        exact ⟨this.1, this.2.1, by omega, this.2.2.2⟩
    · have : i = j := by omega
      subst this
      have hstep : searchLoop f (fuel + 1) i i = i := by simp [searchLoop]
      rw [hstep]
      exact ⟨hlo, hhi, le_refl _, le_refl _⟩

theorem atOrAfter_mono (l : Lyrics) (offPos : Int) (h : l.SortedByPosition) :
    ∀ a b, a ≤ b → l.atOrAfter offPos a = true → l.atOrAfter offPos b = true := by
  intro a b hab ha
  unfold Lyrics.atOrAfter at ha ⊢
  rcases hb : l.Lines[b]? with _ | lb
  · rfl
  · have hblt : b < l.Lines.length := by
      rcases Nat.lt_or_ge b l.Lines.length with h1 | h1
      · exact h1
      · rw [List.getElem?_eq_none h1] at hb; cases hb
    have halt : a < l.Lines.length := by omega
    rw [List.getElem?_eq_getElem halt] at ha
    rw [List.getElem?_eq_getElem hblt] at hb
    injection hb with hb
    subst hb
    simp only [decide_eq_true_eq] at ha ⊢
    rcases Nat.lt_or_ge a b with hlt | hge
    · have := (List.pairwise_iff_getElem.mp h) a b halt hblt hlt
      omega
    · have : a = b := by omega
      subst this
      exact ha

theorem indexOf_eq (l : Lyrics) (position offset : Int) :
    l.IndexOf position offset =
      (searchLoop (l.atOrAfter (wrapInt64 (position - offset))) l.Lines.length 0
        l.Lines.length : Nat) - 1 :=
  rfl

theorem indexOf_isLastBefore (l : Lyrics) (position offset : Int)
    (h : l.SortedByPosition) :
    IsLastBefore l (wrapInt64 (position - offset)) (l.IndexOf position offset) := by
  have hs := searchLoop_spec _ (atOrAfter_mono l (wrapInt64 (position - offset)) h)
    l.Lines.length 0 l.Lines.length (Nat.zero_le _)
    (by omega) (fun k hk => absurd hk (Nat.not_lt_zero k))
    (fun k hk => by unfold Lyrics.atOrAfter; rw [List.getElem?_eq_none hk])
  obtain ⟨hlo, hhi, -, hle⟩ := hs
  refine ⟨?_, ?_, ?_⟩
  · rw [indexOf_eq]; omega
  · rw [indexOf_eq]; omega
  · intro i line hi
    have key : (i : Int) ≤ l.IndexOf position offset ↔
        i < searchLoop (l.atOrAfter (wrapInt64 (position - offset))) l.Lines.length 0
          l.Lines.length := by
      rw [indexOf_eq]; omega
    rw [key]
    constructor
    · intro hlt
      have := hlo i hlt
      simp only [Lyrics.atOrAfter, hi, decide_eq_false_iff_not] at this
      omega
    · intro hpos
      by_contra hc
      have := hhi i (by omega)
      simp only [Lyrics.atOrAfter, hi, decide_eq_true_eq] at this
      omega

/-- C2 (amended): for lyrics whose lines are sorted by position and all integers
`position` and `offset` whose difference is a 64-bit value, `IndexOf(position,
offset)` is the greatest index `i` with `lines[i].position < position - offset`, or
-1 if there is none; with line positions [0, 1000, 2000], `IndexOf(500, 0) = 0` and
`IndexOf(2000, 0) = 1`. -/
theorem indexOf_greatest_strictly_before :
    (∀ (l : Lyrics) (position offset : Int), l.SortedByPosition →
      IsInt64 (position - offset) →
      IsLastBefore l (position - offset) (l.IndexOf position offset)) ∧
    (lyricsAt [0, 1000, 2000]).IndexOf 500 0 = 0 ∧
    (lyricsAt [0, 1000, 2000]).IndexOf 2000 0 = 1 := by
  refine ⟨?_, by decide, by decide⟩
  intro l position offset hs hr
  have := indexOf_isLastBefore l position offset hs
  rw [wrapInt64_of_isInt64 _ hr] at this
  exact this

/-- C2, witness: the amended statement at positions [0, 1000, 2000], position 1999
and offset 100. -/
theorem indexOf_greatest_strictly_before_witness :
    (lyricsAt [0, 1000, 2000]).SortedByPosition ∧ IsInt64 (1999 - 100) ∧
    IsLastBefore (lyricsAt [0, 1000, 2000]) (1999 - 100)
      ((lyricsAt [0, 1000, 2000]).IndexOf 1999 100) :=
  ⟨by unfold Lyrics.SortedByPosition; decide, by unfold IsInt64; decide,
   indexOf_greatest_strictly_before.1 _ 1999 100 (by unfold Lyrics.SortedByPosition; decide)
     (by unfold IsInt64; decide)⟩

/-- C2, counterexample: with line positions [0, 1000, 2000], `IndexOf(2000, 0)` is 1
although the line at index 2 has position 2000 <= 2000, so the result is not the
greatest index `i` with `lines[i].position <= position - offset`.  And with one
line at position 0, `IndexOf(0, -2^63)` is -1, the difference having wrapped around,
although 0 <= 0 - (-2^63). -/
theorem indexOf_not_greatest_at_or_before :
    (lyricsAt [0, 1000, 2000]).SortedByPosition ∧
    (lyricsAt [0, 1000, 2000]).IndexOf 2000 0 = 1 ∧
    ¬ IsLastAtOrBefore (lyricsAt [0, 1000, 2000]) (2000 - 0)
      ((lyricsAt [0, 1000, 2000]).IndexOf 2000 0) ∧
    (lyricsAt [0]).SortedByPosition ∧
    (lyricsAt [0]).IndexOf 0 (-9223372036854775808) = -1 ∧
    ¬ IsLastAtOrBefore (lyricsAt [0]) (0 - (-9223372036854775808))
      ((lyricsAt [0]).IndexOf 0 (-9223372036854775808)) := by
  refine ⟨by unfold Lyrics.SortedByPosition; decide, by decide, ?_,
    by unfold Lyrics.SortedByPosition; decide, by decide, ?_⟩
  · intro h
    have h2 := h.2.2 2 ⟨2000, []⟩ (by decide)
    have h3 : (lyricsAt [0, 1000, 2000]).IndexOf 2000 0 = 1 := by decide
    rw [h3] at h2
    have := h2.2 (by decide)
    omega
  · intro h
    have h2 := h.2.2 0 ⟨0, []⟩ (by decide)
    have h3 : (lyricsAt [0]).IndexOf 0 (-9223372036854775808) = -1 := by decide
    rw [h3] at h2
    have := h2.2 (by decide)
    omega

theorem filterLoop_spec (m : Matcher) (L : List LyricLine) :
    ∀ (count i : Nat) (filtered : List LyricLine) (n : Nat),
      i + count = L.length → filtered.length = L.length → n ≤ i →
      (keptLines m (L.take i)).length = n →
      (∀ k, k < n → filtered[k]? = (keptLines m (L.take i))[k]?) →
      (∀ k, i ≤ k → filtered[k]? = L[k]?) →
      (filterLoop m count i filtered n).1.take (filterLoop m count i filtered n).2
        = keptLines m L := by
  intro count
  induction count with
  | zero =>
    intro i filtered n hi hlen hn hkn hpre hpost
    have hiL : i = L.length := by omega
    subst hiL
    simp only [filterLoop]
    rw [List.take_length] at hkn hpre
    apply List.ext_getElem?
    intro k
    by_cases hk : k < n
    · rw [List.getElem?_take_of_lt hk]
      exact hpre k hk
    · rw [List.getElem?_take_eq_none (by omega)]
      rw [List.getElem?_eq_none (by omega)]
  | succ count ih =>
    intro i filtered n hi hlen hn hkn hpre hpost
    have hiL : i < L.length := by omega
    have hfi : filtered[i]? = some L[i] := by
      rw [hpost i (le_refl _), List.getElem?_eq_getElem hiL]
    have htake : L.take (i + 1) = L.take i ++ [L[i]] := by
      rw [List.take_succ, List.getElem?_eq_getElem hiL]; rfl
    by_cases hc : m.Contains L[i].Text = true
    · have hstep : filterLoop m (count + 1) i filtered n
          = filterLoop m count (i + 1) filtered n := by
        simp [filterLoop, hfi, hc]
      rw [hstep]
      have hk' : keptLines m (L.take (i + 1)) = keptLines m (L.take i) := by
        unfold keptLines; rw [htake, List.filter_append]; simp [List.filter, hc]
      apply ih (i + 1) filtered n (by omega) hlen (by omega)
      · rw [hk']; exact hkn
      · intro k hk; rw [hk']; exact hpre k hk
      · intro k hk; exact hpost k (by omega)
    · have hc' : m.Contains L[i].Text = false := by simpa using hc
      have hstep : filterLoop m (count + 1) i filtered n
          = filterLoop m count (i + 1) (filtered.set n L[i]) (n + 1) := by
        simp [filterLoop, hfi, hc']
      rw [hstep]
      have hk' : keptLines m (L.take (i + 1)) = keptLines m (L.take i) ++ [L[i]] := by
        unfold keptLines; rw [htake, List.filter_append]; simp [List.filter, hc']
      apply ih (i + 1) (filtered.set n L[i]) (n + 1) (by omega) (by simpa using hlen)
        (by omega)
      · rw [hk']; simp [hkn]
      · intro k hk
        rw [hk']
        by_cases hkn' : k = n
        · subst hkn'
          rw [List.getElem?_set_self (by omega)]
          rw [List.getElem?_append_right (by omega)]
          simp [hkn]
        · rw [List.getElem?_set_ne (by omega)]
          rw [List.getElem?_append_left (by omega)]
          exact hpre k (by omega)
      · intro k hk
        rw [List.getElem?_set_ne (by omega)]
        exact hpost k (by omega)

theorem setLyrics_lyrics (c : Controller) (l : Lyrics) :
    (c.setLyrics l).lyrics =
      match c.filterMatcher with
      | none => some l
      | some m => some { Source := l.Source, Lines := keptLines m l.Lines } := by
  unfold Controller.setLyrics
  cases hm : c.filterMatcher with
  | none => rfl
  | some m =>
    simp only
    rw [filterLoop_spec m l.Lines l.Lines.length 0 l.Lines 0 (by omega) rfl (le_refl _)
      (by simp [keptLines]) (fun k hk => absurd hk (Nat.not_lt_zero k)) (fun k _ => rfl)]

/-- C1: a fetch task that finishes with a request id other than the controller's
current one leaves the controller as it was (lyrics, position, every sink's sent index
and inbox) and starts no ticking task; a task that finishes with the current request
id and carries lyrics installs them, filtered by the filter matcher when there is
one, as the controller's lyrics. -/
theorem stale_fetch_dropped_current_installed :
    (∀ (c : Controller) (meta : MPRISMetadata) (reqID : Int) (lyrics : Option Lyrics)
        (shouldCache : Bool), reqID ≠ c.currentRequestID →
      (c.finishFetch meta reqID lyrics shouldCache).1 = c ∧
      Effect.timedSend ∉ (c.finishFetch meta reqID lyrics shouldCache).2) ∧
    (∀ (c : Controller) (meta : MPRISMetadata) (l : Lyrics) (shouldCache : Bool),
      (c.finishFetch meta c.currentRequestID (some l) shouldCache).1.lyrics =
        match c.filterMatcher with
        | none => some l
        | some m => some { Source := l.Source, Lines := keptLines m l.Lines }) := by
  constructor
  · intro c meta reqID lyrics shouldCache h
    have hc : c.commit reqID lyrics = (c, []) := by
      unfold Controller.commit
      rw [if_pos h]
    constructor
    · simp only [Controller.finishFetch, hc]
    · simp only [Controller.finishFetch, hc, List.append_nil]
      cases c.cache <;> cases lyrics <;> cases shouldCache <;> simp
  · intro c meta l shouldCache
    have hc : (c.commit c.currentRequestID (some l)).1 = c.setLyrics l := by
      unfold Controller.commit
      simp only [ne_eq, not_true_eq_false, if_false]
      split <;> rfl
    simp only [Controller.finishFetch, hc]
    exact setLyrics_lyrics c l

/-- C1, witness: request 2 finishing with lyrics while request 3 is the current one
of `sampleController`. -/
theorem stale_fetch_dropped_current_installed_witness :
    (2 : Int) ≠ sampleController.currentRequestID ∧
    (sampleController.finishFetch sampleMeta 2 (some (lyricsAt [5])) true).1
      = sampleController ∧
    Effect.timedSend ∉
      (sampleController.finishFetch sampleMeta 2 (some (lyricsAt [5])) true).2 :=
  ⟨by decide,
   stale_fetch_dropped_current_installed.1 sampleController sampleMeta 2
     (some (lyricsAt [5])) true (by decide)⟩

theorem tickLoop_fst (l : Lyrics) (position : Int) :
    ∀ (ps : List PublisherEntry) (allDone : Bool),
      (tickLoop l position ps allDone).1 = ps.map (tickedEntry l position) := by
  intro ps
  induction ps with
  | nil => intro allDone; rfl
  | cons p ps ih =>
    intro allDone
    simp only [tickLoop, List.map_cons, ih]
    congr 1
    unfold tickedEntry PublisherEntry.Send
    by_cases h1 : l.IndexOf position p.Offset = p.SentIndex
    · simp [h1]
    · by_cases h2 : p.ch.length < 16
      · simp [h1, h2]
      · simp [h1, h2]

theorem tick_fst (c : Controller) (l : Lyrics) (h : c.lyrics = some l) :
    (c.tick).1.position = c.position + 100 ∧
    (c.tick).1.publishers = c.publishers.map (tickedEntry l (c.position + 100)) ∧
    (c.tick).1.lyrics = some l := by
  unfold Controller.tick
  simp only [h]
  split <;> simp [tickLoop_fst, h]

/-- C3 (amended): on every tick of `timedSend` taken while lyrics is present, the
position advances by exactly 100 and afterwards every sink's sent index is
`IndexOf(position, sink.offset)` at the advanced position; the sink's inbox receives
a message on that tick iff this index differs from its previous sent index and the
inbox holds fewer than 16 messages, and the message is `lyrics.Get(index)`, the empty
string when the index is -1. -/
theorem tick_advances_and_dispatches (c : Controller) (l : Lyrics) (h : c.lyrics = some l) :
    (c.tick).1.position = c.position + 100 ∧
    (c.tick).1.publishers = c.publishers.map (tickedEntry l ((c.tick).1.position)) ∧
    l.Get (-1) = [] := by
  obtain ⟨h1, h2, -⟩ := tick_fst c l h
  refine ⟨h1, ?_, ?_⟩
  · rw [h1]; exact h2
  · simp [Lyrics.Get]

/-- C3, witness: a tick of `sampleController`, from position 900 to 1000. -/
theorem tick_advances_and_dispatches_witness :
    sampleController.lyrics = some sampleLyrics ∧
    (sampleController.tick).1.position = 900 + 100 ∧
    (sampleController.tick).1.publishers =
      [⟨[], 0, 0⟩, ⟨[utf8 "a", utf8 "a"], 500, 0⟩] :=
  ⟨rfl,
   (tick_advances_and_dispatches sampleController sampleLyrics rfl).1,
   by decide⟩

/-- C3, counterexample: a sink with 16 pending messages and sent index -1, ticked
from position 900 to 1000 over lines at 0, 1000 and 2000: the index of the current
line is 0 and differs from the sent index, the sent index becomes 0, and yet no
message is added to the inbox. -/
theorem tick_full_inbox_not_enqueued :
    ({ sampleController with publishers := [fullSink] }).lyrics = some sampleLyrics ∧
    sampleLyrics.IndexOf 1000 fullSink.Offset ≠ fullSink.SentIndex ∧
    (({ sampleController with publishers := [fullSink] }).tick).1.publishers =
      [{ fullSink with SentIndex := 0 }] ∧
    ¬ TickedAsSpecified sampleLyrics 1000 fullSink { fullSink with SentIndex := 0 } := by
  refine ⟨rfl, by decide, by decide, ?_⟩
  intro h
  have h3 := h.2.2
  revert h3
  decide

theorem durationAbs_le_iff (d : Int) : durationAbs d ≤ 2 * Second ↔ |d| ≤ 2 * Second := by
  unfold durationAbs Second
  rw [abs_le]
  split_ifs <;> omega

theorem checkCandidate_iff (meta : MPRISMetadata) (candidate : Candidate)
    (h : IsInt64 (meta.Duration - candidate.Duration)) :
    checkCandidate meta candidate (StripTitle meta.Title) meta.Artists = true ↔
      Accepts meta candidate := by
  unfold checkCandidate Accepts
  rw [wrapInt64_of_isInt64 _ h]
  have hd := durationAbs_le_iff (meta.Duration - candidate.Duration)
  by_cases ht : (candidate.Titles.any
      (fun t => t == meta.Title || StripTitle t == StripTitle meta.Title)) = true
  · have ht' : ∃ t ∈ candidate.Titles,
        t = meta.Title ∨ StripTitle t = StripTitle meta.Title := by
      simpa [List.any_eq_true] using ht
    by_cases ha : (candidate.Artists.any (fun a => meta.Artists.contains a)) = true
    · have ha' : ∃ a ∈ candidate.Artists, a ∈ meta.Artists := by
        simpa [List.any_eq_true] using ha
      by_cases hdur : durationAbs (meta.Duration - candidate.Duration) > 2 * Second
      · have : ¬ |meta.Duration - candidate.Duration| ≤ 2 * Second := by
          rw [← hd]; omega
        simp [ht, ha, hdur, this]
      · have : |meta.Duration - candidate.Duration| ≤ 2 * Second := by
          rw [← hd]; omega
        simp only [ht, ha, hdur, Bool.not_true, Bool.false_eq_true, if_false, true_iff]
        exact ⟨ht', ha', this⟩
    · have ha' : ¬ ∃ a ∈ candidate.Artists, a ∈ meta.Artists := by
        simpa [List.any_eq_true] using ha
      simp only [ht, ha, Bool.not_true, Bool.false_eq_true, if_false, Bool.not_false,
        if_true, false_iff]
      exact fun hh => ha' hh.2.1
  · have ht' : ¬ ∃ t ∈ candidate.Titles,
        t = meta.Title ∨ StripTitle t = StripTitle meta.Title := by
      simpa [List.any_eq_true] using ht
    simp only [ht, Bool.not_false, if_true, Bool.false_eq_true, false_iff]
    exact fun hh => ht' hh.1

/-- C4: for every metadata and candidate whose duration difference does not
overflow, `checkCandidate` called with `altTitle = StripTitle(meta.Title)` and the
set of `meta.Artists` accepts iff some candidate title equals the title or strips to
the same stripped title, some candidate artist is one of the track's artists, and the
durations differ by at most 2 s; so with matching title and artist a difference of
exactly 2000 ms is accepted and one of 2001 ms is rejected. -/
theorem checkCandidate_accepts_iff :
    (∀ (meta : MPRISMetadata) (candidate : Candidate),
      IsInt64 (meta.Duration - candidate.Duration) →
      (checkCandidate meta candidate (StripTitle meta.Title) meta.Artists = true ↔
        (∃ t ∈ candidate.Titles, t = meta.Title ∨ StripTitle t = StripTitle meta.Title) ∧
        (∃ a ∈ candidate.Artists, a ∈ meta.Artists) ∧
        |meta.Duration - candidate.Duration| ≤ 2 * Second)) ∧
    (∀ (meta : MPRISMetadata) (candidate : Candidate),
      (∃ t ∈ candidate.Titles, t = meta.Title ∨ StripTitle t = StripTitle meta.Title) →
      (∃ a ∈ candidate.Artists, a ∈ meta.Artists) →
      (|meta.Duration - candidate.Duration| = 2000 * Millisecond →
        checkCandidate meta candidate (StripTitle meta.Title) meta.Artists = true) ∧
      (|meta.Duration - candidate.Duration| = 2001 * Millisecond →
        checkCandidate meta candidate (StripTitle meta.Title) meta.Artists = false)) := by
  refine ⟨fun meta candidate h => checkCandidate_iff meta candidate h, ?_⟩
  intro meta candidate ht ha
  constructor
  · intro hd
    have hr : IsInt64 (meta.Duration - candidate.Duration) := by
      have := abs_le.mp (le_of_eq hd)
      unfold Millisecond at this
      unfold IsInt64
      omega
    rw [checkCandidate_iff meta candidate hr]
    refine ⟨ht, ha, ?_⟩
    rw [hd]; unfold Millisecond Second; omega
  · intro hd
    have hr : IsInt64 (meta.Duration - candidate.Duration) := by
      have := abs_le.mp (le_of_eq hd)
      unfold Millisecond at this
      unfold IsInt64
      omega
    have hiff := checkCandidate_iff meta candidate hr
    cases hcc : checkCandidate meta candidate (StripTitle meta.Title) meta.Artists with
    | false => rfl
    | true =>
      have hacc := (hiff.mp hcc).2.2
      rw [hd] at hacc
      unfold Millisecond Second at hacc
      omega

/-- C4, witness: `sampleCandidate`, 1.9 s longer than `sampleMeta`, is accepted. -/
theorem checkCandidate_accepts_iff_witness :
    IsInt64 (sampleMeta.Duration - sampleCandidate.Duration) ∧
    checkCandidate sampleMeta sampleCandidate (StripTitle sampleMeta.Title)
      sampleMeta.Artists = true :=
  ⟨by unfold IsInt64; decide,
   (checkCandidate_accepts_iff.1 sampleMeta sampleCandidate
      (by unfold IsInt64; decide)).mpr
     ⟨⟨utf8 "Song", by decide, Or.inl (by decide)⟩,
      ⟨utf8 "Band", by decide, by decide⟩,
      by decide⟩⟩

theorem readLE32_le32 (x : Nat) (rest : Bytes) (h : x < 4294967296) :
    readLE32 (le32 x ++ rest) = some x := by
  simp only [le32, readLE32, List.cons_append, List.nil_append, Option.some.injEq]
  omega

theorem readLE16_le16 (x : Nat) (rest : Bytes) (h : x < 65536) :
    readLE16 (le16 x ++ rest) = some x := by
  simp only [le16, readLE16, List.cons_append, List.nil_append, Option.some.injEq]
  omega

theorem length_le32 (x : Nat) : (le32 x).length = 4 := rfl

theorem length_le16 (x : Nat) : (le16 x).length = 2 := rfl

theorem length_encodeRecord (line : LyricLine) :
    (encodeRecord line).length = line.Text.length + 6 := by
  simp [encodeRecord, length_le32, length_le16]; omega

theorem length_encodeBody (lines : List LyricLine) (source : Bytes) :
    (encodeBody { Lines := lines, Source := source }).length
      = bodySizeOf { Lines := lines, Source := source } := by
  induction lines with
  | nil => rfl
  | cons line rest ih =>
    simp only [encodeBody, bodySizeOf, List.map_cons, List.flatten_cons, List.length_append,
      List.sum_cons, length_encodeRecord] at ih ⊢
    rw [ih]

theorem decodeLines_step (pre tail t : Bytes) (p count : Nat)
    (hp : p < 4294967296) (ht : t.length < 65536) :
    decodeLines (pre ++ (le32 p ++ (le16 t.length ++ (t ++ tail)))) (count + 1) pre.length
      = (decodeLines (pre ++ (le32 p ++ (le16 t.length ++ (t ++ tail)))) count
          (pre.length + 6 + t.length)).map
          (fun rest => { Position := (p : Int), Text := t } :: rest) := by
  have hd0 : List.drop pre.length (pre ++ (le32 p ++ (le16 t.length ++ (t ++ tail))))
      = le32 p ++ (le16 t.length ++ (t ++ tail)) :=
    List.drop_left _ _
  have hd4 : List.drop (pre.length + 4) (pre ++ (le32 p ++ (le16 t.length ++ (t ++ tail))))
      = le16 t.length ++ (t ++ tail) := by
    rw [← List.append_assoc pre]
    have : pre.length + 4 = (pre ++ le32 p).length := by
      rw [List.length_append, length_le32]
    rw [this]
    exact List.drop_left _ _
  have hd6 : List.drop (pre.length + 6) (pre ++ (le32 p ++ (le16 t.length ++ (t ++ tail))))
      = t ++ tail := by
    rw [← List.append_assoc pre, ← List.append_assoc (pre ++ _)]
    have : pre.length + 6 = (pre ++ le32 p ++ le16 t.length).length := by
      rw [List.length_append, List.length_append, length_le32, length_le16]
    rw [this]
    exact List.drop_left _ _
  have hbound : pre.length + 6 + t.length
      ≤ (pre ++ (le32 p ++ (le16 t.length ++ (t ++ tail)))).length := by
    simp only [List.length_append, length_le32, length_le16]; omega
  rw [decodeLines, hd0, hd4, hd6, readLE32_le32 p _ hp, readLE16_le16 t.length _ ht]
  simp only [if_pos hbound, List.take_left]
  cases decodeLines (pre ++ (le32 p ++ (le16 t.length ++ (t ++ tail)))) count
    (pre.length + 6 + t.length) <;> rfl

theorem decodeLines_encode (lines : List LyricLine) :
    ∀ (pre post : Bytes),
      (∀ line ∈ lines, line.Text.length ≤ 65535 ∧ 0 ≤ line.Position ∧
        line.Position < 4294967296) →
      decodeLines (pre ++ (lines.map encodeRecord).flatten ++ post) lines.length pre.length
        = some lines := by
  induction lines with
  | nil => intro pre post _; rfl
  | cons line rest ih =>
    intro pre post h
    obtain ⟨hlen, hp0, hp1⟩ := h line (List.mem_cons_self _ _)
    have hrest := ih (pre ++ encodeRecord line) post
      (fun l hl => h l (List.mem_cons_of_mem _ hl))
    have hu32 : uint32 line.Position = line.Position.toNat := by
      unfold uint32; congr 1; omega
    have hu16 : uint16 (line.Text.length : Int) = line.Text.length := by
      unfold uint16; omega
    have hshape : pre ++ ((line :: rest).map encodeRecord).flatten ++ post
        = pre ++ (le32 line.Position.toNat ++ (le16 line.Text.length ++
            (line.Text ++ ((rest.map encodeRecord).flatten ++ post)))) := by
      simp [encodeRecord, List.append_assoc, hu32, hu16]
    have hshape' : pre ++ encodeRecord line ++ (rest.map encodeRecord).flatten ++ post
        = pre ++ (le32 line.Position.toNat ++ (le16 line.Text.length ++
            (line.Text ++ ((rest.map encodeRecord).flatten ++ post)))) := by
      simp [encodeRecord, List.append_assoc, hu32, hu16]
    have hlenpre : (pre ++ encodeRecord line).length = pre.length + 6 + line.Text.length := by
      rw [List.length_append, length_encodeRecord]; omega
    rw [hshape', hlenpre] at hrest
    rw [hshape, List.length_cons,
      decodeLines_step pre _ line.Text line.Position.toNat rest.length (by omega) (by omega),
      hrest]
    simp only [Option.map_some', Option.some.injEq, List.cons.injEq, and_true]
    cases line with
    | mk p t =>
      simp only [LyricLine.mk.injEq, and_true]
      simp only at hp0
      omega

theorem frame_fields (sig src comp : Bytes) (bs lc : Nat)
    (hsig : sig.length = 4) (hsrc : src.length = 6) (hbs : bs < 4294967296) (hlc : lc < 65536) :
    (sig ++ le32 bs ++ le16 lc ++ src ++ comp).take 4 = sig ∧
    readLE32 ((sig ++ le32 bs ++ le16 lc ++ src ++ comp).drop 4) = some bs ∧
    readLE16 ((sig ++ le32 bs ++ le16 lc ++ src ++ comp).drop 8) = some lc ∧
    ((sig ++ le32 bs ++ le16 lc ++ src ++ comp).drop 10).take 6 = src ∧
    (sig ++ le32 bs ++ le16 lc ++ src ++ comp).drop 16 = comp ∧
    ¬ (sig ++ le32 bs ++ le16 lc ++ src ++ comp).length < 16 := by
  refine ⟨?_, ?_, ?_, ?_, ?_, ?_⟩
  · have h : sig ++ le32 bs ++ le16 lc ++ src ++ comp
        = sig ++ (le32 bs ++ le16 lc ++ src ++ comp) := by simp [List.append_assoc]
    rw [h, ← hsig]
    exact List.take_left _ _
  · have h : sig ++ le32 bs ++ le16 lc ++ src ++ comp
        = sig ++ (le32 bs ++ (le16 lc ++ src ++ comp)) := by simp [List.append_assoc]
    rw [h, ← hsig, List.drop_left]
    exact readLE32_le32 bs _ hbs
  · have h : sig ++ le32 bs ++ le16 lc ++ src ++ comp
        = (sig ++ le32 bs) ++ (le16 lc ++ (src ++ comp)) := by simp [List.append_assoc]
    have h8 : 8 = (sig ++ le32 bs).length := by
      rw [List.length_append, length_le32, hsig]
    rw [h, h8, List.drop_left]
    exact readLE16_le16 lc _ hlc
  · have h : sig ++ le32 bs ++ le16 lc ++ src ++ comp
        = (sig ++ le32 bs ++ le16 lc) ++ (src ++ comp) := by simp [List.append_assoc]
    have h10 : 10 = (sig ++ le32 bs ++ le16 lc).length := by
      rw [List.length_append, List.length_append, length_le32, length_le16, hsig]
    rw [h, h10, List.drop_left, ← hsrc]
    exact List.take_left _ _
  · have h16 : 16 = (sig ++ le32 bs ++ le16 lc ++ src).length := by
      rw [List.length_append, List.length_append, List.length_append, length_le32,
        length_le16, hsig, hsrc]
    rw [h16, List.drop_left]
  · simp only [List.length_append, length_le32, length_le16, hsig, hsrc]
    omega

theorem length_padSource (source : Bytes) (h : source.length ≤ 6) :
    (padSource source).length = 6 := by
  unfold padSource
  rw [List.length_append, List.length_replicate, List.take_of_length_le h]
  omega

theorem dropWhile_zero_replicate (k : Nat) (l : Bytes) :
    (List.replicate k 0 ++ l).dropWhile (fun b => decide (b = 0))
      = l.dropWhile (fun b => decide (b = 0)) := by
  induction k with
  | zero => rfl
  | succ k ih => simp [List.replicate_succ, List.dropWhile_cons, ih]

theorem trimSource_padSource (source : Bytes) (h : source.length ≤ 6)
    (hlast : source.getLast? ≠ some 0) : trimSource (padSource source) = source := by
  unfold trimSource padSource
  rw [List.take_of_length_le h, List.reverse_append, List.reverse_replicate,
    dropWhile_zero_replicate]
  have : source.reverse.dropWhile (fun b => decide (b = 0)) = source.reverse := by
    cases hr : source.reverse with
    | nil => rfl
    | cons x xs =>
      have hx : source.getLast? = some x := by
        rw [List.getLast?_eq_head?_reverse, hr]; rfl
      have : x ≠ 0 := by
        intro h0
        rw [h0] at hx
        exact hlast hx
      simp [List.dropWhile_cons, this]
  rw [this, List.reverse_reverse]

theorem decodeFrame_encodeFrame (z : LZ4) (l : Lyrics) (frame : Bytes)
    (hz : z.Inverts) (hf : l.FitsFields) (hb : bodySizeOf l < 4294967296)
    (he : encodeFrame z l = some frame) : decodeFrame z frame = .ok l := by
  obtain ⟨hcount, hlines, hsrc, hlast⟩ := hf
  unfold encodeFrame at he
  cases hcomp : z.compress (encodeBody l) with
  | none => rw [hcomp] at he; cases he
  | some compressed =>
    rw [hcomp] at he
    simp only [Option.some.injEq] at he
    have hu32 : uint32 (bodySizeOf l : Int) = bodySizeOf l := by unfold uint32; omega
    have hu16 : uint16 (l.Lines.length : Int) = l.Lines.length := by unfold uint16; omega
    rw [hu32, hu16] at he
    have hsig : signature.length = 4 := rfl
    obtain ⟨f1, f2, f3, f4, f5, f6⟩ := frame_fields signature (padSource l.Source) compressed
      (bodySizeOf l) l.Lines.length hsig (length_padSource _ hsrc) hb (by omega)
    have hfile : frame = signature ++ le32 (bodySizeOf l) ++ le16 l.Lines.length
        ++ padSource l.Source ++ compressed := by
      rw [← he]; simp [encodeHeader, List.append_assoc]
    have hdec : z.UncompressBlock compressed (bodySizeOf l) = some (encodeBody l) := by
      unfold LZ4.UncompressBlock
      rw [hz _ _ hcomp]
      have hl : (encodeBody l).length = bodySizeOf l := by
        cases l with
        | mk lines source => exact length_encodeBody lines source
      simp [hl]
    have hdl : decodeLines (encodeBody l) l.Lines.length 0 = some l.Lines := by
      have := decodeLines_encode l.Lines [] [] hlines
      simpa [encodeBody] using this
    unfold decodeFrame
    rw [hfile, if_neg f6]
    simp only [f1, f2, f3, f4, f5, Option.getD_some, ne_eq, not_true_eq_false, if_false, hdec,
      hdl, trimSource_padSource _ hsrc hlast]

theorem get_after_set (c : Cache) (z : LZ4) (fs fs' : FS) (meta : MPRISMetadata)
    (l : Lyrics) (hset : c.Set z fs meta l = .ok fs') :
    ∃ frame, encodeFrame z l = some frame ∧ c.Get z fs' meta = decodeFrame z frame := by
  unfold Cache.Set at hset
  cases he : encodeFrame z l with
  | none => rw [he] at hset; cases hset
  | some frame =>
    rw [he] at hset
    simp only [Except.ok.injEq] at hset
    refine ⟨frame, rfl, ?_⟩
    unfold Cache.Get
    rw [← hset]
    simp [renameFile, writeFile]

theorem storeCodec_inverts : storeCodec.Inverts := by
  intro b c h
  simp only [storeCodec, Option.some.injEq] at h ⊢
  exact h.symm

theorem bodySizeOf_uniform (n k : Nat) : bodySizeOf (uniformLyrics n k) = n * (k + 6) := by
  simp only [bodySizeOf, uniformLyrics, List.map_replicate, List.length_replicate,
    List.sum_replicate, smul_eq_mul]

theorem uniform_fitsFields (n k : Nat) (hn : n ≤ 65535) (hk : k ≤ 65535) :
    (uniformLyrics n k).FitsFields := by
  refine ⟨by simpa [uniformLyrics] using hn, ?_, by simp [uniformLyrics], by simp [uniformLyrics]⟩
  intro line hline
  simp only [uniformLyrics] at hline
  rw [List.eq_of_mem_replicate hline]
  simp only [List.length_replicate]
  omega

theorem uniform_lines_length (n k : Nat) : (uniformLyrics n k).Lines.length = n := by
  simp [uniformLyrics]

theorem uniform_source_length (n k : Nat) : (uniformLyrics n k).Source.length = 0 := rfl

theorem decodeFrame_oversized (l : Lyrics) (hsrc : l.Source.length ≤ 6)
    (hlen : l.Lines.length ≤ 65535) (hb : 4294967296 ≤ bodySizeOf l)
    (frame : Bytes) (he : encodeFrame storeCodec l = some frame) :
    decodeFrame storeCodec frame = .error .Codec := by
  unfold encodeFrame at he
  simp only [storeCodec, Option.some.injEq] at he
  have hu16 : uint16 (l.Lines.length : Int) = l.Lines.length := by unfold uint16; omega
  have hu32 : uint32 (bodySizeOf l : Int) < 4294967296 := by unfold uint32; omega
  obtain ⟨f1, f2, f3, f4, f5, f6⟩ := frame_fields signature (padSource l.Source) (encodeBody l)
    (uint32 (bodySizeOf l)) l.Lines.length rfl (length_padSource _ hsrc) hu32 (by omega)
  have hfile : frame = signature ++ le32 (uint32 (bodySizeOf l)) ++ le16 l.Lines.length
      ++ padSource l.Source ++ encodeBody l := by
    rw [← he, hu16]; simp [encodeHeader, List.append_assoc]
  have hl : (encodeBody l).length = bodySizeOf l := by
    cases l with
    | mk lines source => exact length_encodeBody lines source
  have hdec : storeCodec.UncompressBlock (encodeBody l) (uint32 (bodySizeOf l)) = none := by
    unfold LZ4.UncompressBlock
    simp only [storeCodec, hl]
    rw [if_neg (by omega)]
  unfold decodeFrame
  rw [hfile, if_neg f6]
  simp only [f1, f2, f5, Option.getD_some, ne_eq, not_true_eq_false, if_false, hdec]

theorem boundedStoreCodec_inverts : boundedStoreCodec.Inverts := by
  intro b c h
  simp only [boundedStoreCodec] at h ⊢
  split at h
  · simp only [Option.some.injEq] at h
    rw [h]
  · cases h

theorem boundedStoreCodec_bounded : boundedStoreCodec.Bounded := by
  intro b c h
  simp only [boundedStoreCodec] at h
  split at h
  · assumption
  · cases h

theorem bodySize_of_bounded (z : LZ4) (l : Lyrics) (frame : Bytes) (hb : z.Bounded)
    (he : encodeFrame z l = some frame) : bodySizeOf l < 4294967296 := by
  unfold encodeFrame at he
  cases hcomp : z.compress (encodeBody l) with
  | none => rw [hcomp] at he; cases he
  | some compressed =>
    have := hb _ _ hcomp
    have hl : (encodeBody l).length = bodySizeOf l := by
      cases l with
      | mk lines source => exact length_encodeBody lines source
    omega

/-- C5: for every Lyrics with at most 65535 lines, every text of at most 65535 bytes,
every position in `[0, 2^32)` and a source of at most 6 bytes not ending in a NUL
byte, and assuming that LZ4 block decompression inverts compression, where the
compressor returns its error on a block of 2^32 bytes or more, `Cache.Get` on the file
written by `Cache.Set` for the same metadata returns the Lyrics written, with the same
source and the same sequence of lines. -/
theorem cache_round_trip (c : Cache) (z : LZ4) (fs fs' : FS) (meta : MPRISMetadata)
    (l : Lyrics) (hz : z.Inverts) (hb : z.Bounded) (hf : l.FitsFields)
    (hset : c.Set z fs meta l = .ok fs') :
    c.Get z fs' meta = .ok l := by
  obtain ⟨frame, he, hget⟩ := get_after_set c z fs fs' meta l hset
  rw [hget]
  exact decodeFrame_encodeFrame z l frame hz hf (bodySize_of_bounded z l frame hb he) he

/-- C5, witness: the lyrics `lrclib`, [(0, "a"), (1000, "b")] written to an empty
file system with the bounded storing codec and read back. -/
theorem cache_round_trip_witness :
    boundedStoreCodec.Inverts ∧ boundedStoreCodec.Bounded ∧
    (⟨[⟨0, utf8 "a"⟩, ⟨1000, utf8 "b"⟩], utf8 "lrclib"⟩ : Lyrics).FitsFields ∧
    sampleCache.Set boundedStoreCodec emptyFS sampleMeta
        ⟨[⟨0, utf8 "a"⟩, ⟨1000, utf8 "b"⟩], utf8 "lrclib"⟩
      = .ok (renameFile (writeFile emptyFS (sampleCache.filePath sampleMeta ++ utf8 ".tmp")
            [108, 114, 99, 100, 14, 0, 0, 0, 2, 0, 108, 114, 99, 108, 105, 98,
             0, 0, 0, 0, 1, 0, 97, 232, 3, 0, 0, 1, 0, 98])
          (sampleCache.filePath sampleMeta ++ utf8 ".tmp") (sampleCache.filePath sampleMeta)) ∧
    sampleCache.Get boundedStoreCodec
        (renameFile (writeFile emptyFS (sampleCache.filePath sampleMeta ++ utf8 ".tmp")
            [108, 114, 99, 100, 14, 0, 0, 0, 2, 0, 108, 114, 99, 108, 105, 98,
             0, 0, 0, 0, 1, 0, 97, 232, 3, 0, 0, 1, 0, 98])
          (sampleCache.filePath sampleMeta ++ utf8 ".tmp") (sampleCache.filePath sampleMeta))
        sampleMeta
      = .ok ⟨[⟨0, utf8 "a"⟩, ⟨1000, utf8 "b"⟩], utf8 "lrclib"⟩ :=
  have hfit : (⟨[⟨0, utf8 "a"⟩, ⟨1000, utf8 "b"⟩], utf8 "lrclib"⟩ : Lyrics).FitsFields := by
    unfold Lyrics.FitsFields; decide
  ⟨boundedStoreCodec_inverts, boundedStoreCodec_bounded, hfit, by rfl,
   cache_round_trip sampleCache boundedStoreCodec emptyFS _ sampleMeta
     ⟨[⟨0, utf8 "a"⟩, ⟨1000, utf8 "b"⟩], utf8 "lrclib"⟩ boundedStoreCodec_inverts
     boundedStoreCodec_bounded hfit (by rfl)⟩

theorem set_fails_oversized (c : Cache) (fs : FS) (meta : MPRISMetadata) (l : Lyrics)
    (h : 4294967296 ≤ bodySizeOf l) : c.Set boundedStoreCodec fs meta l = .error .Codec := by
  have hl : (encodeBody l).length = bodySizeOf l := by
    cases l with
    | mk lines source => exact length_encodeBody lines source
  have hc : boundedStoreCodec.compress (encodeBody l) = none := by
    simp only [boundedStoreCodec, hl]
    rw [if_neg (by omega)]
  simp only [Cache.Set, encodeFrame, hc]

/-- The bound on the compressor is used: 65535 lines of 65535 bytes each make a body
of 65535 * 65541 bytes, more than the 32-bit `BodySize` of the header can hold, and
with a codec that stored such a body as it is `Cache.Get` would fail on the file of
`Cache.Set`; with the bounded storing codec `Cache.Set` fails and writes nothing. -/
theorem oversized_body_needs_bounded_compressor :
    (uniformLyrics 65535 65535).FitsFields ∧
    sampleCache.Get storeCodec
        (sampleCache.written storeCodec emptyFS sampleMeta (uniformLyrics 65535 65535))
        sampleMeta
      = .error .Codec ∧
    sampleCache.Set boundedStoreCodec emptyFS sampleMeta (uniformLyrics 65535 65535)
      = .error .Codec := by
  have hfs : sampleCache.Set storeCodec emptyFS sampleMeta (uniformLyrics 65535 65535)
      = .ok (sampleCache.written storeCodec emptyFS sampleMeta (uniformLyrics 65535 65535)) :=
    rfl
  refine ⟨uniform_fitsFields _ _ (le_refl _) (le_refl _), ?_, ?_⟩
  · obtain ⟨frame, he, hget⟩ := get_after_set _ _ _ _ _ _ hfs
    rw [hget]
    refine decodeFrame_oversized _ ?_ ?_ ?_ frame he
    · rw [uniform_source_length]; omega
    · rw [uniform_lines_length]
    · rw [bodySizeOf_uniform]; norm_num
  · refine set_fails_oversized _ _ _ _ ?_
    rw [bodySizeOf_uniform]; norm_num

theorem decimalFrom_ge (ds : Bytes) : ∀ n : Int, 0 ≤ n → n ≤ decimalFrom n ds := by
  induction ds with
  | nil => intro n _; exact le_refl _
  | cons d ds ih =>
    intro n hn
    have := ih (n * 10 + ((d - 48 : Nat) : Int)) (by omega)
    simp only [decimalFrom, List.foldl_cons] at this ⊢
    omega

theorem decimalFrom_lt (ds : Bytes) (hds : AllDigits ds) :
    ∀ n : Int, 0 ≤ n → decimalFrom n ds < (n + 1) * 10 ^ ds.length := by
  induction ds with
  | nil => intro n _; simp [decimalFrom]
  | cons d ds ih =>
    intro n hn
    have hd := hds d (List.mem_cons_self _ _)
    have h1 := ih (fun x hx => hds x (List.mem_cons_of_mem _ hx))
      (n * 10 + ((d - 48 : Nat) : Int)) (by omega)
    have hpow : (0 : Int) < 10 ^ ds.length := by positivity
    have h2 : (n * 10 + ((d - 48 : Nat) : Int) + 1) * 10 ^ ds.length
        ≤ (n * 10 + 10) * 10 ^ ds.length :=
      mul_le_mul_of_nonneg_right (by omega) (le_of_lt hpow)
    simp only [decimalFrom, List.foldl_cons, List.length_cons, pow_succ] at h1 ⊢
    calc List.foldl (fun n d => n * 10 + ((d - 48 : Nat) : Int))
          (n * 10 + ((d - 48 : Nat) : Int)) ds
        < (n * 10 + ((d - 48 : Nat) : Int) + 1) * 10 ^ ds.length := h1
      _ ≤ (n * 10 + 10) * 10 ^ ds.length := h2
      _ = (n + 1) * (10 ^ ds.length * 10) := by ring

theorem decimal_bounds (ds : Bytes) (hds : AllDigits ds) (hlen : ds.length ≤ 12) :
    0 ≤ decimal ds ∧ decimal ds < 1000000000000 := by
  constructor
  · exact decimalFrom_ge ds 0 (le_refl _)
  · have h1 := decimalFrom_lt ds hds 0 (le_refl _)
    have h2 : (10 : Int) ^ ds.length ≤ 10 ^ 12 := pow_le_pow_right₀ (by norm_num) hlen
    have h3 : (10 : Int) ^ 12 = 1000000000000 := by norm_num
    unfold decimal
    omega

theorem posLoop_digits (ds : Bytes) (hds : AllDigits ds) :
    ∀ (rest : Bytes) (i : Nat) (st : PosState),
      0 ≤ st.n → decimalFrom st.n ds ≤ 9223372036854775807 →
      posLoop (ds ++ rest) i st
        = posLoop rest (i + ds.length) { st with n := decimalFrom st.n ds } := by
  induction ds with
  | nil => intro rest i st _ _; rfl
  | cons d ds ih =>
    intro rest i st hn hmax
    have hd := hds d (List.mem_cons_self _ _)
    have hne : ¬ (d = 58 ∨ d = 46) := by omega
    have hval : (d + 256 - 48) % 256 = d - 48 := by omega
    have hle : ¬ (d + 256 - 48) % 256 > 9 := by omega
    have hstep : decimalFrom st.n (d :: ds)
        = decimalFrom (st.n * 10 + ((d - 48 : Nat) : Int)) ds := rfl
    rw [hstep] at hmax
    have hge := decimalFrom_ge ds (st.n * 10 + ((d - 48 : Nat) : Int)) (by omega)
    have hw : wrapInt64 (wrapInt64 (st.n * 10) + ((d - 48 : Nat) : Int))
        = st.n * 10 + ((d - 48 : Nat) : Int) := by
      unfold wrapInt64; omega
    rw [List.cons_append, posLoop, if_neg hne]
    simp only [hle, if_false]
    rw [hval, hw]
    rw [ih (fun x hx => hds x (List.mem_cons_of_mem _ hx)) rest (i + 1)
      { st with n := st.n * 10 + ((d - 48 : Nat) : Int) } (by simp only; omega)
      (by simpa using hmax)]
    simp only [hstep, List.length_cons]
    congr 1
    omega

theorem posLoop_sep (c : Nat) (hc : c = 58 ∨ c = 46) (rest : Bytes) (i : Nat) (st : PosState)
    (hr : IsInt64 (st.sec * 60) ∧ IsInt64 (st.sec * 60 + st.n)) :
    posLoop (c :: rest) i st
      = posLoop rest (i + 1)
          { n := 0, sec := st.sec * 60 + st.n, sepIdx := i, sepCnt := st.sepCnt + 1 } := by
  rw [posLoop, if_pos hc, wrapInt64_of_isInt64 _ hr.1, wrapInt64_of_isInt64 _ hr.2]

theorem parse_minutes_seconds (M S : Bytes) (hM : AllDigits M) (hS : AllDigits S)
    (hS2 : S.length = 2) (hlen : 5 ≤ (M ++ 58 :: S).length ∧ (M ++ 58 :: S).length ≤ 12) :
    parseLRCPosition (M ++ 58 :: S) = some ((decimal M * 60 + decimal S) * 1000) := by
  have hL : (M ++ 58 :: S).length = M.length + 1 + S.length := by simp; omega
  rw [hL] at hlen
  obtain ⟨hM0, hM1⟩ := decimal_bounds M hM (by omega)
  obtain ⟨hS0, hS1⟩ := decimal_bounds S hS (by omega)
  have hloop : posLoop (M ++ 58 :: S) 0 { n := 0, sec := 0, sepIdx := 0, sepCnt := 0 }
      = some { n := decimal S, sec := decimal M, sepIdx := M.length, sepCnt := 1 } := by
    rw [posLoop_digits M hM _ _ _ (le_refl _) (by unfold decimal at hM1; simp only; omega),
      posLoop_sep 58 (Or.inl rfl) _ _ _
        (by unfold decimal at hM0 hM1; unfold IsInt64; simp only; omega)]
    have := posLoop_digits S hS [] (0 + M.length + 1)
      { n := 0, sec := (0 : Int) * 60 + decimalFrom 0 M, sepIdx := 0 + M.length, sepCnt := 0 + 1 }
      (le_refl _) (by unfold decimal at hS1; simp only; omega)
    rw [List.append_nil] at this
    rw [this]
    simp [posLoop, decimal]
  have hidx : (M ++ 58 :: S)[M.length]? = some 58 := by
    rw [List.getElem?_append_right (le_refl _)]; simp
  have hw : wrapInt64 (wrapInt64 (wrapInt64 (decimal M * 60) + decimal S) * 1000)
      = (decimal M * 60 + decimal S) * 1000 := by
    unfold wrapInt64; omega
  unfold parseLRCPosition
  simp only [hloop, hL]
  rw [if_neg (by omega)]
  have h3 : M.length + 1 + 2 - M.length = 3 := by omega
  simp [hS2, h3, hidx, hw]

theorem parse_with_fraction (M S F : Bytes) (hM : AllDigits M) (hS : AllDigits S)
    (hF : AllDigits F)
    (hlen : 5 ≤ (M ++ 58 :: (S ++ 46 :: F)).length ∧ (M ++ 58 :: (S ++ 46 :: F)).length ≤ 12) :
    (F.length = 1 → parseLRCPosition (M ++ 58 :: (S ++ 46 :: F))
      = some ((decimal M * 60 + decimal S) * 1000 + decimal F * 100)) ∧
    (F.length = 2 → parseLRCPosition (M ++ 58 :: (S ++ 46 :: F))
      = some ((decimal M * 60 + decimal S) * 1000 + decimal F * 10)) ∧
    (F.length = 3 → parseLRCPosition (M ++ 58 :: (S ++ 46 :: F))
      = some ((decimal M * 60 + decimal S) * 1000 + decimal F)) := by
  have hL : (M ++ 58 :: (S ++ 46 :: F)).length = M.length + 1 + S.length + 1 + F.length := by
    simp; omega
  rw [hL] at hlen
  obtain ⟨hM0, hM1⟩ := decimal_bounds M hM (by omega)
  obtain ⟨hS0, hS1⟩ := decimal_bounds S hS (by omega)
  obtain ⟨hF0, hF1⟩ := decimal_bounds F hF (by omega)
  have hloop : posLoop (M ++ 58 :: (S ++ 46 :: F)) 0 { n := 0, sec := 0, sepIdx := 0, sepCnt := 0 }
      = some { n := decimal F, sec := decimal M * 60 + decimal S,
               sepIdx := M.length + 1 + S.length, sepCnt := 2 } := by
    rw [posLoop_digits M hM _ _ _ (le_refl _) (by unfold decimal at hM1; simp only; omega),
      posLoop_sep 58 (Or.inl rfl) _ _ _
        (by unfold decimal at hM0 hM1; unfold IsInt64; simp only; omega),
      posLoop_digits S hS _ _ _ (le_refl _) (by unfold decimal at hS1; simp only; omega),
      posLoop_sep 46 (Or.inr rfl) _ _ _
        (by unfold decimal at hM0 hM1 hS0 hS1; unfold IsInt64; simp only; omega)]
    have := posLoop_digits F hF [] (0 + M.length + 1 + S.length + 1)
      { n := 0, sec := ((0 : Int) * 60 + decimalFrom 0 M) * 60 + decimalFrom 0 S,
        sepIdx := 0 + M.length + 1 + S.length, sepCnt := 0 + 1 + 1 }
      (le_refl _) (by unfold decimal at hF1; simp only; omega)
    rw [List.append_nil] at this
    rw [this]
    simp [posLoop, decimal]
  have hw1 : wrapInt64 (wrapInt64 ((decimal M * 60 + decimal S) * 1000)
      + wrapInt64 (decimal F * 100))
      = (decimal M * 60 + decimal S) * 1000 + decimal F * 100 := by
    unfold wrapInt64; omega
  have hw2 : wrapInt64 (wrapInt64 ((decimal M * 60 + decimal S) * 1000)
      + wrapInt64 (decimal F * 10))
      = (decimal M * 60 + decimal S) * 1000 + decimal F * 10 := by
    unfold wrapInt64; omega
  have hw3 : wrapInt64 (wrapInt64 ((decimal M * 60 + decimal S) * 1000) + decimal F)
      = (decimal M * 60 + decimal S) * 1000 + decimal F := by
    unfold wrapInt64; omega
  unfold parseLRCPosition
  simp only [hloop, hL]
  rw [if_neg (by omega)]
  rw [if_neg (by omega)]
  refine ⟨fun h1 => ?_, fun h2 => ?_, fun h3 => ?_⟩
  · rw [if_pos (by omega), hw1]
  · rw [if_neg (by omega), if_pos (by omega), hw2]
  · rw [if_neg (by omega), if_neg (by omega), if_pos (by omega), hw3]

/-- C7: for every tag body of 5 to 12 bytes, `parseLRCPosition` returns
`(mm*60+ss)*1000` for the form `mm:ss` (one `:` followed by exactly two digits) and
`(mm*60+ss)*1000 + F*100`, `+ F*10` or `+ F` for the forms `mm:ss.F` whose fraction
`F` has 1, 2 or 3 digits; `00:10.50` gives 10500 and `00:11` gives 11000. -/
theorem parseLRCPosition_value :
    (∀ M S : Bytes, AllDigits M → AllDigits S → S.length = 2 →
      5 ≤ (M ++ 58 :: S).length → (M ++ 58 :: S).length ≤ 12 →
      parseLRCPosition (M ++ 58 :: S) = some ((decimal M * 60 + decimal S) * 1000)) ∧
    (∀ M S F : Bytes, AllDigits M → AllDigits S → AllDigits F →
      5 ≤ (M ++ 58 :: (S ++ 46 :: F)).length → (M ++ 58 :: (S ++ 46 :: F)).length ≤ 12 →
      (F.length = 1 → parseLRCPosition (M ++ 58 :: (S ++ 46 :: F))
        = some ((decimal M * 60 + decimal S) * 1000 + decimal F * 100)) ∧
      (F.length = 2 → parseLRCPosition (M ++ 58 :: (S ++ 46 :: F))
        = some ((decimal M * 60 + decimal S) * 1000 + decimal F * 10)) ∧
      (F.length = 3 → parseLRCPosition (M ++ 58 :: (S ++ 46 :: F))
        = some ((decimal M * 60 + decimal S) * 1000 + decimal F))) ∧
    parseLRCPosition (utf8 "00:10.50") = some 10500 ∧
    parseLRCPosition (utf8 "00:11") = some 11000 :=
  ⟨fun M S hM hS hS2 h5 h12 => parse_minutes_seconds M S hM hS hS2 ⟨h5, h12⟩,
   fun M S F hM hS hF h5 h12 => parse_with_fraction M S F hM hS hF ⟨h5, h12⟩,
   by decide, by decide⟩

/-- C7, witness: the body `03:25.7`, that is 3 min 25.7 s. -/
theorem parseLRCPosition_value_witness :
    AllDigits (utf8 "03") ∧ AllDigits (utf8 "25") ∧ AllDigits (utf8 "7") ∧
    parseLRCPosition (utf8 "03" ++ 58 :: (utf8 "25" ++ 46 :: utf8 "7"))
      = some ((decimal (utf8 "03") * 60 + decimal (utf8 "25")) * 1000
          + decimal (utf8 "7") * 100) ∧
    (decimal (utf8 "03") * 60 + decimal (utf8 "25")) * 1000 + decimal (utf8 "7") * 100
      = 205700 :=
  ⟨by unfold AllDigits; decide, by unfold AllDigits; decide, by unfold AllDigits; decide,
   (parseLRCPosition_value.2.1 (utf8 "03") (utf8 "25") (utf8 "7")
      (by unfold AllDigits; decide) (by unfold AllDigits; decide)
      (by unfold AllDigits; decide) (by decide) (by decide)).1 (by decide),
   by decide⟩

theorem posLoop_bytes : ∀ (s : Bytes) (i : Nat) (st st' : PosState),
    posLoop s i st = some st' →
    ∀ b ∈ s, b = 58 ∨ b = 46 ∨ (b + 256 - 48) % 256 ≤ 9 := by
  intro s
  induction s with
  | nil => intro i st st' _ b hb; cases hb
  | cons ch rest ih =>
    intro i st st' h b hb
    rw [posLoop] at h
    by_cases hsep : ch = 58 ∨ ch = 46
    · rw [if_pos hsep] at h
      rcases List.mem_cons.mp hb with hb | hb
      · subst hb; rcases hsep with h1 | h1
        · exact Or.inl h1
        · exact Or.inr (Or.inl h1)
      · exact ih _ _ _ h b hb
    · rw [if_neg hsep] at h
      by_cases hd : (ch + 256 - 48) % 256 > 9
      · simp only [hd, if_true] at h; cases h
      · simp only [hd, if_false] at h
        rcases List.mem_cons.mp hb with hb | hb
        · subst hb; exact Or.inr (Or.inr (by omega))
        · exact ih _ _ _ h b hb

theorem parse_bytes (body : Bytes) (p : Int) (h : parseLRCPosition body = some p) :
    93 ∉ body ∧ 10 ∉ body := by
  unfold parseLRCPosition at h
  by_cases hl : body.length < 5 ∨ body.length > 12
  · rw [if_pos hl] at h; cases h
  · rw [if_neg hl] at h
    cases hp : posLoop body 0 { n := 0, sec := 0, sepIdx := 0, sepCnt := 0 } with
    | none => rw [hp] at h; cases h
    | some st =>
      have hb := posLoop_bytes _ _ _ _ hp
      constructor
      · intro hmem; have := hb 93 hmem; omega
      · intro hmem; have := hb 10 hmem; omega

theorem indexByte_append (pre post : Bytes) (c : Nat) (h : c ∉ pre) :
    indexByte (pre ++ c :: post) c = some pre.length := by
  induction pre with
  | nil => simp [indexByte]
  | cons b pre ih =>
    have hb : b ≠ c := fun e => h (e ▸ List.mem_cons_self _ _)
    have := ih (fun hm => h (List.mem_cons_of_mem _ hm))
    simp [indexByte, hb, this]

theorem indexByte_none (s : Bytes) (c : Nat) (h : c ∉ s) : indexByte s c = none := by
  induction s with
  | nil => rfl
  | cons b s ih =>
    have hb : b ≠ c := fun e => h (e ▸ List.mem_cons_self _ _)
    have := ih (fun hm => h (List.mem_cons_of_mem _ hm))
    simp [indexByte, hb, this]

theorem indexByte_some : ∀ (s : Bytes) (c j : Nat), indexByte s c = some j →
    c ∉ s.take j ∧ s = s.take j ++ c :: s.drop (j + 1) := by
  intro s
  induction s with
  | nil => intro c j h; cases h
  | cons b s ih =>
    intro c j h
    rw [indexByte] at h
    by_cases hb : b = c
    · rw [if_pos hb] at h
      cases h
      subst hb
      simp
    · rw [if_neg hb] at h
      cases hi : indexByte s c with
      | none => rw [hi] at h; cases h
      | some k =>
        rw [hi] at h
        simp only [Option.map_some', Option.some.injEq] at h
        subst h
        obtain ⟨h1, h2⟩ := ih c k hi
        constructor
        · simp only [List.take_succ_cons, List.mem_cons, not_or]
          exact ⟨fun e => hb e.symm, h1⟩
        · simp only [List.take_succ_cons, List.drop_succ_cons, List.cons_append,
            List.cons.injEq, true_and]
          exact h2

theorem tagLoop_step (fuel : Nat) (body rest : Bytes) (p : Int) (positions : List Int)
    (h : parseLRCPosition body = some p) :
    tagLoop (fuel + 1) (bracketed body ++ rest) positions
      = tagLoop fuel rest (positions ++ [p]) := by
  have hno : 93 ∉ 91 :: body := by
    intro hm
    rcases List.mem_cons.mp hm with h1 | h1
    · cases h1
    · exact (parse_bytes body p h).1 h1
  have hshape : bracketed body ++ rest = (91 :: body) ++ 93 :: rest := by
    simp [bracketed]
  have hidx := indexByte_append (91 :: body) rest 93 hno
  rw [hshape, tagLoop]
  simp only [List.cons_append, List.head?_cons, if_true]
  rw [← List.cons_append, hidx]
  simp only [List.length_cons]
  have h1 : List.drop 1 (List.take (body.length + 1) (91 :: body ++ 93 :: rest)) = body := by
    simp
  have h2 : List.drop (body.length + 1 + 1) (91 :: body ++ 93 :: rest) = rest := by
    simp
  rw [h1, h, h2]

theorem tagLoop_stop (fuel : Nat) (line : Bytes) (positions : List Int)
    (h : ¬ BeginsWithTag line) : tagLoop fuel line positions = (positions, line) := by
  cases fuel with
  | zero => rfl
  | succ fuel =>
    rw [tagLoop]
    by_cases hh : line.head? = some 91
    · rw [if_pos hh]
      cases hi : indexByte line 93 with
      | none => rfl
      | some j =>
        simp only
        cases hp : parseLRCPosition ((line.take j).drop 1) with
        | none => rfl
        | some p =>
          exfalso
          apply h
          obtain ⟨h1, h2⟩ := indexByte_some line 93 j hi
          refine ⟨(line.take j).drop 1, p, line.drop (j + 1), ?_, hp⟩
          have htake : line.take j = 91 :: (line.take j).drop 1 := by
            cases hl : line with
            | nil => rw [hl] at hh; cases hh
            | cons b l =>
              rw [hl] at hh h1 hi
              simp only [List.head?_cons, Option.some.injEq] at hh
              subst hh
              cases j with
              | zero => simp [indexByte] at hi
              | succ j => simp
          unfold bracketed
          rw [← htake]
          simpa using h2
    · rw [if_neg hh]

theorem tagLoop_tags : ∀ (tags : List (Bytes × Int)) (fuel : Nat) (rest : Bytes)
    (positions : List Int),
    (∀ t ∈ tags, parseLRCPosition t.1 = some t.2) → ¬ BeginsWithTag rest →
    tags.length ≤ fuel →
    tagLoop fuel (tagsBytes (tags.map Prod.fst) ++ rest) positions
      = (positions ++ tags.map Prod.snd, rest) := by
  intro tags
  induction tags with
  | nil =>
    intro fuel rest positions _ hrest _
    simp only [List.map_nil, tagsBytes, List.flatten_nil, List.nil_append, List.append_nil]
    exact tagLoop_stop fuel rest positions hrest
  | cons t tags ih =>
    intro fuel rest positions hvalid hrest hfuel
    cases fuel with
    | zero => simp at hfuel
    | succ fuel =>
      have hshape : tagsBytes ((t :: tags).map Prod.fst) ++ rest
          = bracketed t.1 ++ (tagsBytes (tags.map Prod.fst) ++ rest) := by
        simp [tagsBytes, List.append_assoc]
      rw [hshape, tagLoop_step fuel t.1 _ t.2 positions (hvalid t (List.mem_cons_self _ _)),
        ih fuel rest (positions ++ [t.2]) (fun x hx => hvalid x (List.mem_cons_of_mem _ hx))
          hrest (by simpa using hfuel)]
      simp

theorem length_tagsBytes_ge (bodies : List Bytes) :
    bodies.length ≤ (tagsBytes bodies).length := by
  induction bodies with
  | nil => simp [tagsBytes]
  | cons b bs ih =>
    simp only [tagsBytes, List.map_cons, List.flatten_cons, List.length_append,
      List.length_cons, bracketed] at ih ⊢
    omega

theorem lineEntries_tags (tags : List (Bytes × Int)) (rest : Bytes)
    (hvalid : ∀ t ∈ tags, parseLRCPosition t.1 = some t.2) (hrest : ¬ BeginsWithTag rest) :
    lineEntries (tagsBytes (tags.map Prod.fst) ++ rest)
      = tags.map (fun t => { Position := t.2, Text := TrimSpace rest }) := by
  unfold lineEntries
  have hfuel : tags.length ≤ (tagsBytes (tags.map Prod.fst) ++ rest).length := by
    have := length_tagsBytes_ge (tags.map Prod.fst)
    simp only [List.length_map, List.length_append] at this ⊢
    omega
  rw [tagLoop_tags tags _ rest [] hvalid hrest hfuel]
  simp

theorem lineEntries_eq_nil_iff (line : Bytes) :
    lineEntries line = [] ↔ ¬ BeginsWithTag line := by
  constructor
  · intro h hb
    obtain ⟨body, p, rest, hline, hp⟩ := hb
    have hlen : 0 < line.length := by rw [hline]; simp [bracketed]
    obtain ⟨fuel, hfuel⟩ : ∃ fuel, line.length = fuel + 1 := ⟨line.length - 1, by omega⟩
    unfold lineEntries at h
    rw [hfuel] at h
    rw [hline, tagLoop_step fuel body rest p [] hp] at h
    have hpre : ∀ (fuel : Nat) (l : Bytes) (ps : List Int),
        ps ≠ [] → (tagLoop fuel l ps).1 ≠ [] := by
      intro fuel
      induction fuel with
      | zero => intro l ps hps; exact hps
      | succ fuel ih =>
        intro l ps hps
        rw [tagLoop]
        split_ifs
        · split
          · exact hps
          · split
            · exact hps
            · exact ih _ _ (by simp)
        · exact hps
    have := hpre fuel rest ([] ++ [p]) (by simp)
    simp only [List.map_eq_nil_iff] at h
    exact this h
  · intro h
    have := lineEntries_tags [] line (fun t ht => by cases ht) h
    simpa [tagsBytes] using this

theorem scanLoop_acc : ∀ (fuel : Nat) (data : Bytes) (acc : List LyricLine),
    scanLoop fuel data acc = acc ++ scanLoop fuel data [] := by
  intro fuel
  induction fuel with
  | zero => intro data acc; simp [scanLoop]
  | succ fuel ih =>
    intro data acc
    rw [scanLoop, scanLoop]
    by_cases hd : data.length > 0
    · rw [if_pos hd, if_pos hd]
      cases hi : indexByte data 10 with
      | none =>
        simp only
        rw [ih [] (acc ++ lineEntries data), ih [] ([] ++ lineEntries data)]
        simp
      | some j =>
        cases j with
        | zero => simp only; exact ih _ _
        | succ j =>
          simp only
          rw [ih _ (acc ++ _), ih _ ([] ++ _)]
          simp
    · rw [if_neg hd, if_neg hd]; simp

theorem docLines_ne_nil (data : Bytes) : docLines data ≠ [] := by
  cases data with
  | nil => simp [docLines]
  | cons b rest =>
    rw [docLines]
    split_ifs
    · simp
    · split <;> simp

theorem docLines_no_newline (line : Bytes) (h : 10 ∉ line) : docLines line = [line] := by
  induction line with
  | nil => rfl
  | cons b rest ih =>
    have hb : b ≠ 10 := fun e => h (e ▸ List.mem_cons_self _ _)
    rw [docLines, if_neg hb, ih (fun hm => h (List.mem_cons_of_mem _ hm))]

theorem docLines_append (line rest : Bytes) (h : 10 ∉ line) :
    docLines (line ++ 10 :: rest) = line :: docLines rest := by
  induction line with
  | nil => simp [docLines]
  | cons b line ih =>
    have hb : b ≠ 10 := fun e => h (e ▸ List.mem_cons_self _ _)
    rw [List.cons_append, docLines, if_neg hb, ih (fun hm => h (List.mem_cons_of_mem _ hm))]

theorem lineEntries_nil : lineEntries [] = [] := rfl

theorem scanLoop_lines : ∀ (fuel : Nat) (data : Bytes), data.length ≤ fuel →
    scanLoop fuel data [] = ((docLines data).map lineEntries).flatten := by
  intro fuel
  induction fuel with
  | zero =>
    intro data h
    have : data = [] := List.eq_nil_of_length_eq_zero (by omega)
    subst this
    rfl
  | succ fuel ih =>
    intro data h
    rw [scanLoop]
    by_cases hd : data.length > 0
    · rw [if_pos hd]
      cases hi : indexByte data 10 with
      | none =>
        simp only
        have hno : 10 ∉ data := by
          intro hm
          obtain ⟨pre, post, hpp, hpre⟩ : ∃ pre post, data = pre ++ 10 :: post ∧ 10 ∉ pre := by
            induction data with
            | nil => cases hm
            | cons b d ihd =>
              by_cases hb : b = 10
              · exact ⟨[], d, by simp [hb], by simp⟩
              · rcases List.mem_cons.mp hm with e | e
                · exact absurd e.symm hb
                · have hi' : indexByte d 10 = none := by
                    rw [indexByte, if_neg hb] at hi
                    cases hx : indexByte d 10 with
                    | none => rfl
                    | some k => rw [hx] at hi; cases hi
                  obtain ⟨pre, post, h1, h2⟩ := ihd (by simp at h; omega)
                    (List.length_pos_of_mem e) hi' e
                  refine ⟨b :: pre, post, by simp [h1], ?_⟩
                  simp only [List.mem_cons, not_or]
                  exact ⟨fun e2 => hb e2.symm, h2⟩
          rw [hpp, indexByte_append pre post 10 hpre] at hi
          cases hi
        rw [docLines_no_newline data hno]
        cases fuel with
        | zero => simp [scanLoop]
        | succ fuel => simp [scanLoop]
      | some j =>
        obtain ⟨h1, h2⟩ := indexByte_some data 10 j hi
        cases j with
        | zero =>
          simp only
          simp only [List.take_zero, List.nil_append, zero_add] at h2
          have hlen : (data.drop 1).length ≤ fuel := by
            simp only [List.length_drop]; omega
          rw [ih _ hlen]
          conv_rhs => rw [h2]
          rw [docLines, if_pos rfl]
          simp [lineEntries_nil]
        | succ j =>
          simp only
          have hlen : (data.drop (j + 1 + 1)).length ≤ fuel := by
            simp only [List.length_drop]; omega
          rw [scanLoop_acc, ih _ hlen]
          conv_rhs => rw [h2]
          rw [docLines_append _ _ h1]
          simp
    · rw [if_neg hd]
      have : data = [] := List.eq_nil_of_length_eq_zero (by omega)
      subst this
      rfl

theorem scanLrc_lines (lrc : Bytes) :
    scanLrc lrc = ((docLines lrc).map lineEntries).flatten :=
  scanLoop_lines lrc.length lrc (le_refl _)

theorem sinkInto_perm {α : Type} (cmp : α → α → Int) (x : α) :
    ∀ acc : List α, (sinkInto cmp x acc).Perm (x :: acc) := by
  intro acc
  induction acc with
  | nil => exact List.Perm.refl _
  | cons y ys ih =>
    rw [sinkInto]
    split_ifs
    · exact ((List.perm_cons y).mpr ih).trans (List.Perm.swap x y ys)
    · exact List.Perm.refl _

theorem foldl_sinkInto_perm {α : Type} (cmp : α → α → Int) :
    ∀ (data acc : List α),
      (data.foldl (fun acc x => sinkInto cmp x acc) acc).Perm (data ++ acc) := by
  intro data
  induction data with
  | nil => intro acc; exact List.Perm.refl _
  | cons x data ih =>
    intro acc
    rw [List.foldl_cons]
    refine (ih (sinkInto cmp x acc)).trans ?_
    refine ((List.perm_append_left_iff data).mpr (sinkInto_perm cmp x acc)).trans ?_
    exact List.perm_middle

theorem sortFunc_perm {α : Type} (cmp : α → α → Int) (data : List α) :
    (sortFunc cmp data).Perm data := by
  unfold sortFunc
  refine (List.reverse_perm _).trans ?_
  simpa using foldl_sinkInto_perm cmp data []

theorem sinkInto_sorted {α : Type} (cmp : α → α → Int) (key : α → Int) (P : α → Prop)
    (hcmp : ∀ a b, P a → P b → (cmp a b < 0 ↔ key a < key b)) (x : α) (hx : P x) :
    ∀ acc : List α, (∀ a ∈ acc, P a) → acc.Pairwise (fun a b => key b ≤ key a) →
      (sinkInto cmp x acc).Pairwise (fun a b => key b ≤ key a) := by
  intro acc
  induction acc with
  | nil => intro _ _; simp [sinkInto]
  | cons y ys ih =>
    intro hP h
    rw [List.pairwise_cons] at h
    have hy : P y := hP y (List.mem_cons_self _ _)
    have hys : ∀ a ∈ ys, P a := fun a ha => hP a (List.mem_cons_of_mem _ ha)
    rw [sinkInto]
    split_ifs with hlt
    · rw [List.pairwise_cons]
      refine ⟨?_, ih hys h.2⟩
      intro a ha
      rcases List.mem_cons.mp ((sinkInto_perm cmp x ys).mem_iff.mp ha) with e | e
      · subst e
        have := (hcmp a y hx hy).mp hlt
        omega
      · exact h.1 a e
    · have hge : key y ≤ key x := by
        have := (hcmp x y hx hy).not.mp hlt
        omega
      rw [List.pairwise_cons]
      refine ⟨?_, List.pairwise_cons.mpr h⟩
      intro a ha
      rcases List.mem_cons.mp ha with e | e
      · subst e; exact hge
      · have := h.1 a e
        omega

theorem sortFunc_sorted {α : Type} (cmp : α → α → Int) (key : α → Int) (P : α → Prop)
    (hcmp : ∀ a b, P a → P b → (cmp a b < 0 ↔ key a < key b)) (data : List α)
    (hdata : ∀ a ∈ data, P a) :
    (sortFunc cmp data).Pairwise (fun a b => key a ≤ key b) := by
  unfold sortFunc
  rw [List.pairwise_reverse]
  have : ∀ (data acc : List α), (∀ a ∈ data, P a) → (∀ a ∈ acc, P a) →
      acc.Pairwise (fun a b => key b ≤ key a) →
      (data.foldl (fun acc x => sinkInto cmp x acc) acc).Pairwise
        (fun a b => key b ≤ key a) := by
    intro data
    induction data with
    | nil => intro acc _ _ h; exact h
    | cons x data ih =>
      intro acc hd ha h
      rw [List.foldl_cons]
      refine ih _ (fun a m => hd a (List.mem_cons_of_mem _ m)) ?_
        (sinkInto_sorted cmp key P hcmp x (hd x (List.mem_cons_self _ _)) acc ha h)
      intro a m
      rcases List.mem_cons.mp ((sinkInto_perm cmp x acc).mem_iff.mp m) with e | e
      · subst e; exact hd a (List.mem_cons_self _ _)
      · exact ha a e
  exact this data [] hdata (fun a m => by cases m) List.Pairwise.nil

theorem parseLrc_cases (lrc : Bytes) :
    (scanLrc lrc = [] ∧ ParseLrc lrc = .error .notSynced) ∨
    (scanLrc lrc ≠ [] ∧
      ParseLrc lrc
        = .ok (sortFunc (fun a b => wrapInt64 (a.Position - b.Position)) (scanLrc lrc))) := by
  unfold ParseLrc
  by_cases h : scanLrc lrc = []
  · left; simp [h]
  · right
    have : (scanLrc lrc).length ≠ 0 := fun e => h (List.eq_nil_of_length_eq_zero e)
    simp [h, this]

theorem parseLrc_sorted_of_bounded (lrc : Bytes) (lines : List LyricLine)
    (h : ParseLrc lrc = .ok lines)
    (hb : ∀ a ∈ scanLrc lrc,
      -4611686018427387904 ≤ a.Position ∧ a.Position < 4611686018427387904) :
    lines.Pairwise (fun a b => a.Position ≤ b.Position) ∧ lines.Perm (scanLrc lrc) := by
  rcases parseLrc_cases lrc with ⟨-, he⟩ | ⟨-, ho⟩
  · rw [he] at h; cases h
  · rw [ho] at h
    simp only [Except.ok.injEq] at h
    subst h
    refine ⟨?_, sortFunc_perm _ _⟩
    exact sortFunc_sorted (fun a b : LyricLine => wrapInt64 (a.Position - b.Position))
      (fun a => a.Position)
      (fun a => -4611686018427387904 ≤ a.Position ∧ a.Position < 4611686018427387904)
      (fun a b ha hb => by simp only; unfold wrapInt64; omega) (scanLrc lrc) hb

/-- C6: the entries emitted while scanning a document are those of its lines, in
order; a line that consists of k >= 0 consecutive valid bracketed time tags followed
by a remainder that does not begin with a valid bracketed tag emits exactly k
entries, one per tag with that tag's position, all carrying the trimmed remainder; a
line that does not begin with a valid tag emits nothing; and
`"[00:01.00][00:02.00]x\n"` yields [(1000, "x"), (2000, "x")]. -/
theorem parseLrc_line_entries :
    (∀ lrc : Bytes, scanLrc lrc = ((docLines lrc).map lineEntries).flatten) ∧
    (∀ (tags : List (Bytes × Int)) (rest : Bytes),
      (∀ t ∈ tags, parseLRCPosition t.1 = some t.2) → ¬ BeginsWithTag rest →
      lineEntries (tagsBytes (tags.map Prod.fst) ++ rest)
        = tags.map (fun t => { Position := t.2, Text := TrimSpace rest })) ∧
    (∀ line : Bytes, ¬ BeginsWithTag line → lineEntries line = []) ∧
    ParseLrc (utf8 "[00:01.00][00:02.00]x\n")
      = .ok [⟨1000, utf8 "x"⟩, ⟨2000, utf8 "x"⟩] :=
  ⟨scanLrc_lines, lineEntries_tags, fun line h => (lineEntries_eq_nil_iff line).mpr h,
   by decide⟩

/-- C6, witness: the line `[00:01.00][00:02.00] x ` with two valid tags. -/
theorem parseLrc_line_entries_witness :
    (∀ t ∈ [(utf8 "00:01.00", (1000 : Int)), (utf8 "00:02.00", 2000)],
      parseLRCPosition t.1 = some t.2) ∧
    ¬ BeginsWithTag (utf8 " x ") ∧
    lineEntries (utf8 "[00:01.00][00:02.00] x ") = [⟨1000, utf8 "x"⟩, ⟨2000, utf8 "x"⟩] := by
  have hv : ∀ t ∈ [(utf8 "00:01.00", (1000 : Int)), (utf8 "00:02.00", 2000)],
      parseLRCPosition t.1 = some t.2 := by decide
  have hr : ¬ BeginsWithTag (utf8 " x ") := (lineEntries_eq_nil_iff _).mp (by decide)
  refine ⟨hv, hr, ?_⟩
  have h := parseLrc_line_entries.2.1
    [(utf8 "00:01.00", (1000 : Int)), (utf8 "00:02.00", 2000)] (utf8 " x ") hv hr
  have e1 : tagsBytes ([(utf8 "00:01.00", (1000 : Int)), (utf8 "00:02.00", 2000)].map Prod.fst)
      ++ utf8 " x " = utf8 "[00:01.00][00:02.00] x " := by decide
  have e2 : TrimSpace (utf8 " x ") = utf8 "x" := by decide
  rw [e1] at h
  rw [h, e2]
  rfl

/-- C8 (code bug), the code at a failing input: the tag bodies `2:::::::::::` and
`7:::::::::::` are accepted, their positions wrap around in 64-bit arithmetic to a
negative and a positive value, the comparator's difference of the two wraps around
as well, and `ParseLrc` returns the line with the greater position first. -/
theorem parseLrc_unsorted_on_overflow :
    parseLRCPosition (utf8 "2:::::::::::") = some (-8161588864830406656) ∧
    parseLRCPosition (utf8 "7:::::::::::") = some 8327927120512679936 ∧
    ParseLrc (utf8 "[2:::::::::::]a\n[7:::::::::::]b\n")
      = .ok [⟨8327927120512679936, utf8 "b"⟩, ⟨-8161588864830406656, utf8 "a"⟩] := by
  decide!

/-- C9: `ParseLrc` returns the `not synced` error iff no entry was emitted, that
is iff no line of the document begins with a valid bracketed time tag; otherwise it
returns a non-empty list of lines and no error. -/
theorem parseLrc_not_synced_iff (lrc : Bytes) :
    (ParseLrc lrc = .error .notSynced ↔ scanLrc lrc = []) ∧
    (scanLrc lrc = [] ↔ ∀ line ∈ docLines lrc, ¬ BeginsWithTag line) ∧
    (ParseLrc lrc = .error .notSynced ∨ ∃ lines, ParseLrc lrc = .ok lines ∧ lines ≠ []) := by
  have hscan : scanLrc lrc = [] ↔ ∀ line ∈ docLines lrc, ¬ BeginsWithTag line := by
    rw [scanLrc_lines]
    simp only [List.flatten_eq_nil_iff, List.mem_map, forall_exists_index, and_imp,
      forall_apply_eq_imp_iff₂]
    exact forall₂_congr (fun line _ => lineEntries_eq_nil_iff line)
  refine ⟨?_, hscan, ?_⟩
  · rcases parseLrc_cases lrc with ⟨h1, h2⟩ | ⟨h1, h2⟩
    · simp [h1, h2]
    · rw [h2]
      constructor
      · intro h; cases h
      · intro h; exact absurd h h1
  · rcases parseLrc_cases lrc with ⟨-, h2⟩ | ⟨h1, h2⟩
    · exact Or.inl h2
    · refine Or.inr ⟨_, h2, ?_⟩
      intro he
      have := (sortFunc_perm (fun a b : LyricLine => wrapInt64 (a.Position - b.Position))
        (scanLrc lrc))
      rw [he] at this
      exact h1 (List.Perm.nil_eq this).symm

/-- C9, witness: a document without time tags is not synced, one with a tag is. -/
theorem parseLrc_not_synced_iff_witness :
    ParseLrc (utf8 "la la\n[chorus]\n") = .error .notSynced ∧
    (∀ line ∈ docLines (utf8 "la la\n[chorus]\n"), ¬ BeginsWithTag line) ∧
    ParseLrc (utf8 "la la\n[00:05]la\n") = .ok [⟨5000, utf8 "la"⟩] :=
  ⟨by decide,
   (parseLrc_not_synced_iff (utf8 "la la\n[chorus]\n")).2.1.mp (by decide),
   by decide⟩

/-- C10 (amended): when a bracketed tag on a line is invalid, `ParseLrc` stops
reading tags there: for every line made of a valid tag, then an invalid bracketed
tag, then another valid tag, then text, exactly one entry is emitted, for the first
tag's position, and its text is the trimmed rest of the line from the invalid tag
on, the later tag included. -/
theorem parseLrc_stops_at_invalid_tag (first bad later text : Bytes) (p q : Int)
    (hfirst : parseLRCPosition first = some p) (hbad : parseLRCPosition bad = none)
    (hclose : 93 ∉ bad) (hlater : parseLRCPosition later = some q) :
    lineEntries (bracketed first ++ bracketed bad ++ bracketed later ++ text)
      = [{ Position := p,
           Text := TrimSpace (bracketed bad ++ bracketed later ++ text) }] := by
  have _ := hlater
  have hrest : ¬ BeginsWithTag (bracketed bad ++ bracketed later ++ text) := by
    rintro ⟨body, r, rest, hline, hbody⟩
    have hno := (parse_bytes body r hbody).1
    have e : (91 :: bad) ++ 93 :: (bracketed later ++ text)
        = (91 :: body) ++ 93 :: rest := by
      simpa [bracketed, List.append_assoc] using hline
    have h1 := indexByte_append (91 :: bad) (bracketed later ++ text) 93
      (by simp only [List.mem_cons, not_or]; exact ⟨by decide, hclose⟩)
    have h2 := indexByte_append (91 :: body) rest 93
      (by simp only [List.mem_cons, not_or]; exact ⟨by decide, hno⟩)
    rw [e, h2] at h1
    simp only [List.length_cons, Option.some.injEq, add_left_inj] at h1
    have e' := List.append_inj_left e (by simp [h1])
    simp only [List.cons.injEq, true_and] at e'
    rw [e'] at hbad
    rw [hbad] at hbody
    cases hbody
  have := lineEntries_tags [(first, p)] _ (by simpa using hfirst) hrest
  simpa [tagsBytes, List.append_assoc] using this

/-- C10, witness: the line `[00:01.00][xx][00:02.00]text`. -/
theorem parseLrc_stops_at_invalid_tag_witness :
    parseLRCPosition (utf8 "00:01.00") = some 1000 ∧
    parseLRCPosition (utf8 "xx") = none ∧ 93 ∉ utf8 "xx" ∧
    parseLRCPosition (utf8 "00:02.00") = some 2000 ∧
    lineEntries (bracketed (utf8 "00:01.00") ++ bracketed (utf8 "xx")
        ++ bracketed (utf8 "00:02.00") ++ utf8 "text")
      = [{ Position := 1000,
           Text := TrimSpace (bracketed (utf8 "xx") ++ bracketed (utf8 "00:02.00")
             ++ utf8 "text") }] :=
  ⟨by decide, by decide, by decide, by decide,
   parseLrc_stops_at_invalid_tag (utf8 "00:01.00") (utf8 "xx") (utf8 "00:02.00")
     (utf8 "text") 1000 2000 (by decide) (by decide) (by decide) (by decide)⟩

/-- C10, counterexample: the line `[00:01.00][xx][00:02.00]text` holds a valid tag,
an invalid bracketed tag and another valid tag, and `ParseLrc` emits no entry for the
later tag's position 2000: its only entry is at 1000, with the text
`[xx][00:02.00]text`. -/
theorem parseLrc_later_tag_not_honoured :
    parseLRCPosition (utf8 "00:01.00") = some 1000 ∧
    parseLRCPosition (utf8 "xx") = none ∧
    parseLRCPosition (utf8 "00:02.00") = some 2000 ∧
    ParseLrc (utf8 "[00:01.00][xx][00:02.00]text\n")
      = .ok [⟨1000, utf8 "[xx][00:02.00]text"⟩] ∧
    ¬ ∃ line ∈ scanLrc (utf8 "[00:01.00][xx][00:02.00]text\n"), line.Position = 2000 := by
  refine ⟨by decide, by decide, by decide, by decide, ?_⟩
  decide

/-! ### The node array -/

theorem nodeAt_ge (T : List Node) (i : Nat) (h : T.length ≤ i) : nodeAt T i = {} := by
  unfold nodeAt
  rw [List.getD_eq_getElem?_getD, List.getElem?_eq_none h]
  rfl

theorem nodeAt_lt (T : List Node) (i : Nat) (h : i < T.length) : nodeAt T i = T[i] := by
  unfold nodeAt
  rw [List.getD_eq_getElem?_getD, List.getElem?_eq_getElem h]
  rfl

theorem length_modifyNode (f : Node → Node) :
    ∀ (T : List Node) (n : Nat), (modifyNode f T n).length = T.length := by
  intro T
  induction T with
  | nil => intro n; rfl
  | cons x xs ih =>
    intro n
    cases n with
    | zero => rfl
    | succ n => simp [modifyNode, ih]

theorem nodeAt_modifyNode (f : Node → Node) :
    ∀ (T : List Node) (n i : Nat),
      nodeAt (modifyNode f T n) i
        = if i = n ∧ n < T.length then f (nodeAt T n) else nodeAt T i := by
  intro T
  induction T with
  | nil => intro n i; simp [modifyNode]
  | cons x xs ih =>
    intro n i
    cases n with
    | zero =>
      cases i with
      | zero => simp [modifyNode, nodeAt]
      | succ i => simp [modifyNode, nodeAt]
    | succ n =>
      cases i with
      | zero => simp [modifyNode, nodeAt]
      | succ i =>
        have := ih n i
        simp only [nodeAt, modifyNode, List.getD_cons_succ, List.length_cons,
          Nat.add_lt_add_iff_right, Nat.add_right_cancel_iff] at this ⊢
        exact this

theorem nodeAt_append_lt (T : List Node) (x : Node) (i : Nat) (h : i < T.length) :
    nodeAt (T ++ [x]) i = nodeAt T i := by
  unfold nodeAt
  rw [List.getD_eq_getElem?_getD, List.getD_eq_getElem?_getD, List.getElem?_append_left h]

theorem nodeAt_append_length (T : List Node) (x : Node) :
    nodeAt (T ++ [x]) T.length = x := by
  unfold nodeAt
  rw [List.getD_eq_getElem?_getD, List.getElem?_append_right (le_refl _)]
  simp

/-! ### Paths from the root -/

theorem findBliceFrom_none (T : List Node) (w : Bytes) : findBliceFrom T none w = none := by
  cases w <;> rfl

theorem findBliceFrom_append (T : List Node) :
    ∀ (w v : Bytes) (n : Option Nat),
      findBliceFrom T n (w ++ v) = findBliceFrom T (findBliceFrom T n w) v := by
  intro w
  induction w with
  | nil => intro v n; cases n <;> rfl
  | cons c w ih =>
    intro v n
    cases n with
    | none => simp [findBliceFrom, findBliceFrom_none]
    | some n => simp only [List.cons_append, findBliceFrom]; exact ih v _

theorem findBlice_nil (T : List Node) : findBlice T [] = some 0 := rfl

theorem findBlice_snoc (T : List Node) (w : Bytes) (c : Nat) :
    findBlice T (w ++ [c]) = (findBlice T w).bind (fun i => childOf T i c) := by
  unfold findBlice
  rw [findBliceFrom_append]
  cases findBliceFrom T (some 0) w with
  | none => rfl
  | some i =>
    simp only [findBliceFrom, Option.some_bind]

theorem findBlice_append_none (T : List Node) (w v : Bytes) (h : findBlice T w = none) :
    findBlice T (w ++ v) = none := by
  unfold findBlice at h ⊢
  rw [findBliceFrom_append, h, findBliceFrom_none]

/-! ### Longest suffixes -/

theorem longestSuffix_suffix (p : Bytes → Bool) (w : Bytes) : longestSuffix p w <:+ w := by
  induction w with
  | nil => exact List.suffix_refl _
  | cons x r ih =>
    rw [longestSuffix]
    split_ifs
    · exact List.suffix_refl _
    · exact ih.trans (List.suffix_cons x r)

theorem longestSuffix_holds (p : Bytes → Bool) (w : Bytes) (h : longestSuffix p w ≠ []) :
    p (longestSuffix p w) = true := by
  induction w with
  | nil => exact absurd rfl h
  | cons x r ih =>
    rw [longestSuffix] at h ⊢
    split_ifs with hp
    · exact hp
    · rw [if_neg hp] at h; exact ih h

theorem longestSuffix_max (p : Bytes → Bool) (w v : Bytes) (hv : v <:+ w) (hne : v ≠ [])
    (hp : p v = true) : v <:+ longestSuffix p w := by
  induction w with
  | nil =>
    have := List.eq_nil_of_suffix_nil hv
    exact absurd this hne
  | cons x r ih =>
    rw [longestSuffix]
    split_ifs with hpx
    · exact hv
    · rcases List.suffix_cons_iff.mp hv with e | hs
      · rw [e] at hp; exact absurd hp hpx
      · exact ih hs

theorem longestSuffix_eq_nil_iff (p : Bytes → Bool) (w : Bytes) :
    longestSuffix p w = [] ↔ ∀ v, v <:+ w → v ≠ [] → p v = false := by
  constructor
  · intro h v hv hne
    by_contra hc
    have hp : p v = true := by simpa using hc
    have := longestSuffix_max p w v hv hne hp
    rw [h] at this
    exact hne (List.eq_nil_of_suffix_nil this)
  · intro h
    by_contra hc
    have h1 := longestSuffix_holds p w hc
    have h2 := h _ (longestSuffix_suffix p w) hc
    rw [h1] at h2
    cases h2

theorem longestSuffix_through (p q : Bytes → Bool) (hpq : ∀ v, p v = true → q v = true) :
    ∀ w, longestSuffix p w = longestSuffix p (longestSuffix q w) := by
  intro w
  induction w with
  | nil => rfl
  | cons x r ih =>
    by_cases hq : q (x :: r) = true
    · simp [longestSuffix, hq]
    · have hp : ¬ p (x :: r) = true := fun h => hq (hpq _ h)
      simp only [longestSuffix, hq, hp, if_false, Bool.false_eq_true]
      exact ih

theorem longestSuffix_snoc (q : Bytes → Bool) (c : Nat) :
    ∀ s, longestSuffix q (s ++ [c])
      = if q (longestSuffix (fun v => q (v ++ [c])) s ++ [c]) = true
        then longestSuffix (fun v => q (v ++ [c])) s ++ [c] else [] := by
  intro s
  induction s with
  | nil => simp [longestSuffix]
  | cons x r ih =>
    by_cases hq : q (x :: (r ++ [c])) = true
    · simp [longestSuffix, hq]
    · have e1 : longestSuffix (fun v => q (v ++ [c])) (x :: r)
          = longestSuffix (fun v => q (v ++ [c])) r := by
        rw [longestSuffix]; exact if_neg hq
      have e2 : longestSuffix q (x :: (r ++ [c])) = longestSuffix q (r ++ [c]) := by
        rw [longestSuffix, if_neg hq]
      rw [List.cons_append, e2, e1]
      exact ih

/-! ### The matcher: tries -/

/-! ### The trie of the patterns -/

theorem reach_props (T : List Node) (hT : TrieInv T) :
    ∀ (w : Bytes) (i : Nat), findBlice T w = some i →
      (nodeAt T i).b = w ∧ i < T.length ∧ w.length ≤ i := by
  intro w
  induction w using List.reverseRecOn with
  | nil =>
    intro i h
    rw [findBlice_nil] at h
    cases h
    exact ⟨hT.b0, hT.pos, le_refl _⟩
  | append_singleton w c ih =>
    intro i h
    rw [findBlice_snoc] at h
    cases hw : findBlice T w with
    | none => rw [hw] at h; cases h
    | some i' =>
      rw [hw] at h
      simp only [Option.some_bind] at h
      obtain ⟨h1, h2, h3, -⟩ := hT.child i' c i h
      obtain ⟨g1, g2, g3⟩ := ih i' hw
      refine ⟨by rw [h3, g1], h2, ?_⟩
      simp only [List.length_append, List.length_singleton]
      omega

theorem reach_inj (T : List Node) (hT : TrieInv T) (w w' : Bytes) (i : Nat)
    (h : findBlice T w = some i) (h' : findBlice T w' = some i) : w = w' := by
  rw [← (reach_props T hT w i h).1, ← (reach_props T hT w' i h').1]

theorem childOf_lt (T : List Node) (i c j : Nat) (h : childOf T i c = some j) :
    i < T.length := by
  by_contra hc
  unfold childOf at h
  rw [nodeAt_ge T i (by omega)] at h
  cases h

theorem findBlice_congr (T T' : List Node)
    (h : ∀ i c, childOf T' i c = childOf T i c) : ∀ w, findBlice T' w = findBlice T w := by
  intro w
  induction w using List.reverseRecOn with
  | nil => rfl
  | append_singleton w c ih =>
    rw [findBlice_snoc, findBlice_snoc, ih]
    cases findBlice T w with
    | none => rfl
    | some i => exact h i c

theorem known_of_append (T : List Node) (w v : Bytes)
    (h : knownAt T (w ++ v) = true) : knownAt T w = true := by
  unfold knownAt at *
  cases hw : findBlice T w with
  | none => rw [findBlice_append_none T w v hw] at h; cases h
  | some i => rfl

theorem insertLoop_nil (path : Bytes) (n : Nat) (T : List Node) :
    insertLoop [] path n T = (T, n) := rfl

theorem insertLoop_cons_some (b : Nat) (rest path : Bytes) (n c : Nat) (T : List Node)
    (h : childOf T n b = some c) :
    insertLoop (b :: rest) path n T = insertLoop rest (path ++ [b]) c T := by
  simp only [insertLoop, h]

theorem insertLoop_cons_none (b : Nat) (rest path : Bytes) (n : Nat) (T : List Node)
    (h : childOf T n b = none) :
    insertLoop (b :: rest) path n T =
      insertLoop rest (path ++ [b]) T.length (createChild T n b (path ++ [b])) := by
  simp only [insertLoop, h, createChild]

theorem nodeAt_createChild (T : List Node) (n b : Nat) (path : Bytes) (hn : n < T.length)
    (j : Nat) :
    nodeAt (createChild T n b path) j =
      if j = T.length then
        { b := path, fail := if path.length = 1 then some 0 else none, suffix := some 0 }
      else if j = n then { nodeAt T n with child := (b, T.length) :: (nodeAt T n).child }
      else nodeAt T j := by
  unfold createChild
  by_cases h1 : j = T.length
  · subst h1
    rw [if_pos rfl]
    have := nodeAt_append_length (modifyNode (fun nd => { nd with child := (b, T.length) :: nd.child }) T n)
      { b := path, fail := if path.length = 1 then some 0 else none, suffix := some 0 }
    rw [length_modifyNode] at this
    exact this
  · rw [if_neg h1]
    by_cases h2 : j < T.length
    · rw [nodeAt_append_lt _ _ _ (by rw [length_modifyNode]; exact h2), nodeAt_modifyNode]
      by_cases h3 : j = n
      · subst h3; simp [hn]
      · simp [h3]
    · have h3 : j ≠ n := by omega
      rw [if_neg h3, nodeAt_ge T j (by omega), nodeAt_ge]
      simp only [List.length_append, length_modifyNode, List.length_singleton]
      omega

theorem childOf_createChild (T : List Node) (n b : Nat) (path : Bytes) (hn : n < T.length)
    (i k : Nat) :
    childOf (createChild T n b path) i k =
      if i = n ∧ k = b then some T.length else childOf T i k := by
  unfold childOf
  rw [nodeAt_createChild T n b path hn]
  by_cases h1 : i = T.length
  · have h3 : i ≠ n := by omega
    rw [if_pos h1, nodeAt_ge T i (by omega)]
    simp [h3]
  · rw [if_neg h1]
    by_cases h3 : i = n
    · subst h3
      rw [if_pos rfl]
      by_cases hk : k = b
      · subst hk; simp [List.lookup]
      · have : (k == b) = false := by simpa using hk
        simp [List.lookup, this, hk]
    · simp [h3]

theorem findBlice_createChild (T : List Node) (hT : TrieInv T) (n b : Nat) (path : Bytes)
    (hp : findBlice T path = some n) (hc : childOf T n b = none) (w : Bytes) :
    findBlice (createChild T n b (path ++ [b])) w =
      if w = path ++ [b] then some T.length else findBlice T w := by
  have hn : n < T.length := (reach_props T hT path n hp).2.1
  induction w using List.reverseRecOn with
  | nil => simp [findBlice_nil]
  | append_singleton u k ih =>
    rw [findBlice_snoc, ih]
    by_cases hu : u = path ++ [b]
    · rw [if_pos hu]
      have hne : u ++ [k] ≠ path ++ [b] := by
        intro h
        have := congrArg List.length h
        rw [hu] at this
        simp at this
      rw [if_neg hne, Option.some_bind, childOf_createChild T n b _ hn]
      have h1 : ¬ (T.length = n ∧ k = b) := by omega
      rw [if_neg h1, findBlice_snoc, hu, findBlice_snoc, hp, Option.some_bind, hc]
      unfold childOf
      rw [nodeAt_ge T _ (le_refl _)]
      rfl
    · rw [if_neg hu, findBlice_snoc]
      cases hfu : findBlice T u with
      | none =>
        have hne : u ++ [k] ≠ path ++ [b] := by
          intro h
          have h2 := List.append_inj_left' h rfl
          rw [h2, hp] at hfu
          cases hfu
        rw [if_neg hne]
        rfl
      | some i =>
        rw [Option.some_bind, Option.some_bind, childOf_createChild T n b _ hn]
        by_cases hin : i = n ∧ k = b
        · obtain ⟨h1, h2⟩ := hin
          subst h1 h2
          have := reach_inj T hT u path i hfu hp
          subst this
          simp
        · rw [if_neg hin]
          have hne : u ++ [k] ≠ path ++ [b] := by
            intro h
            have h2 := List.append_inj_left' h rfl
            have h3 := List.append_inj_right' h rfl
            apply hin
            subst h2
            rw [hp] at hfu
            simp at h3
            exact ⟨(Option.some.inj hfu).symm, h3⟩
          rw [if_neg hne]

theorem trieInv_createChild (T : List Node) (hT : TrieInv T) (n b : Nat) (path : Bytes)
    (hp : findBlice T path = some n) (hb : b < 256) :
    TrieInv (createChild T n b (path ++ [b])) := by
  obtain ⟨hpb, hn, -⟩ := reach_props T hT path n hp
  have hlen : (createChild T n b (path ++ [b])).length = T.length + 1 := by
    simp [createChild, length_modifyNode]
  have hpos := hT.pos
  constructor
  · omega
  · rw [nodeAt_createChild T n b _ hn, if_neg (by omega)]
    by_cases h : 0 = n
    · subst h; simp [hT.root0]
    · simp [h, hT.root0]
  · rw [nodeAt_createChild T n b _ hn, if_neg (by omega)]
    by_cases h : 0 = n
    · subst h; simp [hT.b0]
    · simp [h, hT.b0]
  · intro i c j h
    rw [childOf_createChild T n b _ hn] at h
    have hbn : ∀ x, x < T.length →
        (nodeAt (createChild T n b (path ++ [b])) x).b = (nodeAt T x).b := by
      intro x hx
      rw [nodeAt_createChild T n b _ hn, if_neg (by omega)]
      by_cases hxn : x = n
      · subst hxn; simp
      · simp [hxn]
    by_cases hin : i = n ∧ c = b
    · rw [if_pos hin] at h
      obtain ⟨h1, h2⟩ := hin
      subst h1 h2
      have hj : j = T.length := (Option.some.inj h).symm
      subst hj
      refine ⟨hn, by omega, ?_, hb⟩
      rw [hbn i hn, hpb, nodeAt_createChild T i c _ hn, if_pos rfl]
    · rw [if_neg hin] at h
      obtain ⟨h1, h2, h3, h4⟩ := hT.child i c j h
      exact ⟨h1, by omega, by rw [hbn j h2, hbn i (by omega), h3], h4⟩
  · intro j hj0 hjl
    rw [nodeAt_createChild T n b _ hn]
    by_cases h1 : j = T.length
    · rw [if_pos h1]
      simp
    · rw [if_neg h1]
      have := hT.created j hj0 (by omega)
      by_cases hjn : j = n
      · subst hjn; simpa using this
      · simpa [hjn] using this

theorem outAt_createChild (T : List Node) (hT : TrieInv T) (n b : Nat) (path : Bytes)
    (hp : findBlice T path = some n) (hc : childOf T n b = none) (w : Bytes) :
    outAt (createChild T n b (path ++ [b])) w = outAt T w := by
  have hn : n < T.length := (reach_props T hT path n hp).2.1
  unfold outAt
  rw [findBlice_createChild T hT n b path hp hc]
  by_cases hw : w = path ++ [b]
  · rw [if_pos hw, hw, findBlice_snoc, hp, Option.some_bind, hc]
    simp only
    rw [nodeAt_createChild T n b _ hn, if_pos rfl]
  · rw [if_neg hw]
    cases hf : findBlice T w with
    | none => rfl
    | some i =>
      simp only
      have hi := (reach_props T hT w i hf).2.1
      rw [nodeAt_createChild T n b _ hn, if_neg (by omega)]
      by_cases hin : i = n
      · subst hin; simp
      · simp [hin]

theorem knownAt_createChild (T : List Node) (hT : TrieInv T) (n b : Nat) (path : Bytes)
    (hp : findBlice T path = some n) (hc : childOf T n b = none) (w : Bytes) :
    knownAt (createChild T n b (path ++ [b])) w = true ↔
      (knownAt T w = true ∨ w = path ++ [b]) := by
  unfold knownAt
  rw [findBlice_createChild T hT n b path hp hc]
  by_cases hw : w = path ++ [b]
  · simp [hw]
  · simp [hw]

theorem insertLoop_spec : ∀ (bs path : Bytes) (n : Nat) (T : List Node), TrieInv T →
    IsBytes bs → findBlice T path = some n →
    TrieInv (insertLoop bs path n T).1 ∧
    findBlice (insertLoop bs path n T).1 (path ++ bs) = some (insertLoop bs path n T).2 ∧
    (∀ w, knownAt (insertLoop bs path n T).1 w = true ↔
      (knownAt T w = true ∨ w <+: path ++ bs)) ∧
    (∀ w, outAt (insertLoop bs path n T).1 w = outAt T w) := by
  intro bs
  induction bs with
  | nil =>
    intro path n T hT _ hp
    rw [insertLoop_nil, List.append_nil]
    refine ⟨hT, hp, ?_, fun _ => rfl⟩
    intro w
    constructor
    · intro h; exact Or.inl h
    · rintro (h | ⟨v, hv⟩)
      · exact h
      · apply known_of_append T w v
        rw [hv]
        unfold knownAt
        rw [hp]
        rfl
  | cons b rest ih =>
    intro path n T hT hbs hp
    have hb : b < 256 := hbs b (List.mem_cons_self _ _)
    have hrest : IsBytes rest := fun x hx => hbs x (List.mem_cons_of_mem _ hx)
    have happ : path ++ b :: rest = (path ++ [b]) ++ rest := by simp
    cases hc : childOf T n b with
    | some c =>
      rw [insertLoop_cons_some b rest path n c T hc, happ]
      have hp2 : findBlice T (path ++ [b]) = some c := by
        rw [findBlice_snoc, hp, Option.some_bind, hc]
      exact ih (path ++ [b]) c T hT hrest hp2
    | none =>
      rw [insertLoop_cons_none b rest path n T hc, happ]
      have hT2 := trieInv_createChild T hT n b path hp hb
      have hp2 : findBlice (createChild T n b (path ++ [b])) (path ++ [b]) = some T.length := by
        rw [findBlice_createChild T hT n b path hp hc, if_pos rfl]
      obtain ⟨g1, g2, g3, g4⟩ := ih (path ++ [b]) T.length _ hT2 hrest hp2
      refine ⟨g1, g2, ?_, ?_⟩
      · intro w
        rw [g3 w, knownAt_createChild T hT n b path hp hc]
        constructor
        · rintro ((h | h) | h)
          · exact Or.inl h
          · exact Or.inr ⟨rest, by rw [h]⟩
          · exact Or.inr h
        · rintro (h | h)
          · exact Or.inl (Or.inl h)
          · exact Or.inr h
      · intro w
        rw [g4 w, outAt_createChild T hT n b path hp hc]

theorem markOutput_spec (T : List Node) (hT : TrieInv T) (p : Bytes) (m : Nat)
    (hp : findBlice T p = some m) :
    TrieInv (modifyNode (fun nd => { nd with output := true }) T m) ∧
    (∀ w, findBlice (modifyNode (fun nd => { nd with output := true }) T m) w = findBlice T w) ∧
    (∀ w, outAt (modifyNode (fun nd => { nd with output := true }) T m) w = true ↔
      (outAt T w = true ∨ w = p)) := by
  have hm := (reach_props T hT p m hp).2.1
  have hnode : ∀ j, nodeAt (modifyNode (fun nd => { nd with output := true }) T m) j =
      if j = m then { nodeAt T m with output := true } else nodeAt T j := by
    intro j
    rw [nodeAt_modifyNode]
    by_cases h : j = m
    · simp [h, hm]
    · simp [h]
  have hchild : ∀ i c, childOf (modifyNode (fun nd => { nd with output := true }) T m) i c =
      childOf T i c := by
    intro i c
    unfold childOf
    rw [hnode]
    by_cases h : i = m
    · subst h; simp
    · simp [h]
  have hfind := findBlice_congr T _ hchild
  refine ⟨?_, hfind, ?_⟩
  · constructor
    · rw [length_modifyNode]; exact hT.pos
    · rw [hnode]
      by_cases h : 0 = m
      · subst h; simp [hT.root0]
      · simp [h, hT.root0]
    · rw [hnode]
      by_cases h : 0 = m
      · subst h; simp [hT.b0]
      · simp [h, hT.b0]
    · intro i c j h
      rw [hchild] at h
      obtain ⟨h1, h2, h3, h4⟩ := hT.child i c j h
      refine ⟨h1, by rw [length_modifyNode]; exact h2, ?_, h4⟩
      rw [hnode, hnode]
      by_cases hj : j = m <;> by_cases hi : i = m
      · omega
      · subst hj; simpa [hi] using h3
      · subst hi; simpa [hj] using h3
      · simpa [hi, hj] using h3
    · intro j hj0 hjl
      rw [length_modifyNode] at hjl
      have := hT.created j hj0 hjl
      rw [hnode]
      by_cases hj : j = m
      · subst hj; simpa using this
      · simpa [hj] using this
  · intro w
    unfold outAt
    rw [hfind]
    cases hf : findBlice T w with
    | none =>
      simp only
      constructor
      · intro h; cases h
      · rintro (h | h)
        · cases h
        · rw [h, hp] at hf; cases hf
    | some i =>
      simp only
      rw [hnode]
      by_cases hi : i = m
      · subst hi
        have := reach_inj T hT w p i hf hp
        simp [this]
      · have hne : w ≠ p := by
          intro h
          rw [h, hp] at hf
          exact hi (Option.some.inj hf).symm
        simp [hi, hne]

theorem insertAll_nil (T : List Node) : insertAll [] T = T := rfl

theorem insertAll_cons (p : Bytes) (D : List Bytes) (T : List Node) :
    insertAll (p :: D) T =
      insertAll D (modifyNode (fun nd => { nd with output := true })
        (insertLoop p [] 0 T).1 (insertLoop p [] 0 T).2) := rfl

theorem insertAll_spec : ∀ (D D0 : List Bytes) (T : List Node), TrieInv T → TrieFor T D0 →
    (∀ p ∈ D, IsBytes p) →
    TrieInv (insertAll D T) ∧ TrieFor (insertAll D T) (D0 ++ D) := by
  intro D
  induction D with
  | nil =>
    intro D0 T hT hF _
    rw [insertAll_nil, List.append_nil]
    exact ⟨hT, hF⟩
  | cons p D ih =>
    intro D0 T hT hF hD
    rw [insertAll_cons]
    have hroot : findBlice T [] = some 0 := findBlice_nil T
    obtain ⟨g1, g2, g3, g4⟩ :=
      insertLoop_spec p [] 0 T hT (hD p (List.mem_cons_self _ _)) hroot
    rw [List.nil_append] at g2
    obtain ⟨m1, m2, m3⟩ := markOutput_spec _ g1 p _ g2
    have hF2 : TrieFor (modifyNode (fun nd => { nd with output := true })
        (insertLoop p [] 0 T).1 (insertLoop p [] 0 T).2) (D0 ++ [p]) := by
      constructor
      · intro w
        have e : knownAt (modifyNode (fun nd => { nd with output := true })
            (insertLoop p [] 0 T).1 (insertLoop p [] 0 T).2) w =
            knownAt (insertLoop p [] 0 T).1 w := by
          unfold knownAt
          rw [m2]
        rw [e, g3 w, hF.known w, List.nil_append]
        constructor
        · rintro ((h | ⟨q, hq, hw⟩) | h)
          · exact Or.inl h
          · exact Or.inr ⟨q, List.mem_append_left _ hq, hw⟩
          · exact Or.inr ⟨p, by simp, h⟩
        · rintro (h | ⟨q, hq, hw⟩)
          · exact Or.inl (Or.inl h)
          · rcases List.mem_append.1 hq with h | h
            · exact Or.inl (Or.inr ⟨q, h, hw⟩)
            · rw [List.mem_singleton] at h
              subst h
              exact Or.inr hw
      · intro w
        rw [m3 w, g4 w, hF.out w]
        simp [List.mem_append]
    have := ih (D0 ++ [p]) _ m1 hF2 (fun q hq => hD q (List.mem_cons_of_mem _ hq))
    rw [List.append_assoc] at this
    exact this

theorem trieInv_init : TrieInv [{ root := true }] := by
  constructor
  · decide
  · rfl
  · rfl
  · intro i c j h
    unfold childOf at h
    have : (nodeAt [({ root := true } : Node)] i).child = [] := by
      cases i with
      | zero => rfl
      | succ k => rfl
    rw [this] at h
    cases h
  · intro j h0 hl
    simp at hl
    omega

theorem findBlice_init (w : Bytes) :
    findBlice [({ root := true } : Node)] w = if w = [] then some 0 else none := by
  cases w with
  | nil => rfl
  | cons c r =>
    rw [if_neg (by simp)]
    show findBliceFrom _ (childOf _ 0 c) r = none
    have : childOf [({ root := true } : Node)] 0 c = none := rfl
    rw [this]
    exact findBliceFrom_none _ r

theorem trieFor_init : TrieFor [{ root := true }] [] := by
  constructor
  · intro w
    unfold knownAt
    rw [findBlice_init]
    by_cases h : w = [] <;> simp [h]
  · intro w
    unfold outAt
    rw [findBlice_init]
    by_cases h : w = []
    · subst h
      simp [nodeAt]
    · simp [h]

/-- The node array after the insertion loop of `buildTrie` is a trie of the patterns. -/
theorem insertAll_trie (D : List Bytes) (hD : ∀ p ∈ D, IsBytes p) :
    TrieInv (insertAll D [{ root := true }]) ∧ TrieFor (insertAll D [{ root := true }]) D := by
  have := insertAll_spec D [] _ trieInv_init trieFor_init hD
  rwa [List.nil_append] at this

/-! ### The breadth-first pass -/

theorem tails_dropLast_cons (x : Nat) (r : Bytes) :
    (x :: r).tails.dropLast = (x :: r) :: r.tails.dropLast := by
  cases r with
  | nil => rfl
  | cons y r => rfl

theorem properSuffixes_eq (b : Bytes) : properSuffixes b = b.tail.tails.dropLast := by
  cases b with
  | nil => rfl
  | cons x r => rfl

theorem failSearch_spec (T : List Node) : ∀ (r : Bytes) (cur : Option Nat),
    failSearch T r.tails.dropLast cur =
      if r = [] then cur
      else if longestSuffix (knownAt T) r = [] then none
      else findBlice T (longestSuffix (knownAt T) r) := by
  intro r
  induction r with
  | nil => intro cur; rfl
  | cons x r ih =>
    intro cur
    rw [tails_dropLast_cons, if_neg (by simp)]
    cases hf : findBlice T (x :: r) with
    | some f =>
      have hk : knownAt T (x :: r) = true := by unfold knownAt; rw [hf]; rfl
      have hl : longestSuffix (knownAt T) (x :: r) = x :: r := by
        rw [longestSuffix, if_pos hk]
      rw [hl, if_neg (by simp), hf]
      simp only [failSearch, hf]
    | none =>
      have hk : ¬ knownAt T (x :: r) = true := by unfold knownAt; rw [hf]; simp
      have hl : longestSuffix (knownAt T) (x :: r) = longestSuffix (knownAt T) r := by
        rw [longestSuffix, if_neg hk]
      rw [hl]
      simp only [failSearch, hf]
      rw [ih none]
      by_cases hr : r = []
      · subst hr
        rfl
      · rw [if_neg hr]

theorem suffixSearch_spec (T : List Node) : ∀ (r : Bytes) (cur : Option Nat),
    suffixSearch T r.tails.dropLast cur =
      if longestSuffix (outAt T) r = [] then cur
      else findBlice T (longestSuffix (outAt T) r) := by
  intro r
  induction r with
  | nil => intro cur; rfl
  | cons x r ih =>
    intro cur
    rw [tails_dropLast_cons]
    cases hf : findBlice T (x :: r) with
    | some f =>
      by_cases ho : (nodeAt T f).output = true
      · have hk : outAt T (x :: r) = true := by unfold outAt; rw [hf]; exact ho
        have hl : longestSuffix (outAt T) (x :: r) = x :: r := by
          rw [longestSuffix, if_pos hk]
        rw [hl, if_neg (by simp), hf]
        simp only [suffixSearch, hf, ho, if_true]
      · have hk : ¬ outAt T (x :: r) = true := by unfold outAt; rw [hf]; exact ho
        have hl : longestSuffix (outAt T) (x :: r) = longestSuffix (outAt T) r := by
          rw [longestSuffix, if_neg hk]
        rw [hl]
        simp only [suffixSearch, hf, ho]
        exact ih cur
    | none =>
      have hk : ¬ outAt T (x :: r) = true := by unfold outAt; rw [hf]; simp
      have hl : longestSuffix (outAt T) (x :: r) = longestSuffix (outAt T) r := by
        rw [longestSuffix, if_neg hk]
      rw [hl]
      simp only [suffixSearch, hf]
      exact ih cur

theorem sameShape_refl (T : List Node) : SameShape T T :=
  ⟨rfl, fun _ => ⟨rfl, rfl, rfl, rfl⟩⟩

theorem sameShape_childOf (T0 T : List Node) (h : SameShape T0 T) (i c : Nat) :
    childOf T i c = childOf T0 i c := by
  unfold childOf
  rw [(h.2 i).2.2.2]

theorem sameShape_findBlice (T0 T : List Node) (h : SameShape T0 T) (w : Bytes) :
    findBlice T w = findBlice T0 w :=
  findBlice_congr T0 T (sameShape_childOf T0 T h) w

theorem sameShape_knownAt (T0 T : List Node) (h : SameShape T0 T) :
    knownAt T = knownAt T0 := by
  funext w
  unfold knownAt
  rw [sameShape_findBlice T0 T h]

theorem sameShape_outAt (T0 T : List Node) (h : SameShape T0 T) :
    outAt T = outAt T0 := by
  funext w
  unfold outAt
  rw [sameShape_findBlice T0 T h]
  cases findBlice T0 w with
  | none => rfl
  | some i => exact (h.2 i).2.2.1

theorem linkNode_fail (T0 T : List Node) (hS : SameShape T0 T) (nd : Node)
    (hw : nd.b.length ≤ 1 → nd.fail = some 0 ∨ nd.fail = none) :
    some ((failSearch T (properSuffixes nd.b) nd.fail).getD 0) = failTarget T0 nd.b := by
  rw [properSuffixes_eq, failSearch_spec, sameShape_knownAt T0 T hS]
  unfold failTarget
  by_cases hr : nd.b.tail = []
  · rw [if_pos hr, hr]
    have hl : nd.b.length ≤ 1 := by
      cases hb : nd.b with
      | nil => simp
      | cons x r => rw [hb] at hr; simp at hr; simp [hr]
    have : longestSuffix (knownAt T0) [] = [] := rfl
    rw [this, findBlice_nil]
    rcases hw hl with h | h <;> rw [h] <;> rfl
  · rw [if_neg hr]
    by_cases hL : longestSuffix (knownAt T0) nd.b.tail = []
    · rw [if_pos hL, hL, findBlice_nil]
      rfl
    · rw [if_neg hL, sameShape_findBlice T0 T hS]
      have := longestSuffix_holds (knownAt T0) nd.b.tail hL
      unfold knownAt at this
      cases hf : findBlice T0 (longestSuffix (fun w => (findBlice T0 w).isSome) nd.b.tail) with
      | none => rw [hf] at this; cases this
      | some f =>
        have e : longestSuffix (knownAt T0) nd.b.tail =
            longestSuffix (fun w => (findBlice T0 w).isSome) nd.b.tail := rfl
        rw [e, hf]
        rfl

theorem linkNode_suffix (T0 T : List Node) (hS : SameShape T0 T) (b : Bytes)
    (cur : Option Nat) (hw : cur = some 0 ∨ cur = suffixTarget T0 b) :
    suffixSearch T (properSuffixes b) cur = suffixTarget T0 b := by
  rw [properSuffixes_eq, suffixSearch_spec, sameShape_outAt T0 T hS,
    sameShape_findBlice T0 T hS]
  unfold suffixTarget at hw ⊢
  by_cases hL : longestSuffix (outAt T0) b.tail = []
  · rw [if_pos hL]
    rcases hw with h | h
    · rw [h, hL, findBlice_nil]
    · exact h
  · rw [if_neg hL]

theorem sameShape_modify (T0 T : List Node) (hS : SameShape T0 T) (f : Node → Node) (c : Nat)
    (hf : ∀ nd, (f nd).root = nd.root ∧ (f nd).b = nd.b ∧ (f nd).output = nd.output ∧
      (f nd).child = nd.child) : SameShape T0 (modifyNode f T c) := by
  refine ⟨by rw [length_modifyNode]; exact hS.1, ?_⟩
  intro i
  rw [nodeAt_modifyNode]
  by_cases h : i = c ∧ c < T.length
  · rw [if_pos h]
    obtain ⟨h1, -⟩ := h
    subst h1
    obtain ⟨a1, a2, a3, a4⟩ := hf (nodeAt T i)
    obtain ⟨b1, b2, b3, b4⟩ := hS.2 i
    exact ⟨a1.trans b1, a2.trans b2, a3.trans b3, a4.trans b4⟩
  · rw [if_neg h]
    exact hS.2 i

theorem linkNode_eq (T : List Node) (c : Nat) :
    linkNode T c =
      modifyNode (fun nd => { nd with suffix := (suffixSearch
          (modifyNode (fun nd => { nd with fail := some ((failSearch T
            (properSuffixes (nodeAt T c).b) (nodeAt T c).fail).getD 0) }) T c)
          (properSuffixes (nodeAt T c).b)
          (nodeAt (modifyNode (fun nd => { nd with fail := some ((failSearch T
            (properSuffixes (nodeAt T c).b) (nodeAt T c).fail).getD 0) }) T c)
            c).suffix) })
        (modifyNode (fun nd => { nd with fail := some ((failSearch T
          (properSuffixes (nodeAt T c).b) (nodeAt T c).fail).getD 0) }) T c) c := by
  unfold linkNode
  simp only
  generalize failSearch T (properSuffixes (nodeAt T c).b) (nodeAt T c).fail = o
  cases o <;> rfl

theorem linkNode_spec (T0 T : List Node) (hS : SameShape T0 T) (c : Nat) (hc : c < T.length)
    (hw : Linkable T0 (nodeAt T c)) :
    SameShape T0 (linkNode T c) ∧ Linked T0 (nodeAt (linkNode T c) c) ∧
    ∀ j, j ≠ c → nodeAt (linkNode T c) j = nodeAt T j := by
  rw [linkNode_eq, linkNode_fail T0 T hS (nodeAt T c) hw.1]
  have hS1 : SameShape T0 (modifyNode (fun nd => { nd with fail := failTarget T0 (nodeAt T c).b }) T c) :=
    sameShape_modify T0 T hS _ c (fun _ => ⟨rfl, rfl, rfl, rfl⟩)
  have hn1 : nodeAt (modifyNode (fun nd => { nd with fail := failTarget T0 (nodeAt T c).b }) T c) c =
      { nodeAt T c with fail := failTarget T0 (nodeAt T c).b } := by
    rw [nodeAt_modifyNode, if_pos ⟨rfl, hc⟩]
  rw [hn1]
  simp only
  rw [linkNode_suffix T0 _ hS1 (nodeAt T c).b (nodeAt T c).suffix hw.2]
  refine ⟨sameShape_modify T0 _ hS1 _ c (fun _ => ⟨rfl, rfl, rfl, rfl⟩), ?_, ?_⟩
  · rw [nodeAt_modifyNode, if_pos ⟨rfl, by rw [length_modifyNode]; exact hc⟩, hn1]
    exact ⟨rfl, rfl⟩
  · intro j hj
    rw [nodeAt_modifyNode, if_neg (fun h => hj h.1), nodeAt_modifyNode, if_neg (fun h => hj h.1)]

theorem linked_linkable (T0 : List Node) (nd : Node) (h : Linked T0 nd) : Linkable T0 nd := by
  refine ⟨?_, Or.inr h.2⟩
  intro hl
  left
  rw [h.1]
  unfold failTarget
  have : nd.b.tail = [] := by
    cases hb : nd.b with
    | nil => rfl
    | cons x r =>
      rw [hb] at hl
      simp at hl
      simp [hl]
  rw [this]
  rfl

theorem visitChildren_eq_foldl (n : Nat) (q : List Nat) (T : List Node) :
    visitChildren n q T = (List.range 256).foldl (visitStep n) (q, T) := rfl

theorem foldl_linkNode (T0 : List Node) : ∀ (cs : List Nat) (T : List Node),
    SameShape T0 T → AllLinkable T0 T → (∀ c ∈ cs, 0 < c ∧ c < T0.length) →
    SameShape T0 (cs.foldl linkNode T) ∧ AllLinkable T0 (cs.foldl linkNode T) ∧
    (∀ j, Linked T0 (nodeAt T j) → Linked T0 (nodeAt (cs.foldl linkNode T) j)) ∧
    ∀ c ∈ cs, Linked T0 (nodeAt (cs.foldl linkNode T) c) := by
  intro cs
  induction cs with
  | nil =>
    intro T hS hA _
    exact ⟨hS, hA, fun _ h => h, fun c hc => absurd hc (List.not_mem_nil c)⟩
  | cons c cs ih =>
    intro T hS hA hcs
    obtain ⟨hc0, hcl⟩ := hcs c (List.mem_cons_self _ _)
    obtain ⟨s1, s2, s3⟩ := linkNode_spec T0 T hS c (by rw [hS.1]; exact hcl) (hA c hc0 hcl)
    have hA1 : AllLinkable T0 (linkNode T c) := by
      intro j hj0 hjl
      by_cases hj : j = c
      · subst hj; exact linked_linkable T0 _ s2
      · rw [s3 j hj]; exact hA j hj0 hjl
    have hL1 : ∀ j, Linked T0 (nodeAt T j) → Linked T0 (nodeAt (linkNode T c) j) := by
      intro j h
      by_cases hj : j = c
      · subst hj; exact s2
      · rw [s3 j hj]; exact h
    obtain ⟨g1, g2, g3, g4⟩ := ih (linkNode T c) s1 hA1
      (fun x hx => hcs x (List.mem_cons_of_mem _ hx))
    rw [List.foldl_cons]
    refine ⟨g1, g2, fun j h => g3 j (hL1 j h), ?_⟩
    intro x hx
    rcases List.mem_cons.1 hx with h | h
    · subst h; exact g3 x s2
    · exact g4 x h

theorem foldl_visitStep (T0 : List Node) (n : Nat) : ∀ (l : List Nat) (q : List Nat)
    (T : List Node), SameShape T0 T → AllLinkable T0 T →
    (∀ i ∈ l, ∀ c, childOf T0 n i = some c → 0 < c ∧ c < T0.length) →
    l.foldl (visitStep n) (q, T) =
      (q ++ l.filterMap (childOf T0 n), (l.filterMap (childOf T0 n)).foldl linkNode T) := by
  intro l
  induction l with
  | nil => intro q T _ _ _; simp
  | cons i l ih =>
    intro q T hS hA hl
    rw [List.foldl_cons]
    have hcT : childOf T n i = childOf T0 n i := sameShape_childOf T0 T hS n i
    cases hc : childOf T0 n i with
    | none =>
      have hstep : visitStep n (q, T) i = (q, T) := by
        simp only [visitStep, hcT, hc]
      rw [hstep, ih q T hS hA (fun x hx => hl x (List.mem_cons_of_mem _ hx))]
      simp [List.filterMap_cons, hc]
    | some c =>
      have hstep : visitStep n (q, T) i = (q ++ [c], linkNode T c) := by
        simp only [visitStep, hcT, hc]
      rw [hstep]
      obtain ⟨hc0, hcl⟩ := hl i (List.mem_cons_self _ _) c hc
      obtain ⟨s1, s2, s3⟩ := linkNode_spec T0 T hS c (by rw [hS.1]; exact hcl) (hA c hc0 hcl)
      have hA1 : AllLinkable T0 (linkNode T c) := by
        intro j hj0 hjl
        by_cases hj : j = c
        · subst hj; exact linked_linkable T0 _ s2
        · rw [s3 j hj]; exact hA j hj0 hjl
      rw [ih (q ++ [c]) (linkNode T c) s1 hA1 (fun x hx => hl x (List.mem_cons_of_mem _ hx))]
      simp [List.filterMap_cons, hc]

theorem mem_childrenOf (T0 : List Node) (hT : TrieInv T0) (n j : Nat) :
    j ∈ childrenOf T0 n ↔ ∃ c, childOf T0 n c = some j := by
  unfold childrenOf
  rw [List.mem_filterMap]
  constructor
  · rintro ⟨c, -, h⟩; exact ⟨c, h⟩
  · rintro ⟨c, h⟩
    exact ⟨c, List.mem_range.2 (hT.child n c j h).2.2.2, h⟩

theorem nodup_childrenOf (T0 : List Node) (hT : TrieInv T0) (n : Nat) :
    (childrenOf T0 n).Nodup := by
  unfold childrenOf
  apply List.Nodup.filterMap _ (List.nodup_range 256)
  intro a a' j ha ha'
  have h1 := (hT.child n a j ha).2.2.1
  have h2 := (hT.child n a' j ha').2.2.1
  rw [h1] at h2
  have := List.append_inj_right' h2 rfl
  simpa using this

theorem visitChildren_spec (T0 : List Node) (hT : TrieInv T0) (n : Nat) (q : List Nat)
    (T : List Node) (hS : SameShape T0 T) (hA : AllLinkable T0 T) :
    visitChildren n q T = (q ++ childrenOf T0 n, (childrenOf T0 n).foldl linkNode T) := by
  rw [visitChildren_eq_foldl, foldl_visitStep T0 n _ q T hS hA]
  · rfl
  · intro i _ c hc
    obtain ⟨h1, h2, -, -⟩ := hT.child n i c hc
    exact ⟨by omega, h2⟩

theorem bfsInv_step (T0 : List Node) (hT : TrieInv T0) (V q : List Nat) (n : Nat)
    (T : List Node) (h : BfsInv T0 V (n :: q) T) :
    BfsInv T0 (V ++ [n]) (q ++ childrenOf T0 n) ((childrenOf T0 n).foldl linkNode T) := by
  have hlist : (V ++ [n]) ++ (q ++ childrenOf T0 n) = (V ++ n :: q) ++ childrenOf T0 n := by
    simp
  have hn : findBlice T0 (nodeAt T0 n).b = some n := h.reach n (by simp)
  have hcs : ∀ j ∈ childrenOf T0 n, 0 < j ∧ j < T0.length ∧
      findBlice T0 (nodeAt T0 j).b = some j := by
    intro j hj
    obtain ⟨c, hc⟩ := (mem_childrenOf T0 hT n j).1 hj
    obtain ⟨h1, h2, h3, -⟩ := hT.child n c j hc
    refine ⟨by omega, h2, ?_⟩
    rw [h3, findBlice_snoc, hn, Option.some_bind, hc]
  obtain ⟨g1, g2, g3, g4⟩ := foldl_linkNode T0 (childrenOf T0 n) T h.shape h.linkable
    (fun c hc => ⟨(hcs c hc).1, (hcs c hc).2.1⟩)
  constructor
  · exact g1
  · exact g2
  · rw [hlist, List.nodup_append]
    refine ⟨h.nodup, nodup_childrenOf T0 hT n, ?_⟩
    intro x hx hxc
    obtain ⟨c, hc⟩ := (mem_childrenOf T0 hT n x).1 hxc
    obtain ⟨v, hv, c2, hc2⟩ := h.parent x hx (by have := (hcs x hxc).1; omega)
    have e1 := (hT.child n c x hc).2.2.1
    have e2 := (hT.child v c2 x hc2).2.2.1
    rw [e1] at e2
    have e3 := List.append_inj_left' e2 rfl
    have hv2 := h.reach v (List.mem_append_left _ hv)
    rw [← e3, hn] at hv2
    have hnv : n = v := Option.some.inj hv2
    subst hnv
    have := h.nodup
    rw [List.nodup_append] at this
    exact this.2.2 hv (List.mem_cons_self _ _)
  · intro x hx
    rw [hlist, List.mem_append] at hx
    rcases hx with hx | hx
    · exact h.reach x hx
    · exact (hcs x hx).2.2
  · intro x hx hx0
    rw [hlist, List.mem_append] at hx
    rcases hx with hx | hx
    · obtain ⟨v, hv, c, hc⟩ := h.parent x hx hx0
      exact ⟨v, List.mem_append_left _ hv, c, hc⟩
    · obtain ⟨c, hc⟩ := (mem_childrenOf T0 hT n x).1 hx
      exact ⟨n, by simp, c, hc⟩
  · intro v hv c j hc
    rw [hlist, List.mem_append]
    rcases List.mem_append.1 hv with hv | hv
    · exact Or.inl (h.closed v hv c j hc)
    · rw [List.mem_singleton] at hv
      subst hv
      exact Or.inr ((mem_childrenOf T0 hT v j).2 ⟨c, hc⟩)
  · intro x hx hx0
    rw [hlist, List.mem_append] at hx
    rcases hx with hx | hx
    · exact g3 x (h.linked x hx hx0)
    · exact g4 x hx
  · rw [hlist]
    exact List.mem_append_left _ h.root

theorem nodup_length_le (l : List Nat) (N : Nat) (hl : l.Nodup) (hN : ∀ x ∈ l, x < N) :
    l.length ≤ N := by
  have hsub : l ⊆ List.range N := fun x hx => List.mem_range.2 (hN x hx)
  have := (List.subperm_of_subset hl hsub).length_le
  rwa [List.length_range] at this

theorem bfsLoop_inv (T0 : List Node) (hT : TrieInv T0) : ∀ (fuel : Nat) (V q : List Nat)
    (T : List Node), BfsInv T0 V q T → T0.length ≤ fuel + V.length →
    ∃ V2, BfsInv T0 V2 [] (bfsLoop fuel q T) := by
  intro fuel
  induction fuel with
  | zero =>
    intro V q T h hf
    have hlen := nodup_length_le (V ++ q) T0.length h.nodup
      (fun x hx => (reach_props T0 hT _ x (h.reach x hx)).2.1)
    have hq : q = [] := by
      rw [List.length_append] at hlen
      apply List.eq_nil_of_length_eq_zero
      omega
    subst hq
    exact ⟨V, h⟩
  | succ fuel ih =>
    intro V q T h hf
    cases q with
    | nil => exact ⟨V, h⟩
    | cons n q =>
      have e : bfsLoop (fuel + 1) (n :: q) T =
          bfsLoop fuel (visitChildren n q T).1 (visitChildren n q T).2 := rfl
      rw [e, visitChildren_spec T0 hT n q T h.shape h.linkable]
      apply ih (V ++ [n]) _ _ (bfsInv_step T0 hT V q n T h)
      rw [List.length_append, List.length_singleton]
      omega

theorem bfsInv_init (T0 : List Node) (hT : TrieInv T0) : BfsInv T0 [] [0] T0 := by
  constructor
  · exact sameShape_refl T0
  · intro j hj0 hjl
    obtain ⟨-, h2, h3⟩ := hT.created j hj0 hjl
    refine ⟨?_, Or.inl h2⟩
    intro hl
    rw [h3]
    by_cases h1 : (nodeAt T0 j).b.length = 1
    · rw [if_pos h1]; exact Or.inl rfl
    · rw [if_neg h1]; exact Or.inr rfl
  · simp
  · intro x hx
    simp at hx
    subst hx
    rw [hT.b0, findBlice_nil]
  · intro x hx hx0
    simp at hx
    exact absurd hx hx0
  · intro v hv
    simp at hv
  · intro x hx hx0
    simp at hx
    exact absurd hx hx0
  · simp

theorem bfsInv_final (T0 : List Node) (V : List Nat) (T : List Node)
    (h : BfsInv T0 V [] T) : ∀ (w : Bytes) (i : Nat), findBlice T0 w = some i → i ∈ V := by
  intro w
  induction w using List.reverseRecOn with
  | nil =>
    intro i hi
    rw [findBlice_nil] at hi
    have := h.root
    rw [List.append_nil] at this
    rw [← Option.some.inj hi]
    exact this
  | append_singleton w c ih =>
    intro i hi
    rw [findBlice_snoc] at hi
    cases hw : findBlice T0 w with
    | none => rw [hw] at hi; cases hi
    | some v =>
      rw [hw, Option.some_bind] at hi
      have := h.closed v (ih v hw) c i hi
      rwa [List.append_nil] at this

/-- What `buildTrie` leaves in the node array: the trie of the patterns, with every
node other than the root linked to its longest proper suffixes. -/
theorem buildTrie_linked (D : List Bytes) (hD : ∀ p ∈ D, IsBytes p) :
    SameShape (insertAll D [{ root := true }]) (buildTrie D).trie ∧
    ∀ (w : Bytes) (i : Nat), w ≠ [] → findBlice (insertAll D [{ root := true }]) w = some i →
      Linked (insertAll D [{ root := true }]) (nodeAt (buildTrie D).trie i) := by
  obtain ⟨hT, -⟩ := insertAll_trie D hD
  obtain ⟨V, hV⟩ := bfsLoop_inv _ hT (insertAll D [{ root := true }]).length [] [0] _
    (bfsInv_init _ hT) (by simp)
  refine ⟨hV.shape, ?_⟩
  intro w i hw hi
  have hiV := bfsInv_final _ V _ hV w i hi
  apply hV.linked i (by rw [List.append_nil]; exact hiV)
  have := (reach_props _ hT w i hi).2.2
  have : 0 < w.length := List.length_pos.2 hw
  omega

/-! ### The scan of the input -/

theorem outAt_knownAt (T0 : List Node) (v : Bytes) (h : outAt T0 v = true) :
    knownAt T0 v = true := by
  unfold outAt at h
  unfold knownAt
  cases hf : findBlice T0 v with
  | none => rw [hf] at h; cases h
  | some i => rfl

theorem knownAt_snoc (T0 : List Node) (c : Nat) (v : Bytes)
    (h : knownAt T0 (v ++ [c]) = true) : knownAt T0 v = true :=
  known_of_append T0 v [c] h

theorem longestSuffix_node (T0 : List Node) (p : Bytes → Bool)
    (hp : ∀ v, p v = true → knownAt T0 v = true) (w : Bytes) :
    ∃ n, findBlice T0 (longestSuffix p w) = some n := by
  by_cases h : longestSuffix p w = []
  · rw [h]; exact ⟨0, findBlice_nil T0⟩
  · have := hp _ (longestSuffix_holds p w h)
    unfold knownAt at this
    exact Option.isSome_iff_exists.1 this

theorem built_root_iff (T0 T : List Node) (hB : Built T0 T) (w : Bytes) (i : Nat)
    (h : findBlice T0 w = some i) : (nodeAt T i).root = true ↔ w = [] := by
  rw [(hB.shape.2 i).1]
  obtain ⟨-, h2, h3⟩ := reach_props T0 hB.inv w i h
  constructor
  · intro hr
    by_contra hw
    have : 0 < w.length := List.length_pos.2 hw
    have := (hB.inv.created i (by omega) h2).1
    rw [hr] at this
    cases this
  · intro hw
    subst hw
    rw [findBlice_nil] at h
    rw [← Option.some.inj h]
    exact hB.inv.root0

theorem failsLoop_zero (T : List Node) (c n : Nat) : failsLoop T c 0 n = n := rfl

theorem failsLoop_succ (T : List Node) (c fuel n : Nat) :
    failsLoop T c (fuel + 1) n =
      if (childOf T n c).isNone ∧ (nodeAt T n).root = false then
        failsLoop T c fuel ((nodeAt T n).fail.getD 0)
      else n := rfl

theorem failsLoop_spec (T0 T : List Node) (hB : Built T0 T) (c : Nat) :
    ∀ (fuel : Nat) (u : Bytes) (n : Nat), u.length ≤ fuel → findBlice T0 u = some n →
      findBlice T0 (longestSuffix (fun v => knownAt T0 (v ++ [c])) u) =
        some (failsLoop T c fuel n) := by
  intro fuel
  induction fuel with
  | zero =>
    intro u n hu hn
    have : u = [] := List.eq_nil_of_length_eq_zero (by omega)
    subst this
    rw [failsLoop_zero]
    exact hn
  | succ fuel ih =>
    intro u n hu hn
    rw [failsLoop_succ]
    cases u with
    | nil =>
      have hr := (built_root_iff T0 T hB [] n hn).2 rfl
      rw [if_neg (by rw [hr]; simp)]
      exact hn
    | cons x r =>
      have hr : (nodeAt T n).root = false := by
        have := built_root_iff T0 T hB (x :: r) n hn
        cases hroot : (nodeAt T n).root with
        | false => rfl
        | true => exact absurd (this.1 hroot) (by simp)
      rw [sameShape_childOf T0 T hB.shape]
      have hsn : findBlice T0 ((x :: r) ++ [c]) = childOf T0 n c := by
        rw [findBlice_snoc, hn, Option.some_bind]
      cases hc : childOf T0 n c with
      | some j =>
        rw [if_neg (by simp)]
        have hq : knownAt T0 ((x :: r) ++ [c]) = true := by
          unfold knownAt; rw [hsn, hc]; rfl
        have : longestSuffix (fun v => knownAt T0 (v ++ [c])) (x :: r) = x :: r := by
          rw [longestSuffix]; exact if_pos hq
        rw [this]
        exact hn
      | none =>
        rw [if_pos ⟨rfl, hr⟩]
        have hq : ¬ knownAt T0 ((x :: r) ++ [c]) = true := by
          unfold knownAt; rw [hsn, hc]; simp
        have e1 : longestSuffix (fun v => knownAt T0 (v ++ [c])) (x :: r) =
            longestSuffix (fun v => knownAt T0 (v ++ [c])) r := by
          rw [longestSuffix]; exact if_neg hq
        rw [e1, longestSuffix_through (fun v => knownAt T0 (v ++ [c])) (knownAt T0)
          (fun v hv => knownAt_snoc T0 c v hv) r]
        obtain ⟨n2, hn2⟩ := longestSuffix_node T0 (knownAt T0) (fun _ h => h) r
        have hfail : (nodeAt T n).fail = some n2 := by
          have hl := (hB.linked (x :: r) n (by simp) hn).1
          rw [hl]
          unfold failTarget
          rw [(hB.shape.2 n).2.1, (reach_props T0 hB.inv _ n hn).1]
          exact hn2
        rw [hfail]
        apply ih _ n2 _ hn2
        have := (longestSuffix_suffix (knownAt T0) r).length_le
        simp at hu
        omega

theorem knownAt_eq (T : List Node) (w : Bytes) : knownAt T w = (findBlice T w).isSome := rfl

theorem step_state (T0 T : List Node) (hB : Built T0 T) (c : Nat) (s : Bytes) (n : Nat)
    (hn : findBlice T0 (longestSuffix (knownAt T0) s) = some n) :
    findBlice T0 (longestSuffix (fun v => knownAt T0 (v ++ [c])) s) =
      some (if (nodeAt T n).root = false then Matcher.fails { trie := T } n c else n) := by
  rw [longestSuffix_through (fun v => knownAt T0 (v ++ [c])) (knownAt T0)
    (fun v hv => knownAt_snoc T0 c v hv) s]
  by_cases hr : (nodeAt T n).root = false
  · rw [if_pos hr]
    unfold Matcher.fails
    apply failsLoop_spec T0 T hB c _ _ n _ hn
    have := (reach_props T0 hB.inv _ n hn).2
    rw [hB.shape.1]
    omega
  · rw [if_neg hr]
    have hr2 : (nodeAt T n).root = true := by simpa using hr
    have := (built_root_iff T0 T hB _ n hn).1 hr2
    rw [this] at hn ⊢
    exact hn

theorem step_child (T0 T : List Node) (hB : Built T0 T) (c : Nat) (s : Bytes) (n1 : Nat)
    (hn : findBlice T0 (longestSuffix (fun v => knownAt T0 (v ++ [c])) s) = some n1) :
    (∀ f, childOf T n1 c = some f →
      longestSuffix (knownAt T0) (s ++ [c]) ≠ [] ∧
      findBlice T0 (longestSuffix (knownAt T0) (s ++ [c])) = some f) ∧
    (childOf T n1 c = none →
      longestSuffix (knownAt T0) (s ++ [c]) = [] ∧
      findBlice T0 (longestSuffix (knownAt T0) (s ++ [c])) = some n1) := by
  rw [sameShape_childOf T0 T hB.shape, longestSuffix_snoc]
  have hsn : findBlice T0 (longestSuffix (fun v => knownAt T0 (v ++ [c])) s ++ [c]) =
      childOf T0 n1 c := by
    rw [findBlice_snoc, hn, Option.some_bind]
  constructor
  · intro f hf
    have hk : knownAt T0 (longestSuffix (fun v => knownAt T0 (v ++ [c])) s ++ [c]) = true := by
      rw [knownAt_eq, hsn, hf]; rfl
    rw [if_pos hk, hsn]
    exact ⟨by simp, hf⟩
  · intro hf
    have hk : ¬ knownAt T0 (longestSuffix (fun v => knownAt T0 (v ++ [c])) s ++ [c]) = true := by
      rw [knownAt_eq, hsn, hf]; simp
    rw [if_neg hk]
    refine ⟨rfl, ?_⟩
    have hL : longestSuffix (fun v => knownAt T0 (v ++ [c])) s = [] := by
      by_contra hne
      exact hk (longestSuffix_holds _ s hne)
    rw [hL] at hn
    exact hn

theorem longestSuffix_out_known (T0 : List Node) (s : Bytes) :
    longestSuffix (outAt T0) (longestSuffix (knownAt T0) s) = longestSuffix (outAt T0) s :=
  (longestSuffix_through (outAt T0) (knownAt T0) (fun v hv => outAt_knownAt T0 v hv) s).symm

theorem detect_output (T0 T : List Node) (hB : Built T0 T) (s : Bytes) (f : Nat)
    (hf : findBlice T0 (longestSuffix (knownAt T0) s) = some f)
    (ho : (nodeAt T f).output = true) :
    longestSuffix (outAt T0) s = longestSuffix (knownAt T0) s ∧
    (nodeAt T f).b = longestSuffix (knownAt T0) s := by
  have hb : (nodeAt T f).b = longestSuffix (knownAt T0) s := by
    rw [(hB.shape.2 f).2.1]; exact (reach_props T0 hB.inv _ f hf).1
  refine ⟨?_, hb⟩
  rw [← longestSuffix_out_known]
  have hO : outAt T0 (longestSuffix (knownAt T0) s) = true := by
    unfold outAt
    rw [hf]
    simp only
    rw [← (hB.shape.2 f).2.2.1]
    exact ho
  cases hu : longestSuffix (knownAt T0) s with
  | nil => rfl
  | cons x r =>
    rw [hu] at hO
    rw [longestSuffix, if_pos hO]

theorem detect_suffix (T0 T : List Node) (hB : Built T0 T) (s : Bytes) (f : Nat)
    (hne : longestSuffix (knownAt T0) s ≠ [])
    (hf : findBlice T0 (longestSuffix (knownAt T0) s) = some f)
    (ho : (nodeAt T f).output = false) :
    findBlice T0 (longestSuffix (outAt T0) s) = some ((nodeAt T f).suffix.getD 0) := by
  have hl := (hB.linked _ f hne hf).2
  have hb : (nodeAt T f).b = longestSuffix (knownAt T0) s := by
    rw [(hB.shape.2 f).2.1]; exact (reach_props T0 hB.inv _ f hf).1
  have hO : ¬ outAt T0 (longestSuffix (knownAt T0) s) = true := by
    unfold outAt
    rw [hf]
    simp only
    rw [← (hB.shape.2 f).2.2.1, ho]
    simp
  have e : longestSuffix (outAt T0) s = longestSuffix (outAt T0) (longestSuffix (knownAt T0) s).tail := by
    rw [← longestSuffix_out_known]
    cases hu : longestSuffix (knownAt T0) s with
    | nil => rfl
    | cons x r =>
      rw [hu] at hO
      rw [longestSuffix, if_neg hO]
      rfl
  obtain ⟨k, hk⟩ := longestSuffix_node T0 (outAt T0) (fun v hv => outAt_knownAt T0 v hv) s
  rw [hl]
  unfold suffixTarget
  rw [hb, ← e, hk]
  rfl

theorem firstHit_nil (p : Bytes → Bool) (s : Bytes) : firstHit p s [] = -1 := by
  rw [firstHit]

theorem firstHit_cons (p : Bytes → Bool) (s : Bytes) (c : Nat) (rest : Bytes) :
    firstHit p s (c :: rest) =
      if longestSuffix p (s ++ [c]) = [] then firstHit p (s ++ [c]) rest
      else (s.length : Int) - (longestSuffix p (s ++ [c])).length + 1 := by
  rw [firstHit]

theorem suffixWalk_succ (m : Matcher) (i fuel f : Nat) :
    suffixWalk m i (fuel + 1) f =
      if (nodeAt m.trie ((nodeAt m.trie f).suffix.getD 0)).root = false then
        if (nodeAt m.trie ((nodeAt m.trie f).suffix.getD 0)).output then
          some ((i : Int) - (nodeAt m.trie ((nodeAt m.trie f).suffix.getD 0)).b.length + 1)
        else suffixWalk m i fuel ((nodeAt m.trie f).suffix.getD 0)
      else none := rfl

theorem indexLoop_cons (m : Matcher) (c : Nat) (rest : Bytes) (i n : Nat) :
    indexLoop m (c :: rest) i n =
      match childOf m.trie (if (nodeAt m.trie n).root = false then m.fails n c else n) c with
      | some f =>
        if (nodeAt m.trie f).output then (i : Int) - (nodeAt m.trie f).b.length + 1
        else
          match suffixWalk m i m.trie.length f with
          | some r => r
          | none => indexLoop m rest (i + 1) f
      | none => indexLoop m rest (i + 1)
          (if (nodeAt m.trie n).root = false then m.fails n c else n) := rfl

theorem containsLoop_cons (m : Matcher) (c : Nat) (rest : Bytes) (n : Nat) :
    containsLoop m (c :: rest) n =
      match childOf m.trie (if (nodeAt m.trie n).root = false then m.fails n c else n) c with
      | some f =>
        if (nodeAt m.trie f).output then true
        else if (nodeAt m.trie ((nodeAt m.trie f).suffix.getD 0)).root = false then true
        else containsLoop m rest f
      | none => containsLoop m rest
          (if (nodeAt m.trie n).root = false then m.fails n c else n) := rfl

/-- The three outcomes of one step of the scan, after the byte `c` is read. -/
theorem step_cases (T0 T : List Node) (hB : Built T0 T) (c : Nat) (s : Bytes) (n : Nat)
    (hn : findBlice T0 (longestSuffix (knownAt T0) s) = some n) :
    (childOf T (if (nodeAt T n).root = false then Matcher.fails { trie := T } n c else n) c
        = none ∧
      longestSuffix (outAt T0) (s ++ [c]) = [] ∧
      findBlice T0 (longestSuffix (knownAt T0) (s ++ [c])) =
        some (if (nodeAt T n).root = false then Matcher.fails { trie := T } n c else n)) ∨
    ∃ f, childOf T (if (nodeAt T n).root = false then Matcher.fails { trie := T } n c else n) c
        = some f ∧
      findBlice T0 (longestSuffix (knownAt T0) (s ++ [c])) = some f ∧
      (((nodeAt T f).output = true ∧ longestSuffix (outAt T0) (s ++ [c]) ≠ [] ∧
          (nodeAt T f).b = longestSuffix (outAt T0) (s ++ [c])) ∨
        ((nodeAt T f).output = false ∧
          (nodeAt T ((nodeAt T f).suffix.getD 0)).root = true ∧
          longestSuffix (outAt T0) (s ++ [c]) = []) ∨
        ((nodeAt T f).output = false ∧
          (nodeAt T ((nodeAt T f).suffix.getD 0)).root = false ∧
          (nodeAt T ((nodeAt T f).suffix.getD 0)).output = true ∧
          longestSuffix (outAt T0) (s ++ [c]) ≠ [] ∧
          (nodeAt T ((nodeAt T f).suffix.getD 0)).b = longestSuffix (outAt T0) (s ++ [c]))) := by
  have h1 := step_state T0 T hB c s n hn
  obtain ⟨h2, h3⟩ := step_child T0 T hB c s _ h1
  cases hc : childOf T (if (nodeAt T n).root = false then Matcher.fails { trie := T } n c else n) c with
  | none =>
    left
    obtain ⟨g1, g2⟩ := h3 hc
    refine ⟨rfl, ?_, g2⟩
    rw [← longestSuffix_out_known, g1]
    rfl
  | some f =>
    right
    obtain ⟨g1, g2⟩ := h2 f hc
    refine ⟨f, rfl, g2, ?_⟩
    cases ho : (nodeAt T f).output with
    | true =>
      left
      obtain ⟨e1, e2⟩ := detect_output T0 T hB (s ++ [c]) f g2 ho
      exact ⟨rfl, by rw [e1]; exact g1, by rw [e1]; exact e2⟩
    | false =>
      right
      have hs := detect_suffix T0 T hB (s ++ [c]) f g1 g2 ho
      have hroot := built_root_iff T0 T hB _ _ hs
      by_cases hL : longestSuffix (outAt T0) (s ++ [c]) = []
      · left
        exact ⟨rfl, hroot.2 hL, hL⟩
      · right
        have hr : (nodeAt T ((nodeAt T f).suffix.getD 0)).root = false := by
          cases hx : (nodeAt T ((nodeAt T f).suffix.getD 0)).root with
          | false => rfl
          | true => exact absurd (hroot.1 hx) hL
        have hO := longestSuffix_holds (outAt T0) (s ++ [c]) hL
        rw [outAt, hs] at hO
        simp only at hO
        refine ⟨rfl, hr, ?_, hL, ?_⟩
        · rw [(hB.shape.2 _).2.2.1]; exact hO
        · rw [(hB.shape.2 _).2.1]; exact (reach_props T0 hB.inv _ _ hs).1

theorem indexLoop_spec (T0 T : List Node) (hB : Built T0 T) : ∀ (rest s : Bytes) (n : Nat),
    findBlice T0 (longestSuffix (knownAt T0) s) = some n →
    indexLoop { trie := T } rest s.length n = firstHit (outAt T0) s rest := by
  intro rest
  induction rest with
  | nil => intro s n _; rw [firstHit_nil]; rfl
  | cons c rest ih =>
    intro s n hn
    rw [indexLoop_cons, firstHit_cons]
    have hlen : (s ++ [c]).length = s.length + 1 := by simp
    rcases step_cases T0 T hB c s n hn with ⟨h1, h2, h3⟩ | ⟨f, h1, h2, h3⟩
    · simp only [h1]
      rw [if_pos h2, ← hlen]
      exact ih (s ++ [c]) _ h3
    · simp only [h1]
      rcases h3 with ⟨a1, a2, a3⟩ | ⟨a1, a2, a3⟩ | ⟨a1, a2, a3, a4, a5⟩
      · rw [if_pos a1, if_neg a2, a3]
      · obtain ⟨k, hk⟩ : ∃ k, T.length = k + 1 :=
          ⟨T.length - 1, by have := hB.inv.pos; have := hB.shape.1; omega⟩
        simp only [a1, hk, suffixWalk_succ, a2, Bool.false_eq_true, if_false, Bool.true_eq_false]
        rw [if_pos a3, ← hlen]
        exact ih (s ++ [c]) _ h2
      · obtain ⟨k, hk⟩ : ∃ k, T.length = k + 1 :=
          ⟨T.length - 1, by have := hB.inv.pos; have := hB.shape.1; omega⟩
        simp only [a1, hk, suffixWalk_succ, a2, a3, if_true, Bool.false_eq_true, if_false]
        rw [if_neg a4, a5]

theorem firstHit_nonneg_or (p : Bytes → Bool) : ∀ (rest s : Bytes),
    firstHit p s rest = -1 ∨ 0 ≤ firstHit p s rest := by
  intro rest
  induction rest with
  | nil => intro s; left; exact firstHit_nil p s
  | cons c rest ih =>
    intro s
    rw [firstHit_cons]
    by_cases h : longestSuffix p (s ++ [c]) = []
    · rw [if_pos h]; exact ih _
    · rw [if_neg h]
      right
      have := (longestSuffix_suffix p (s ++ [c])).length_le
      simp at this
      omega

theorem containsLoop_spec (T0 T : List Node) (hB : Built T0 T) : ∀ (rest s : Bytes) (n : Nat),
    findBlice T0 (longestSuffix (knownAt T0) s) = some n →
    (containsLoop { trie := T } rest n = true ↔ firstHit (outAt T0) s rest ≠ -1) := by
  intro rest
  induction rest with
  | nil => intro s n _; rw [firstHit_nil]; simp [containsLoop]
  | cons c rest ih =>
    intro s n hn
    rw [containsLoop_cons, firstHit_cons]
    have hpos : ∀ L : Bytes, L <:+ s ++ [c] → (s.length : Int) - L.length + 1 ≠ -1 := by
      intro L hL
      have := hL.length_le
      simp at this
      omega
    rcases step_cases T0 T hB c s n hn with ⟨h1, h2, h3⟩ | ⟨f, h1, h2, h3⟩
    · simp only [h1]
      rw [if_pos h2]
      exact ih (s ++ [c]) _ h3
    · simp only [h1]
      rcases h3 with ⟨a1, a2, a3⟩ | ⟨a1, a2, a3⟩ | ⟨a1, a2, a3, a4, a5⟩
      · rw [if_pos a1, if_neg a2]
        simp only [true_iff]
        exact hpos _ (longestSuffix_suffix _ _)
      · simp only [a1, a2, Bool.false_eq_true, if_false, Bool.true_eq_false]
        rw [if_pos a3]
        exact ih (s ++ [c]) _ h2
      · simp only [a1, a2, Bool.false_eq_true, if_false, if_true]
        rw [if_neg a4]
        simp only [true_iff]
        exact hpos _ (longestSuffix_suffix _ _)

/-! ### Occurrences of the patterns -/

theorem firstHit_char (p : Bytes → Bool) : ∀ (rest s : Bytes),
    (firstHit p s rest = -1 ∧
      ∀ k, k < rest.length → longestSuffix p (s ++ rest.take (k + 1)) = []) ∨
    (∃ k, k < rest.length ∧
      (∀ j, j < k → longestSuffix p (s ++ rest.take (j + 1)) = []) ∧
      longestSuffix p (s ++ rest.take (k + 1)) ≠ [] ∧
      firstHit p s rest =
        ((s.length + k : Nat) : Int) - (longestSuffix p (s ++ rest.take (k + 1))).length + 1) := by
  intro rest
  induction rest with
  | nil =>
    intro s
    left
    exact ⟨firstHit_nil p s, fun k hk => absurd hk (by simp)⟩
  | cons c rest ih =>
    intro s
    rw [firstHit_cons]
    have h0 : s ++ (c :: rest).take (0 + 1) = s ++ [c] := by simp
    have hs : ∀ j, s ++ (c :: rest).take (j + 1 + 1) = (s ++ [c]) ++ rest.take (j + 1) := by
      intro j; simp
    by_cases h : longestSuffix p (s ++ [c]) = []
    · rw [if_pos h]
      rcases ih (s ++ [c]) with ⟨e, hall⟩ | ⟨k, hk, hbefore, hne, e⟩
      · left
        refine ⟨e, ?_⟩
        intro k hk
        cases k with
        | zero => rw [h0]; exact h
        | succ j =>
          rw [hs]
          exact hall j (by simp at hk; omega)
      · right
        refine ⟨k + 1, by simp; omega, ?_, ?_, ?_⟩
        · intro j hj
          cases j with
          | zero => rw [h0]; exact h
          | succ j =>
            rw [hs]
            exact hbefore j (by omega)
        · rw [hs]; exact hne
        · rw [hs, e]
          simp only [List.length_append, List.length_singleton]
          push_cast
          ring
    · rw [if_neg h]
      right
      refine ⟨0, by simp, fun j hj => absurd hj (by omega), by rw [h0]; exact h, ?_⟩
      rw [h0]
      simp

theorem prefix_drop_of_suffix_take (L input : Bytes) (e : Nat) (he : e ≤ input.length)
    (h : L <:+ input.take e) : L <+: input.drop (e - L.length) := by
  obtain ⟨A, hA⟩ := h
  have hlen : A.length + L.length = e := by
    have := congrArg List.length hA
    rw [List.length_append, List.length_take] at this
    omega
  have hin : input = A ++ (L ++ input.drop e) := by
    rw [← List.append_assoc, hA, List.take_append_drop]
  have hd : input.drop (e - L.length) = L ++ input.drop e := by
    have e1 : e - L.length = A.length := by omega
    rw [e1]
    nth_rewrite 1 [hin]
    exact List.drop_left _ _
  rw [hd]
  exact List.prefix_append _ _

theorem suffix_take_of_prefix_drop (p input : Bytes) (j : Nat) (hp : p ≠ [])
    (h : p <+: input.drop j) :
    p <:+ input.take (j + p.length) ∧ j + p.length ≤ input.length := by
  obtain ⟨t, ht⟩ := h
  have hj : j < input.length := by
    by_contra hc
    rw [List.drop_eq_nil_of_le (by omega)] at ht
    simp at ht
    exact hp ht.1
  have hin : input = input.take j ++ (p ++ t) := by
    rw [ht, List.take_append_drop]
  have hlen : input.length = j + (p.length + t.length) := by
    have := congrArg List.length hin
    rw [List.length_append, List.length_append, List.length_take] at this
    omega
  refine ⟨?_, by omega⟩
  have : input.take (j + p.length) = input.take j ++ p := by
    nth_rewrite 1 [hin]
    rw [← List.append_assoc]
    apply List.take_left'
    rw [List.length_append, List.length_take]
    omega
  rw [this]
  exact List.suffix_append _ _

theorem inner_of_occurrences (L p input : Bytes) (a j : Nat) (hL : L <+: input.drop a)
    (hp : p <+: input.drop j) (hja : j ≤ a) (hend : a + L.length ≤ j + p.length) :
    L <+: p.drop (a - j) := by
  obtain ⟨t, ht⟩ := hp
  have hd : input.drop a = p.drop (a - j) ++ t := by
    have : input.drop a = (input.drop j).drop (a - j) := by
      rw [List.drop_drop]
      congr 1
      omega
    rw [this, ← ht]
    exact List.drop_append_of_le_length (by omega)
  rw [hd] at hL
  exact List.prefix_of_prefix_length_le hL (List.prefix_append _ _)
    (by rw [List.length_drop]; omega)

theorem firstHit_leftmost (D : List Bytes) (hne : ∀ p ∈ D, p ≠ [])
    (hinf : NoInnerOccurrence D) (input : Bytes) :
    (firstHit (fun w => decide (w ∈ D)) [] input = -1 ∧ ∀ j, ¬ OccursAt D input j) ∨
    (∃ a : Nat, firstHit (fun w => decide (w ∈ D)) [] input = (a : Int) ∧
      OccursAt D input a ∧ ∀ j, j < a → ¬ OccursAt D input j) := by
  have hno : ∀ (j : Nat) (p : Bytes), p ∈ D → p <+: input.drop j →
      longestSuffix (fun w => decide (w ∈ D)) ([] ++ input.take (j + p.length - 1 + 1)) = [] →
      False := by
    intro j p hpD hpj hnil
    have hp0 : 0 < p.length := List.length_pos.2 (hne p hpD)
    obtain ⟨g1, -⟩ := suffix_take_of_prefix_drop p input j (hne p hpD) hpj
    have e1 : j + p.length - 1 + 1 = j + p.length := by omega
    rw [List.nil_append, e1] at hnil
    have := (longestSuffix_eq_nil_iff _ _).1 hnil p g1 (hne p hpD)
    simp at this
    exact this hpD
  rcases firstHit_char (fun w => decide (w ∈ D)) input [] with ⟨e, hall⟩ | ⟨k, hk, hbefore, hL, e⟩
  · left
    refine ⟨e, ?_⟩
    rintro j ⟨p, hpD, hpj⟩
    have hp0 : 0 < p.length := List.length_pos.2 (hne p hpD)
    obtain ⟨-, g2⟩ := suffix_take_of_prefix_drop p input j (hne p hpD) hpj
    exact hno j p hpD hpj (hall _ (by omega))
  · right
    rw [List.nil_append] at hL e
    have hsuf := longestSuffix_suffix (fun w => decide (w ∈ D)) (input.take (k + 1))
    have hLD : longestSuffix (fun w => decide (w ∈ D)) (input.take (k + 1)) ∈ D := by
      have := longestSuffix_holds _ _ hL
      simpa using this
    have hlen : (longestSuffix (fun w => decide (w ∈ D)) (input.take (k + 1))).length ≤ k + 1 := by
      have := hsuf.length_le
      rw [List.length_take] at this
      omega
    have hocc := prefix_drop_of_suffix_take _ input (k + 1) (by omega) hsuf
    refine ⟨k + 1 - (longestSuffix (fun w => decide (w ∈ D)) (input.take (k + 1))).length,
      ?_, ⟨_, hLD, hocc⟩, ?_⟩
    · rw [e]
      simp only [List.length_nil, Nat.zero_add]
      omega
    · rintro j hj ⟨p, hpD, hpj⟩
      have hp0 : 0 < p.length := List.length_pos.2 (hne p hpD)
      by_cases hend : j + p.length ≤ k
      · exact hno j p hpD hpj (hbefore _ (by omega))
      · have hin := inner_of_occurrences _ p input _ j hocc hpj (by omega) (by omega)
        have hL0 : 0 < (longestSuffix (fun w => decide (w ∈ D)) (input.take (k + 1))).length :=
          List.length_pos.2 hL
        refine hinf p hpD _ hLD _ ?_ (by omega) hin
        have := hin.length_le
        rw [List.length_drop] at this
        omega

/-! ### The built matcher -/

theorem built_of_dictionary (D : List Bytes) (hD : ∀ p ∈ D, IsBytes p) :
    Built (insertAll D [{ root := true }]) (buildTrie D).trie := by
  obtain ⟨h1, h2⟩ := buildTrie_linked D hD
  exact ⟨(insertAll_trie D hD).1, h1, h2⟩

theorem outAt_insertAll (D : List Bytes) (hD : ∀ p ∈ D, IsBytes p) :
    outAt (insertAll D [{ root := true }]) = fun w => decide (w ∈ D) := by
  funext w
  have := (insertAll_trie D hD).2.out w
  by_cases h : w ∈ D
  · simp [h, this.2 h]
  · have hf : outAt (insertAll D [{ root := true }]) w = false := by
      cases hx : outAt (insertAll D [{ root := true }]) w with
      | false => rfl
      | true => exact absurd (this.1 hx) h
    simp [h, hf]

theorem index_eq_firstHit (D : List Bytes) (hD : ∀ p ∈ D, IsBytes p) (input : Bytes) :
    (buildTrie D).Index input = firstHit (fun w => decide (w ∈ D)) [] input := by
  rw [← outAt_insertAll D hD]
  exact indexLoop_spec _ _ (built_of_dictionary D hD) input [] 0 (findBlice_nil _)

theorem contains_iff_firstHit (D : List Bytes) (hD : ∀ p ∈ D, IsBytes p) (input : Bytes) :
    (buildTrie D).Contains input = true ↔
      firstHit (fun w => decide (w ∈ D)) [] input ≠ -1 := by
  rw [← outAt_insertAll D hD]
  exact containsLoop_spec _ _ (built_of_dictionary D hD) input [] 0 (findBlice_nil _)

theorem infix_iff_prefix_drop (p input : Bytes) :
    p <:+: input ↔ ∃ j, p <+: input.drop j := by
  constructor
  · rintro ⟨a, b, h⟩
    refine ⟨a.length, b, ?_⟩
    rw [← h, List.append_assoc, List.drop_left]
  · rintro ⟨j, h⟩
    exact h.isInfix.trans (List.drop_suffix _ _).isInfix

theorem firstHit_ne_iff (p : Bytes → Bool) (input : Bytes) :
    firstHit p [] input ≠ -1 ↔ ∃ v, v ≠ [] ∧ p v = true ∧ v <:+: input := by
  constructor
  · intro h
    rcases firstHit_char p input [] with ⟨e, -⟩ | ⟨k, hk, -, hL, -⟩
    · exact absurd e h
    · rw [List.nil_append] at hL
      exact ⟨_, hL, longestSuffix_holds p _ hL,
        (longestSuffix_suffix p _).isInfix.trans (List.take_prefix _ _).isInfix⟩
  · rintro ⟨v, hv, hpv, hin⟩
    obtain ⟨j, hj⟩ := (infix_iff_prefix_drop v input).1 hin
    obtain ⟨g1, g2⟩ := suffix_take_of_prefix_drop v input j hv hj
    have hv0 : 0 < v.length := List.length_pos.2 hv
    rcases firstHit_char p input [] with ⟨-, hall⟩ | ⟨k, hk, -, hL, e⟩
    · have := hall (j + v.length - 1) (by omega)
      have e1 : j + v.length - 1 + 1 = j + v.length := by omega
      rw [List.nil_append, e1] at this
      have := (longestSuffix_eq_nil_iff p _).1 this v g1 hv
      rw [hpv] at this
      cases this
    · rw [e]
      have := (longestSuffix_suffix p ([] ++ input.take (k + 1))).length_le
      rw [List.length_append, List.length_take] at this
      simp only [List.length_nil, Nat.zero_add] at this ⊢
      omega

/-- The matcher built from byte strings contains an input iff a non-empty pattern
occurs in it. -/
theorem contains_iff_nonempty_pattern (D : List Bytes) (hD : ∀ p ∈ D, IsBytes p)
    (input : Bytes) :
    (buildTrie D).Contains input = true ↔ ∃ p ∈ D, p ≠ [] ∧ p <:+: input := by
  rw [contains_iff_firstHit D hD, firstHit_ne_iff]
  constructor
  · rintro ⟨v, h1, h2, h3⟩
    exact ⟨v, by simpa using h2, h1, h3⟩
  · rintro ⟨v, h1, h2, h3⟩
    exact ⟨v, h2, by simpa using h1, h3⟩

/-- The value of `Index` for non-empty patterns none of which occurs inside a pattern
at a later offset than its start:
the least offset at which a pattern starts, or -1. -/
theorem index_leftmost (D : List Bytes) (hD : ∀ p ∈ D, IsBytes p) (hne : ∀ p ∈ D, p ≠ [])
    (hinf : NoInnerOccurrence D) (input : Bytes) :
    ((buildTrie D).Index input = -1 ∧ ∀ j, ¬ OccursAt D input j) ∨
    (∃ a : Nat, (buildTrie D).Index input = (a : Int) ∧
      OccursAt D input a ∧ ∀ j, j < a → ¬ OccursAt D input j) := by
  rw [index_eq_firstHit D hD]
  exact firstHit_leftmost D hne hinf input

/-! ### The naive references -/

theorem stringsIndex_spec (sep : Bytes) : ∀ (s : Bytes),
    (stringsIndex s sep = -1 ∧ ∀ j, ¬ sep <+: s.drop j) ∨
    (∃ i : Nat, stringsIndex s sep = (i : Int) ∧ sep <+: s.drop i ∧
      ∀ j, j < i → ¬ sep <+: s.drop j) := by
  intro s
  induction s with
  | nil =>
    by_cases h : sep = []
    · right
      refine ⟨0, ?_, ?_, fun j hj => absurd hj (by omega)⟩
      · simp [stringsIndex, h]
      · rw [h]; exact List.nil_prefix
    · left
      refine ⟨by simp [stringsIndex, h], ?_⟩
      intro j hj
      rw [List.drop_nil, List.prefix_nil] at hj
      exact h hj
  | cons x r ih =>
    by_cases hp : sep.isPrefixOf (x :: r) = true
    · right
      refine ⟨0, ?_, ?_, fun j hj => absurd hj (by omega)⟩
      · rw [stringsIndex, if_pos hp]; rfl
      · exact List.isPrefixOf_iff_prefix.1 hp
    · have hnp : ¬ sep <+: x :: r := fun h => hp (List.isPrefixOf_iff_prefix.2 h)
      rcases ih with ⟨e, hall⟩ | ⟨i, e, hi, hbefore⟩
      · left
        refine ⟨by rw [stringsIndex, if_neg hp, if_pos e], ?_⟩
        intro j
        cases j with
        | zero => exact hnp
        | succ j => exact hall j
      · right
        refine ⟨i + 1, ?_, hi, ?_⟩
        · rw [stringsIndex, if_neg hp, if_neg (by rw [e]; omega), e]
          push_cast
          rfl
        · intro j hj
          cases j with
          | zero => exact hnp
          | succ j => exact hbefore j (by omega)

theorem minIndexLoop_spec (title : Bytes) : ∀ (seps : List Bytes) (m : Int),
    (minIndexLoop title seps m = m ∨
      ∃ sep ∈ seps, stringsIndex title sep ≠ -1 ∧
        minIndexLoop title seps m = stringsIndex title sep) ∧
    minIndexLoop title seps m ≤ m ∧
    ∀ sep ∈ seps, stringsIndex title sep ≠ -1 →
      minIndexLoop title seps m ≤ stringsIndex title sep := by
  intro seps
  induction seps with
  | nil => intro m; exact ⟨Or.inl rfl, le_refl _, fun sep h => absurd h (List.not_mem_nil _)⟩
  | cons sep seps ih =>
    intro m
    have hstep : minIndexLoop title (sep :: seps) m =
        minIndexLoop title seps
          (if stringsIndex title sep ≠ -1 ∧ stringsIndex title sep < m
            then stringsIndex title sep else m) := rfl
    rw [hstep]
    by_cases hc : stringsIndex title sep ≠ -1 ∧ stringsIndex title sep < m
    · rw [if_pos hc]
      obtain ⟨h1, h2, h3⟩ := ih (stringsIndex title sep)
      refine ⟨Or.inr ?_, by omega, ?_⟩
      · rcases h1 with h | ⟨q, hq, hq1, hq2⟩
        · exact ⟨sep, List.mem_cons_self _ _, hc.1, h⟩
        · exact ⟨q, List.mem_cons_of_mem _ hq, hq1, hq2⟩
      · intro q hq hq1
        rcases List.mem_cons.1 hq with h | h
        · rw [h]; exact h2
        · exact h3 q h hq1
    · rw [if_neg hc]
      obtain ⟨h1, h2, h3⟩ := ih m
      refine ⟨?_, h2, ?_⟩
      · rcases h1 with h | ⟨q, hq, hq1, hq2⟩
        · exact Or.inl h
        · exact Or.inr ⟨q, List.mem_cons_of_mem _ hq, hq1, hq2⟩
      · intro q hq hq1
        rcases List.mem_cons.1 hq with h | h
        · subst h
          have : ¬ stringsIndex title q < m := fun hlt => hc ⟨hq1, hlt⟩
          omega
        · exact h3 q h hq1

theorem stringsIndex_none (D : List Bytes) (input : Bytes) (h : ∀ j, ¬ OccursAt D input j)
    (p : Bytes) (hp : p ∈ D) : stringsIndex input p = -1 := by
  rcases stringsIndex_spec p input with ⟨e, -⟩ | ⟨i, -, hi, -⟩
  · exact e
  · exact absurd ⟨p, hp, hi⟩ (h i)

theorem stringsIndex_ge (D : List Bytes) (input : Bytes) (a : Nat)
    (h : ∀ j, j < a → ¬ OccursAt D input j) (p : Bytes) (hp : p ∈ D)
    (hne : stringsIndex input p ≠ -1) : (a : Int) ≤ stringsIndex input p := by
  rcases stringsIndex_spec p input with ⟨e, -⟩ | ⟨i, e, hi, -⟩
  · exact absurd e hne
  · rw [e]
    by_contra hc
    exact h i (by omega) ⟨p, hp, hi⟩

theorem stringsIndex_leftmost (D : List Bytes) (input : Bytes) (a : Nat)
    (hocc : OccursAt D input a) (h : ∀ j, j < a → ¬ OccursAt D input j) :
    ∃ p ∈ D, stringsIndex input p = (a : Int) := by
  obtain ⟨p, hp, hpa⟩ := hocc
  refine ⟨p, hp, ?_⟩
  rcases stringsIndex_spec p input with ⟨-, hall⟩ | ⟨i, e, hi, hbefore⟩
  · exact absurd hpa (hall a)
  · rw [e]
    have h1 : ¬ i < a := fun hlt => h i hlt ⟨p, hp, hi⟩
    have h2 : ¬ a < i := fun hlt => hbefore a hlt hpa
    have : i = a := by omega
    rw [this]

theorem foldl_min_spec : ∀ (rest : List Int) (i : Int),
    rest.foldl min i ∈ i :: rest ∧ ∀ x ∈ i :: rest, rest.foldl min i ≤ x := by
  intro rest
  induction rest with
  | nil => intro i; simp
  | cons y rest ih =>
    intro i
    rw [List.foldl_cons]
    obtain ⟨h1, h2⟩ := ih (min i y)
    constructor
    · rcases List.mem_cons.1 h1 with h | h
      · rw [h]
        rcases min_choice i y with hm | hm <;> rw [hm] <;> simp
      · exact List.mem_cons_of_mem _ (List.mem_cons_of_mem _ h)
    · intro x hx
      have hmin := h2 (min i y) (List.mem_cons_self _ _)
      rcases List.mem_cons.1 hx with h | h
      · rw [h]; exact le_trans hmin (min_le_left _ _)
      · rcases List.mem_cons.1 h with h | h
        · rw [h]; exact le_trans hmin (min_le_right _ _)
        · exact h2 x (List.mem_cons_of_mem _ h)

theorem leftmostIndex_of_none (D : List Bytes) (input : Bytes)
    (h : ∀ j, ¬ OccursAt D input j) : leftmostIndex D input = -1 := by
  unfold leftmostIndex
  have : (D.map (stringsIndex input)).filter (fun i => i ≠ -1) = [] := by
    rw [List.filter_eq_nil_iff]
    intro x hx
    obtain ⟨p, hp, e⟩ := List.mem_map.1 hx
    rw [← e, stringsIndex_none D input h p hp]
    simp
  rw [this]

theorem leftmostIndex_of_leftmost (D : List Bytes) (input : Bytes) (a : Nat)
    (hocc : OccursAt D input a) (h : ∀ j, j < a → ¬ OccursAt D input j) :
    leftmostIndex D input = (a : Int) := by
  obtain ⟨p, hp, e⟩ := stringsIndex_leftmost D input a hocc h
  have hmem : (a : Int) ∈ (D.map (stringsIndex input)).filter (fun i => i ≠ -1) := by
    rw [List.mem_filter]
    refine ⟨List.mem_map.2 ⟨p, hp, e⟩, ?_⟩
    simp
  have hall : ∀ x ∈ (D.map (stringsIndex input)).filter (fun i => i ≠ -1), (a : Int) ≤ x := by
    intro x hx
    rw [List.mem_filter] at hx
    obtain ⟨q, hq, e2⟩ := List.mem_map.1 hx.1
    rw [← e2]
    apply stringsIndex_ge D input a h q hq
    rw [e2]
    simpa using hx.2
  unfold leftmostIndex
  generalize (D.map (stringsIndex input)).filter (fun i => i ≠ -1) = l at hmem hall
  cases l with
  | nil => exact absurd hmem (List.not_mem_nil _)
  | cons i rest =>
    show rest.foldl min i = (a : Int)
    obtain ⟨h1, h2⟩ := foldl_min_spec rest i
    exact le_antisymm (h2 _ hmem) (hall _ h1)

/-- The value of `Index` for non-empty patterns without inner occurrences agrees with
the naive minimum of first-occurrence indices. -/
theorem index_eq_leftmostIndex (D : List Bytes) (hD : ∀ p ∈ D, IsBytes p)
    (hne : ∀ p ∈ D, p ≠ []) (hinf : NoInnerOccurrence D) (input : Bytes) :
    (buildTrie D).Index input = leftmostIndex D input := by
  rcases index_leftmost D hD hne hinf input with ⟨e, h⟩ | ⟨a, e, hocc, h⟩
  · rw [e, leftmostIndex_of_none D input h]
  · rw [e, leftmostIndex_of_leftmost D input a hocc h]

theorem minIndexLoop_of_none (D : List Bytes) (input : Bytes)
    (h : ∀ j, ¬ OccursAt D input j) (m : Int) : minIndexLoop input D m = m := by
  rcases (minIndexLoop_spec input D m).1 with h1 | ⟨q, hq, hq1, -⟩
  · exact h1
  · exact absurd (stringsIndex_none D input h q hq) hq1

theorem minIndexLoop_of_leftmost (D : List Bytes) (hne : ∀ p ∈ D, p ≠ []) (input : Bytes)
    (a : Nat) (hocc : OccursAt D input a) (h : ∀ j, j < a → ¬ OccursAt D input j) :
    minIndexLoop input D input.length = (a : Int) := by
  obtain ⟨p, hp, e⟩ := stringsIndex_leftmost D input a hocc h
  obtain ⟨h1, h2, h3⟩ := minIndexLoop_spec input D input.length
  have hle : minIndexLoop input D input.length ≤ (a : Int) := by
    rw [← e]
    apply h3 p hp
    rw [e]
    omega
  have halt : a < input.length := by
    obtain ⟨q, hq, hqa⟩ := hocc
    have := (suffix_take_of_prefix_drop q input a (hne q hq) hqa).2
    have : 0 < q.length := List.length_pos.2 (hne q hq)
    omega
  rcases h1 with h1 | ⟨q, hq, hq1, hq2⟩
  · rw [h1] at hle
    omega
  · have := stringsIndex_ge D input a h q hq hq1
    rw [← hq2] at this
    omega

theorem separators_bytes : ∀ p ∈ separators, IsBytes p := by decide

theorem separators_nonempty : ∀ p ∈ separators, p ≠ [] := by decide

theorem separators_noInner : NoInnerOccurrence separators := by decide

/-- The function `StripTitle` agrees with the naive reference on every title. -/
theorem stripTitle_eq_naive (title : Bytes) : StripTitle title = naiveStripTitle title := by
  unfold StripTitle naiveStripTitle
  have hm : matcher = buildTrie separators := rfl
  simp only
  rw [hm]
  rcases index_leftmost separators separators_bytes separators_nonempty separators_noInner title
    with ⟨e, h⟩ | ⟨a, e, hocc, h⟩
  · rw [e, if_pos rfl, minIndexLoop_of_none separators title h]
    simp
  · rw [e, if_neg (by omega),
      minIndexLoop_of_leftmost separators separators_nonempty title a hocc h]

/-! ### Trimming -/

theorem spaceSeqs_nonempty : ∀ p ∈ spaceSeqs, p ≠ [] := by decide

theorem stripSpacePrefix_none_iff (s : Bytes) :
    stripSpacePrefix s = none ↔ ∀ p ∈ spaceSeqs, ¬ p <+: s := by
  unfold stripSpacePrefix
  rw [List.findSome?_eq_none_iff]
  constructor
  · intro h p hp hpre
    have := h p hp
    rw [if_pos (List.isPrefixOf_iff_prefix.2 hpre)] at this
    cases this
  · intro h p hp
    rw [if_neg (fun hc => h p hp (List.isPrefixOf_iff_prefix.1 hc))]

theorem stripSpacePrefix_some (s t : Bytes) (h : stripSpacePrefix s = some t) :
    t <:+ s ∧ t.length < s.length := by
  unfold stripSpacePrefix at h
  obtain ⟨p, hp, hpt⟩ := List.exists_of_findSome?_eq_some h
  by_cases hc : p.isPrefixOf s = true
  · rw [if_pos hc] at hpt
    have hpre := List.isPrefixOf_iff_prefix.1 hc
    have hlen := hpre.length_le
    have hp0 : 0 < p.length := List.length_pos.2 (spaceSeqs_nonempty p hp)
    rw [← Option.some.inj hpt]
    refine ⟨List.drop_suffix _ _, ?_⟩
    rw [List.length_drop]
    omega
  · rw [if_neg hc] at hpt
    cases hpt

theorem stripSpaceSuffix_none_iff (s : Bytes) :
    stripSpaceSuffix s = none ↔ ∀ p ∈ spaceSeqs, ¬ p <:+ s := by
  unfold stripSpaceSuffix
  rw [List.findSome?_eq_none_iff]
  constructor
  · intro h p hp hsuf
    have := h p hp
    rw [if_pos (List.isPrefixOf_iff_prefix.2 (List.reverse_prefix.2 hsuf))] at this
    cases this
  · intro h p hp
    rw [if_neg (fun hc => h p hp (List.reverse_prefix.1 (List.isPrefixOf_iff_prefix.1 hc)))]

theorem stripSpaceSuffix_some (s t : Bytes) (h : stripSpaceSuffix s = some t) :
    t <+: s ∧ t.length < s.length := by
  unfold stripSpaceSuffix at h
  obtain ⟨p, hp, hpt⟩ := List.exists_of_findSome?_eq_some h
  by_cases hc : p.reverse.isPrefixOf s.reverse = true
  · rw [if_pos hc] at hpt
    have hsuf := List.reverse_prefix.1 (List.isPrefixOf_iff_prefix.1 hc)
    have hlen := hsuf.length_le
    have hp0 : 0 < p.length := List.length_pos.2 (spaceSeqs_nonempty p hp)
    rw [← Option.some.inj hpt]
    refine ⟨List.take_prefix _ _, ?_⟩
    rw [List.length_take]
    omega
  · rw [if_neg hc] at hpt
    cases hpt

theorem stripSpacePrefix_nil : stripSpacePrefix [] = none := by decide

theorem stripSpaceSuffix_nil : stripSpaceSuffix [] = none := by decide

theorem trimLeftLoop_spec : ∀ (fuel : Nat) (s : Bytes), s.length ≤ fuel →
    trimLeftLoop fuel s <:+ s ∧ stripSpacePrefix (trimLeftLoop fuel s) = none := by
  intro fuel
  induction fuel with
  | zero =>
    intro s hs
    have : s = [] := List.eq_nil_of_length_eq_zero (by omega)
    subst this
    exact ⟨List.suffix_refl _, stripSpacePrefix_nil⟩
  | succ fuel ih =>
    intro s hs
    cases h : stripSpacePrefix s with
    | none =>
      have : trimLeftLoop (fuel + 1) s = s := by simp only [trimLeftLoop, h]
      rw [this]
      exact ⟨List.suffix_refl _, h⟩
    | some t =>
      have : trimLeftLoop (fuel + 1) s = trimLeftLoop fuel t := by simp only [trimLeftLoop, h]
      rw [this]
      obtain ⟨h1, h2⟩ := stripSpacePrefix_some s t h
      obtain ⟨g1, g2⟩ := ih t (by omega)
      exact ⟨g1.trans h1, g2⟩

theorem trimRightLoop_spec : ∀ (fuel : Nat) (s : Bytes), s.length ≤ fuel →
    trimRightLoop fuel s <+: s ∧ stripSpaceSuffix (trimRightLoop fuel s) = none := by
  intro fuel
  induction fuel with
  | zero =>
    intro s hs
    have : s = [] := List.eq_nil_of_length_eq_zero (by omega)
    subst this
    exact ⟨List.prefix_refl _, stripSpaceSuffix_nil⟩
  | succ fuel ih =>
    intro s hs
    cases h : stripSpaceSuffix s with
    | none =>
      have : trimRightLoop (fuel + 1) s = s := by simp only [trimRightLoop, h]
      rw [this]
      exact ⟨List.prefix_refl _, h⟩
    | some t =>
      have : trimRightLoop (fuel + 1) s = trimRightLoop fuel t := by simp only [trimRightLoop, h]
      rw [this]
      obtain ⟨h1, h2⟩ := stripSpaceSuffix_some s t h
      obtain ⟨g1, g2⟩ := ih t (by omega)
      exact ⟨g1.trans h1, g2⟩

theorem trimLeftLoop_fixed (fuel : Nat) (s : Bytes) (h : stripSpacePrefix s = none) :
    trimLeftLoop fuel s = s := by
  cases fuel with
  | zero => rfl
  | succ fuel => simp only [trimLeftLoop, h]

theorem trimRightLoop_fixed (fuel : Nat) (s : Bytes) (h : stripSpaceSuffix s = none) :
    trimRightLoop fuel s = s := by
  cases fuel with
  | zero => rfl
  | succ fuel => simp only [trimRightLoop, h]

theorem trimSpace_within (s : Bytes) : TrimSpace s <:+: s := by
  unfold TrimSpace
  exact (trimRightLoop_spec _ _ (le_refl _)).1.isInfix.trans
    (trimLeftLoop_spec _ s (le_refl _)).1.isInfix

theorem trimSpace_idem (s : Bytes) : TrimSpace (TrimSpace s) = TrimSpace s := by
  have hl := (trimLeftLoop_spec s.length s (le_refl _)).2
  obtain ⟨hr1, hr2⟩ := trimRightLoop_spec (trimLeftLoop s.length s).length _ (le_refl _)
  have hT : TrimSpace s = trimRightLoop (trimLeftLoop s.length s).length (trimLeftLoop s.length s) :=
    rfl
  have hleft : stripSpacePrefix (TrimSpace s) = none := by
    rw [stripSpacePrefix_none_iff] at hl ⊢
    intro p hp hpre
    rw [hT] at hpre
    exact hl p hp (hpre.trans hr1)
  have e : TrimSpace (TrimSpace s) =
      trimRightLoop (trimLeftLoop (TrimSpace s).length (TrimSpace s)).length
        (trimLeftLoop (TrimSpace s).length (TrimSpace s)) := rfl
  rw [e, trimLeftLoop_fixed _ _ hleft]
  apply trimRightLoop_fixed
  rw [hT]
  exact hr2

/-- The function `StripTitle` is idempotent. -/
theorem stripTitle_idem (t : Bytes) : StripTitle (StripTitle t) = StripTitle t := by
  have hm : matcher = buildTrie separators := rfl
  have key : ∀ cut : Bytes, (∀ j, ¬ OccursAt separators cut j) →
      StripTitle (TrimSpace cut) = TrimSpace cut := by
    intro cut hcut
    have hnone : ∀ j, ¬ OccursAt separators (TrimSpace cut) j := by
      rintro j ⟨p, hp, hpj⟩
      have h1 : p <:+: cut :=
        ((infix_iff_prefix_drop p _).2 ⟨j, hpj⟩).trans (trimSpace_within cut)
      obtain ⟨i, hi⟩ := (infix_iff_prefix_drop p cut).1 h1
      exact hcut i ⟨p, hp, hi⟩
    unfold StripTitle
    simp only
    rw [hm]
    rcases index_leftmost separators separators_bytes separators_nonempty separators_noInner
      (TrimSpace cut) with ⟨e, -⟩ | ⟨a, -, hocc, -⟩
    · rw [e, if_pos rfl]
      exact trimSpace_idem cut
    · exact absurd hocc (hnone a)
  have hcases : ∃ cut : Bytes, StripTitle t = TrimSpace cut ∧
      ∀ j, ¬ OccursAt separators cut j := by
    rcases index_leftmost separators separators_bytes separators_nonempty separators_noInner t
      with ⟨e, h⟩ | ⟨a, e, hocc, h⟩
    · refine ⟨t, ?_, h⟩
      unfold StripTitle
      simp only
      rw [hm, e, if_pos rfl]
    · refine ⟨t.take a, ?_, ?_⟩
      · unfold StripTitle
        simp only
        rw [hm, e, if_neg (by omega)]
        rfl
      · rintro j ⟨p, hp, hpj⟩
        have hp0 : 0 < p.length := List.length_pos.2 (separators_nonempty p hp)
        rw [List.drop_take] at hpj
        have hlen := hpj.length_le
        rw [List.length_take] at hlen
        exact h j (by omega) ⟨p, hp, hpj.trans (List.take_prefix _ _)⟩
  obtain ⟨cut, e, hcut⟩ := hcases
  rw [e]
  exact key cut hcut

/-! ### The matcher and `StripTitle` -/

/-- C11, amended: for every dictionary of byte strings and every input,
`Matcher.Contains(input)` is true iff at least one non-empty pattern of the dictionary
occurs as a contiguous substring of the input. -/
theorem contains_iff_nonempty_pattern_occurs (D : List Bytes) (hD : ∀ p ∈ D, IsBytes p)
    (input : Bytes) :
    (NewMatcher D).Contains input = true ↔ ∃ p ∈ D, p ≠ [] ∧ p <:+: input :=
  contains_iff_nonempty_pattern D hD input

theorem contains_iff_nonempty_pattern_occurs_witness :
    (∀ p ∈ [utf8 "作词", utf8 "by"], IsBytes p) ∧
    ((NewMatcher [utf8 "作词", utf8 "by"]).Contains (utf8 "作词: X") = true ↔
      ∃ p ∈ [utf8 "作词", utf8 "by"], p ≠ [] ∧ p <:+: utf8 "作词: X") :=
  ⟨by decide,
    contains_iff_nonempty_pattern_occurs [utf8 "作词", utf8 "by"] (by decide) (utf8 "作词: X")⟩

/-- C11, counterexample: with the empty pattern in the dictionary, the empty pattern
occurs in the input `a`, yet `Contains` is false. -/
theorem contains_misses_empty_pattern :
    (NewMatcher [[]]).Contains (utf8 "a") = false ∧
    ([] : Bytes) ∈ [([] : Bytes)] ∧ ([] : Bytes) <:+: utf8 "a" := by
  decide!

/-- C12, amended: for every dictionary of non-empty patterns none of which occurs
inside a pattern at an offset other than 0, and every input, `Matcher.Index(input)`
is the minimum over the patterns of the pattern's first occurrence index, or -1 when
no pattern occurs. -/
theorem index_is_leftmost_occurrence (D : List Bytes) (hD : ∀ p ∈ D, IsBytes p)
    (hne : ∀ p ∈ D, p ≠ []) (hinf : NoInnerOccurrence D) (input : Bytes) :
    (NewMatcher D).Index input = leftmostIndex D input :=
  index_eq_leftmostIndex D hD hne hinf input

theorem index_is_leftmost_occurrence_witness :
    (∀ p ∈ [utf8 " feat.", utf8 "("], IsBytes p) ∧
    (∀ p ∈ [utf8 " feat.", utf8 "("], p ≠ []) ∧
    NoInnerOccurrence [utf8 " feat.", utf8 "("] ∧
    (NewMatcher [utf8 " feat.", utf8 "("]).Index (utf8 "a (b) feat. c") =
      leftmostIndex [utf8 " feat.", utf8 "("] (utf8 "a (b) feat. c") :=
  ⟨by decide, by decide, by decide,
    index_is_leftmost_occurrence [utf8 " feat.", utf8 "("] (by decide) (by decide) (by decide)
      (utf8 "a (b) feat. c")⟩

/-- C12, counterexample: with the patterns `abcd` and `bc`, the leftmost occurrence in
`abcd` starts at 0 and `Index` is 1; with the empty pattern, the leftmost occurrence
in `a` starts at 0 and `Index` is -1. -/
theorem index_not_leftmost_occurrence :
    (NewMatcher [utf8 "abcd", utf8 "bc"]).Index (utf8 "abcd") = 1 ∧
    leftmostIndex [utf8 "abcd", utf8 "bc"] (utf8 "abcd") = 0 ∧
    (NewMatcher [[]]).Index (utf8 "a") = -1 ∧
    leftmostIndex [[]] (utf8 "a") = 0 := by
  decide!

/-- C13: for every title, `StripTitle` equals the naive reference, the title cut at the
least first-occurrence index of a separator and trimmed; on the two titles of the
specification it gives the specified results. -/
theorem stripTitle_equals_naive_reference :
    (∀ title : Bytes, StripTitle title = naiveStripTitle title) ∧
    StripTitle (utf8 "春日影 (MyGo!!!!! ver.)") = utf8 "春日影" ∧
    StripTitle (utf8 "Plain Song") = utf8 "Plain Song" := by
  refine ⟨stripTitle_eq_naive, ?_, ?_⟩
  · rw [stripTitle_eq_naive]; decide
  · rw [stripTitle_eq_naive]; decide

/-- C14: `StripTitle` is idempotent. -/
theorem stripTitle_idempotent (t : Bytes) : StripTitle (StripTitle t) = StripTitle t :=
  stripTitle_idem t

/-! ### The fallback policy -/

theorem candidateLoop_spec (check : Candidate → Bool) : ∀ (iter : List Candidate),
    (candidateLoop check iter).1 =
      ((iter.filter check).map (fun candidate => Attempt.fetch candidate.Lyrics)).findSome?
        Attempt.decides ∧
    ∀ candidate ∈ (candidateLoop check iter).2, check candidate = true := by
  intro iter
  induction iter with
  | nil => exact ⟨rfl, fun _ h => absurd h (List.not_mem_nil _)⟩
  | cons candidate rest ih =>
    by_cases hc : check candidate = true
    · rw [List.filter_cons, if_pos hc, List.map_cons, List.findSome?_cons]
      cases hl : candidate.Lyrics with
      | ok lyrics =>
        have e : candidateLoop check (candidate :: rest) = (some (some lyrics), [candidate]) := by
          simp only [candidateLoop, hc, hl, Bool.not_true, Bool.false_eq_true, if_false]
        rw [e]
        refine ⟨rfl, ?_⟩
        intro x hx
        rw [List.mem_singleton] at hx
        rw [hx]; exact hc
      | error err =>
        by_cases ha : err.aborts = true
        · have e : candidateLoop check (candidate :: rest) = (some none, [candidate]) := by
            simp only [candidateLoop, hc, hl, ha, Bool.not_true, Bool.false_eq_true, if_false,
              if_true]
          rw [e]
          refine ⟨by simp only [Attempt.decides, ha, if_true], ?_⟩
          intro x hx
          rw [List.mem_singleton] at hx
          rw [hx]; exact hc
        · have e : candidateLoop check (candidate :: rest) =
              ((candidateLoop check rest).1, candidate :: (candidateLoop check rest).2) := by
            simp only [candidateLoop, hc, hl, ha, Bool.not_true, Bool.false_eq_true, if_false]
          rw [e]
          refine ⟨by simp only [Attempt.decides, ha, Bool.false_eq_true, if_false]; exact ih.1, ?_⟩
          intro x hx
          rcases List.mem_cons.1 hx with h | h
          · rw [h]; exact hc
          · exact ih.2 x h
    · have e : candidateLoop check (candidate :: rest) = candidateLoop check rest := by
        simp only [candidateLoop, hc, Bool.not_false, if_true]
      rw [e, List.filter_cons, if_neg hc]
      exact ih

theorem providerLoop_spec (check : Candidate → Bool) : ∀ (providers : List Provider),
    (providerLoop check providers).1 = firstDecided (attemptsOf check providers) ∧
    ∀ candidate ∈ (providerLoop check providers).2, check candidate = true := by
  intro providers
  induction providers with
  | nil => exact ⟨rfl, fun _ h => absurd h (List.not_mem_nil _)⟩
  | cons prov rest ih =>
    unfold firstDecided attemptsOf at ih ⊢
    rw [List.flatMap_cons, List.findSome?_append]
    cases hi : prov.IterAll with
    | error err =>
      by_cases ha : err.aborts = true
      · have e : providerLoop check (prov :: rest) = (none, []) := by
          simp only [providerLoop, hi, ha, if_true]
        rw [e]
        refine ⟨?_, fun _ h => absurd h (List.not_mem_nil _)⟩
        simp [List.findSome?_cons, Attempt.decides, ha]
      · have e : providerLoop check (prov :: rest) = providerLoop check rest := by
          simp only [providerLoop, hi, ha, Bool.false_eq_true, if_false]
        rw [e]
        refine ⟨?_, ih.2⟩
        rw [ih.1]
        simp [List.findSome?_cons, Attempt.decides, ha]
    | ok iter =>
      obtain ⟨c1, c2⟩ := candidateLoop_spec check iter
      simp only
      rw [← c1]
      cases hr : candidateLoop check iter with
      | mk r fetched =>
        rw [hr] at c2
        cases r with
        | some v =>
          have e : providerLoop check (prov :: rest) = (v, fetched) := by
            simp only [providerLoop, hi, hr]
          rw [e]
          exact ⟨by simp, c2⟩
        | none =>
          have e : providerLoop check (prov :: rest) =
              ((providerLoop check rest).1, fetched ++ (providerLoop check rest).2) := by
            simp only [providerLoop, hi, hr]
          rw [e]
          refine ⟨by rw [ih.1]; simp, ?_⟩
          intro x hx
          rcases List.mem_append.1 hx with h | h
          · exact c2 x h
          · exact ih.2 x h

/-- C15: with each provider an enumeration error or a finite list of candidates,
`fetchFallback` returns the result of the first attempt, in provider order and then
candidate order, that ends the policy: the lyrics of an accepted candidate whose fetch
succeeds, or none at a cancellation or deadline error of an enumeration or of the
fetch of an accepted candidate; other errors move on to the next candidate or
provider, the result is none when no attempt ends the policy, and only accepted
candidates are fetched. -/
theorem fetchFallback_first_decided (providers : List Provider) (meta : MPRISMetadata) :
    (fetchFallback providers meta).1 =
      firstDecided (attemptsOf
        (fun candidate => checkCandidate meta candidate (StripTitle meta.Title) meta.Artists)
        providers) ∧
    ∀ candidate ∈ (fetchFallback providers meta).2,
      checkCandidate meta candidate (StripTitle meta.Title) meta.Artists = true :=
  providerLoop_spec _ providers

/-! ### The sources of lyrics -/

/-- The order in which `fetchLyrics` resolves its sources when the cache read returns:
a cache hit first, then the embedded text, then nothing without providers or for a
stale request, then the provider policy, the only source with `shouldCache`. -/
theorem fetchLyrics_priority (c : Controller) (z : LZ4) (fs : FS) (providers : List Provider)
    (fastest : Option Lyrics) (meta : MPRISMetadata) (reqID : Int) :
    (∀ cache l, c.cache = some cache → cache.Get z fs meta = .ok l →
      c.fetchLyrics z fs providers fastest meta reqID = .returned c (some l) false []) ∧
    ((c.cache = none ∨ ∃ cache e, c.cache = some cache ∧ cache.Get z fs meta = .error e) →
      (∀ lines, meta.Text ≠ [] → ParseLrc meta.Text = .ok lines →
        c.fetchLyrics z fs providers fastest meta reqID =
          .returned c (some { Lines := lines, Source := utf8 "mpris" }) false []) ∧
      ((meta.Text = [] ∨ ∃ e, ParseLrc meta.Text = .error e) →
        (providers = [] →
          c.fetchLyrics z fs providers fastest meta reqID = .returned c none false []) ∧
        (providers ≠ [] → reqID ≠ c.currentRequestID →
          c.fetchLyrics z fs providers fastest meta reqID = .returned c none false []) ∧
        (providers ≠ [] → reqID = c.currentRequestID →
          c.fetchLyrics z fs providers fastest meta reqID =
            .returned { c with cancelFetching := true }
              (match c.fetchMode with
                | .Fallback => (fetchFallback providers meta).1
                | .Fastest => fastest)
              true (if c.cancelFetching then [.cancelFetching] else [])))) := by
  constructor
  · intro cache l hc hg
    simp only [Controller.fetchLyrics, hc, hg]
  · intro hcache
    have hskip : c.fetchLyrics z fs providers fastest meta reqID =
        c.fetchFromText providers fastest meta reqID := by
      rcases hcache with h | ⟨cache, e, h1, h2⟩
      · simp only [Controller.fetchLyrics, h]
      · simp only [Controller.fetchLyrics, h1, h2]
    rw [hskip]
    constructor
    · intro lines ht hp
      simp only [Controller.fetchFromText, ht, hp, ne_eq, not_false_eq_true, if_true]
    · intro htext
      have htxt : c.fetchFromText providers fastest meta reqID =
          c.fetchFromProviders providers fastest meta reqID := by
        rcases htext with h | ⟨e, h⟩
        · simp only [Controller.fetchFromText, h, ne_eq, not_true_eq_false, if_false]
        · by_cases ht : meta.Text = []
          · simp only [Controller.fetchFromText, ht, ne_eq, not_true_eq_false, if_false]
          · simp only [Controller.fetchFromText, ht, h, ne_eq, not_false_eq_true, if_true]
      rw [htxt]
      refine ⟨?_, ?_, ?_⟩
      · intro hp
        simp [Controller.fetchFromProviders, hp]
      · intro hp hr
        have hl : providers.length ≠ 0 := by
          intro h; exact hp (List.eq_nil_of_length_eq_zero h)
        simp [Controller.fetchFromProviders, hl, hr]
      · intro hp hr
        have hl : providers.length ≠ 0 := by
          intro h; exact hp (List.eq_nil_of_length_eq_zero h)
        cases hm : c.fetchMode <;> simp [Controller.fetchFromProviders, hl, hr, hm]

/-- C16: with a cache file whose header announces a line and whose body is empty, the
cache read panics and `fetchLyrics` panics with it, though the embedded text of the
track parses. -/
theorem fetchLyrics_panics_on_truncated_cache :
    ParseLrc embeddedMeta.Text = .ok [{ Position := 1000, Text := utf8 "hello" }] ∧
    sampleController.cache = some sampleCache ∧
    sampleCache.Get storeCodec truncatedFS embeddedMeta = .panic ∧
    sampleController.fetchLyrics storeCodec truncatedFS [] none embeddedMeta 3 = .panic := by
  decide!

/-! ### Filtering -/

theorem setLyrics_eq (c : Controller) (l : Lyrics) :
    c.setLyrics l = { c with lyrics := (c.setLyrics l).lyrics } := by
  unfold Controller.setLyrics
  cases c.filterMatcher <;> rfl

theorem keptLines_eq_linesWithoutPattern (filters : List Bytes)
    (hD : ∀ p ∈ filters, IsBytes p) (lines : List LyricLine) :
    keptLines (NewStringMatcher filters) lines = linesWithoutPattern filters lines := by
  unfold keptLines linesWithoutPattern
  apply List.filter_congr
  intro line _
  have h := contains_iff_nonempty_pattern filters hD line.Text
  have e : NewStringMatcher filters = buildTrie filters := rfl
  rw [e]
  by_cases hc : (buildTrie filters).Contains line.Text = true
  · obtain ⟨p, hp, hne, hin⟩ := h.1 hc
    rw [hc]
    symm
    simp only [Bool.not_true, decide_eq_false_iff_not]
    intro hall
    exact hall p hp hne hin
  · have hf : (buildTrie filters).Contains line.Text = false := by simpa using hc
    rw [hf]
    symm
    simp only [Bool.not_false, decide_eq_true_eq]
    intro p hp hne hin
    exact hc (h.2 ⟨p, hp, hne, hin⟩)

/-- C17, amended: with the filter matcher built from the filter patterns, `setLyrics`
installs a `Lyrics` with the same source whose lines are exactly the input lines whose
text contains no non-empty filter pattern, in their order, and changes nothing else;
with no filter matcher it installs the input unchanged.  With the filter `作词` the
line `作词: X` is removed and the other lines are kept in order. -/
theorem setLyrics_keeps_lines_without_pattern (c : Controller) (l : Lyrics)
    (filters : List Bytes) (hD : ∀ p ∈ filters, IsBytes p) :
    ({ c with filterMatcher := some (NewStringMatcher filters) }).setLyrics l =
      { c with filterMatcher := some (NewStringMatcher filters),
               lyrics := some { Source := l.Source,
                                Lines := linesWithoutPattern filters l.Lines } } ∧
    ({ c with filterMatcher := none }).setLyrics l =
      { c with filterMatcher := none, lyrics := some l } ∧
    linesWithoutPattern [utf8 "作词"] creditLyrics.Lines =
      [⟨0, utf8 "la la"⟩, ⟨2000, utf8 "na na"⟩] := by
  refine ⟨?_, ?_, by decide⟩
  · rw [setLyrics_eq, setLyrics_lyrics]
    simp only
    rw [keptLines_eq_linesWithoutPattern filters hD]
  · rw [setLyrics_eq, setLyrics_lyrics]

theorem setLyrics_keeps_lines_without_pattern_witness :
    (∀ p ∈ [utf8 "作词"], IsBytes p) ∧
    (({ sampleController with filterMatcher := some (NewStringMatcher [utf8 "作词"]) }).setLyrics
        creditLyrics =
      { sampleController with
        filterMatcher := some (NewStringMatcher [utf8 "作词"]),
        lyrics := some { Source := creditLyrics.Source,
                         Lines := linesWithoutPattern [utf8 "作词"] creditLyrics.Lines } } ∧
    ({ sampleController with filterMatcher := none }).setLyrics creditLyrics =
      { sampleController with filterMatcher := none, lyrics := some creditLyrics } ∧
    linesWithoutPattern [utf8 "作词"] creditLyrics.Lines =
      [⟨0, utf8 "la la"⟩, ⟨2000, utf8 "na na"⟩]) :=
  ⟨by decide,
    setLyrics_keeps_lines_without_pattern sampleController creditLyrics [utf8 "作词"] (by decide)⟩

/-- C17, counterexample: with the empty string as the only filter pattern, every line
of `sampleLyrics` contains a filter pattern, and `setLyrics` keeps them all. -/
theorem setLyrics_keeps_lines_with_empty_pattern :
    (({ sampleController with filterMatcher := some (NewStringMatcher [[]]) }).setLyrics
        sampleLyrics).lyrics = some sampleLyrics ∧
    ([] : Bytes) ∈ [([] : Bytes)] ∧
    ([] : Bytes) <:+: utf8 "a" ∧ ([] : Bytes) <:+: utf8 "b" ∧ ([] : Bytes) <:+: utf8 "c" := by
  decide!

/-! ### Snapshots -/

theorem resetLoop_of_room : ∀ (ps : List PublisherEntry), (∀ p ∈ ps, p.ch.length < 16) →
    resetLoop ps = some (ps.map clearedSink) := by
  intro ps
  induction ps with
  | nil => intro _; rfl
  | cons p ps ih =>
    intro h
    have hp : p.ch.length < 16 := h p (List.mem_cons_self _ _)
    have e : ({ p with SentIndex := -1 } : PublisherEntry).Clear = some (clearedSink p) := by
      simp only [PublisherEntry.Clear, hp, if_true, clearedSink]
    simp only [resetLoop, e, ih (fun q hq => h q (List.mem_cons_of_mem _ hq)), List.map_cons]

theorem resetAll_of_room (c : Controller) (h : ∀ p ∈ c.publishers, p.ch.length < 16) :
    c.resetAll = some ({ c with cancelTicking := false, cancelFetching := false, position := 0,
                                lyrics := none, publishers := c.publishers.map clearedSink },
      resetCancels c) := by
  simp only [Controller.resetAll, resetLoop_of_room c.publishers h, resetCancels]

/-- C19: for a snapshot that takes the branch of a changed track and has an empty
title or no artists, `process` is `resetAll` followed by the recording of the snapshot
as `props`; when the inbox of every sink has room it returns with the request id
unchanged, nothing started but the cancel calls of `resetAll`, and only the clear
instruction appended to the inbox of each sink. -/
theorem process_invalid_metadata (c : Controller) (props : MPRISProperties)
    (hnr : ¬ (props.PlaybackStatus = .Unknown ∧ props.Metadata.Title = []))
    (hne : Equal props.Metadata c.props.Metadata = false)
    (hinv : props.Metadata.Title = [] ∨ props.Metadata.Artists = []) :
    c.process props = c.resetAll.map (fun r => ({ r.1 with props := props }, r.2)) ∧
    ((∀ p ∈ c.publishers, p.ch.length < 16) →
      c.process props =
        some ({ c with cancelTicking := false, cancelFetching := false, position := 0,
                       lyrics := none, publishers := c.publishers.map clearedSink,
                       props := props },
          resetCancels c)) := by
  have hinv2 : props.Metadata.Title = [] ∨ props.Metadata.Artists.length = 0 := by
    rcases hinv with h | h
    · exact Or.inl h
    · exact Or.inr (by rw [h]; rfl)
  have key : c.process props = c.resetAll.map (fun r => ({ r.1 with props := props }, r.2)) := by
    unfold Controller.process
    rw [if_neg hnr, hne]
    simp only [Bool.not_false, if_true]
    cases hr : c.resetAll with
    | none => rfl
    | some r =>
      obtain ⟨c1, effects⟩ := r
      simp only [Option.map_some']
      rw [if_pos hinv2]
  refine ⟨key, ?_⟩
  intro hroom
  rw [key, resetAll_of_room c hroom]
  rfl

theorem process_invalid_metadata_witness :
    ¬ (invalidSnapshot.PlaybackStatus = .Unknown ∧ invalidSnapshot.Metadata.Title = []) ∧
    Equal invalidSnapshot.Metadata sampleController.props.Metadata = false ∧
    (invalidSnapshot.Metadata.Title = [] ∨ invalidSnapshot.Metadata.Artists = []) ∧
    (sampleController.process invalidSnapshot =
        sampleController.resetAll.map (fun r => ({ r.1 with props := invalidSnapshot }, r.2)) ∧
      ((∀ p ∈ sampleController.publishers, p.ch.length < 16) →
        sampleController.process invalidSnapshot =
          some ({ sampleController with
                    cancelTicking := false, cancelFetching := false, position := 0,
                    lyrics := none,
                    publishers := sampleController.publishers.map clearedSink,
                    props := invalidSnapshot },
            resetCancels sampleController))) :=
  ⟨by decide, by decide, by decide,
    process_invalid_metadata sampleController invalidSnapshot (by decide) (by decide)
      (by decide)⟩

/-- C20, counterexample: a snapshot without artists, or from a blacklisted URL, whose
position 5000 differs from the position 0 of the previous snapshot leaves the position
of the controller at 0, while the snapshot is recorded as `props`. -/
theorem process_keeps_position_on_early_return :
    sampleController.props.Position = 0 ∧
    invalidSnapshot.Position = 5000 ∧
    (sampleController.process invalidSnapshot).map (fun r => r.1.position) = some 0 ∧
    (sampleController.process invalidSnapshot).map (fun r => r.1.props) =
      some invalidSnapshot ∧
    blacklistController.props.Position = 0 ∧
    blacklistedSnapshot.Position = 5000 ∧
    (blacklistController.process blacklistedSnapshot).map (fun r => r.1.position) = some 0 ∧
    (blacklistController.process blacklistedSnapshot).map (fun r => r.1.props) =
      some blacklistedSnapshot := by
  decide!

/-! ### Naive substring search -/

theorem stringsIndex_ne_iff (s sep : Bytes) : stringsIndex s sep ≠ -1 ↔ sep <:+: s := by
  rcases stringsIndex_spec sep s with ⟨e, hall⟩ | ⟨i, e, hi, -⟩
  · constructor
    · intro h; exact absurd e h
    · intro h
      obtain ⟨j, hj⟩ := (infix_iff_prefix_drop sep s).1 h
      exact absurd hj (hall j)
  · constructor
    · intro _
      exact (infix_iff_prefix_drop sep s).2 ⟨i, hi⟩
    · intro _
      rw [e]
      omega

theorem naiveContains_iff (D : List Bytes) (input : Bytes) :
    naiveContains D input = true ↔ ∃ p ∈ D, p <:+: input := by
  unfold naiveContains
  rw [List.any_eq_true]
  constructor
  · rintro ⟨p, hp, h⟩
    exact ⟨p, hp, (stringsIndex_ne_iff input p).1 (by simpa using h)⟩
  · rintro ⟨p, hp, h⟩
    exact ⟨p, hp, by simpa using (stringsIndex_ne_iff input p).2 h⟩

/-- C30: for every dictionary of non-empty byte strings and every input,
`Matcher.Contains(input)` is true iff some pattern occurs as a contiguous substring of
the input, and it agrees with the naive substring search. -/
theorem contains_agrees_with_naive_search (D : List Bytes) (hD : ∀ p ∈ D, IsBytes p)
    (hne : ∀ p ∈ D, p ≠ []) (input : Bytes) :
    ((NewMatcher D).Contains input = true ↔ ∃ p ∈ D, p <:+: input) ∧
    (NewMatcher D).Contains input = naiveContains D input := by
  have h1 : (NewMatcher D).Contains input = true ↔ ∃ p ∈ D, p <:+: input := by
    have := contains_iff_nonempty_pattern D hD input
    constructor
    · intro h
      obtain ⟨p, hp, -, hin⟩ := this.1 h
      exact ⟨p, hp, hin⟩
    · rintro ⟨p, hp, hin⟩
      exact this.2 ⟨p, hp, hne p hp, hin⟩
  refine ⟨h1, ?_⟩
  have h2 := naiveContains_iff D input
  cases hc : (NewMatcher D).Contains input with
  | true => exact (h2.2 (h1.1 hc)).symm
  | false =>
    cases hn : naiveContains D input with
    | false => rfl
    | true =>
      have := h1.2 (h2.1 hn)
      rw [hc] at this
      cases this

theorem contains_agrees_with_naive_search_witness :
    (∀ p ∈ [utf8 "ab", utf8 "abc", utf8 "b", utf8 "bcd", utf8 "ab"], IsBytes p) ∧
    (∀ p ∈ [utf8 "ab", utf8 "abc", utf8 "b", utf8 "bcd", utf8 "ab"], p ≠ []) ∧
    (((NewMatcher [utf8 "ab", utf8 "abc", utf8 "b", utf8 "bcd", utf8 "ab"]).Contains
          (utf8 "xxbcdx") = true ↔
        ∃ p ∈ [utf8 "ab", utf8 "abc", utf8 "b", utf8 "bcd", utf8 "ab"], p <:+: utf8 "xxbcdx") ∧
      (NewMatcher [utf8 "ab", utf8 "abc", utf8 "b", utf8 "bcd", utf8 "ab"]).Contains
          (utf8 "xxbcdx") =
        naiveContains [utf8 "ab", utf8 "abc", utf8 "b", utf8 "bcd", utf8 "ab"]
          (utf8 "xxbcdx")) :=
  ⟨by decide, by decide,
    contains_agrees_with_naive_search [utf8 "ab", utf8 "abc", utf8 "b", utf8 "bcd", utf8 "ab"]
      (by decide) (by decide) (utf8 "xxbcdx")⟩

/-! ### The inbox of a sink -/

theorem send_of_room (p : PublisherEntry) (txt : Bytes) (h : p.ch.length < 16) :
    p.Send txt = { p with ch := p.ch ++ [txt] } := by
  unfold PublisherEntry.Send
  rw [if_pos h]

theorem send_of_full (p : PublisherEntry) (txt : Bytes) (h : ¬ p.ch.length < 16) :
    p.Send txt = p := by
  unfold PublisherEntry.Send
  rw [if_neg h]

theorem deliveries_eq : ∀ (fuel : Nat) (p : PublisherEntry), p.ch.length ≤ fuel →
    p.deliveries fuel = p.ch := by
  intro fuel
  induction fuel with
  | zero =>
    intro p h
    have : p.ch = [] := List.eq_nil_of_length_eq_zero (by omega)
    rw [this]
    rfl
  | succ fuel ih =>
    intro p h
    cases hc : p.ch with
    | nil => simp only [PublisherEntry.deliveries, PublisherEntry.receive, hc]
    | cons txt rest =>
      simp only [PublisherEntry.deliveries, PublisherEntry.receive, hc]
      rw [ih { p with ch := rest } (by rw [hc] at h; simp at h ⊢; omega)]

theorem sendAll_ch : ∀ (txts : List Bytes) (p : PublisherEntry),
    p.ch.length + txts.length ≤ 16 → (p.sendAll txts).ch = p.ch ++ txts := by
  intro txts
  induction txts with
  | nil => intro p _; simp [PublisherEntry.sendAll]
  | cons txt txts ih =>
    intro p h
    simp only [List.length_cons] at h
    have e : p.sendAll (txt :: txts) = (p.Send txt).sendAll txts := rfl
    rw [e, send_of_room p txt (by omega), ih _ (by simp; omega)]
    simp

/-- C24: `Send` returns in every state of the inbox; an inbox of at most 16 messages
stays so under `Send`, `Clear` and the worker; with fewer than 16 messages pending the
text is appended at the tail, with 16 pending the entry is left unchanged; and the
worker delivers the pending messages followed by the texts sent, in that order. -/
theorem send_never_blocks_bounded_fifo (p : PublisherEntry) (txt : Bytes)
    (hcap : p.ch.length ≤ 16) :
    (p.ch.length < 16 → p.Send txt = { p with ch := p.ch ++ [txt] }) ∧
    (p.ch.length = 16 → p.Send txt = p) ∧
    (p.Send txt).ch.length ≤ 16 ∧
    (∀ q, p.Clear = some q → q.ch.length ≤ 16) ∧
    (∀ t q, p.receive = some (t, q) → q.ch.length ≤ 16 ∧ p.ch = t :: q.ch) ∧
    (∀ txts : List Bytes, p.ch.length + txts.length ≤ 16 →
      (p.sendAll txts).deliveries 16 = p.ch ++ txts) := by
  refine ⟨send_of_room p txt, fun h => send_of_full p txt (by omega), ?_, ?_, ?_, ?_⟩
  · by_cases h : p.ch.length < 16
    · rw [send_of_room p txt h]
      simp
      omega
    · rw [send_of_full p txt h]; exact hcap
  · intro q hq
    unfold PublisherEntry.Clear at hq
    by_cases h : p.ch.length < 16
    · rw [if_pos h] at hq
      rw [← Option.some.inj hq]
      simp
      omega
    · rw [if_neg h] at hq; cases hq
  · intro t q hq
    unfold PublisherEntry.receive at hq
    cases hc : p.ch with
    | nil => rw [hc] at hq; cases hq
    | cons x rest =>
      rw [hc] at hq
      simp only [Option.some.injEq, Prod.mk.injEq] at hq
      obtain ⟨h1, h2⟩ := hq
      subst h1
      rw [← h2]
      rw [hc] at hcap
      simp at hcap ⊢
      omega
  · intro txts h
    rw [deliveries_eq 16 _ (by rw [sendAll_ch txts p h]; simp; omega), sendAll_ch txts p h]

theorem send_never_blocks_bounded_fifo_witness :
    (NewPublisherEntry 0).ch.length ≤ 16 ∧
    (((NewPublisherEntry 0).ch.length < 16 →
        (NewPublisherEntry 0).Send (utf8 "a") =
          { NewPublisherEntry 0 with ch := (NewPublisherEntry 0).ch ++ [utf8 "a"] }) ∧
      ((NewPublisherEntry 0).ch.length = 16 →
        (NewPublisherEntry 0).Send (utf8 "a") = NewPublisherEntry 0) ∧
      ((NewPublisherEntry 0).Send (utf8 "a")).ch.length ≤ 16 ∧
      (∀ q, (NewPublisherEntry 0).Clear = some q → q.ch.length ≤ 16) ∧
      (∀ t q, (NewPublisherEntry 0).receive = some (t, q) →
        q.ch.length ≤ 16 ∧ (NewPublisherEntry 0).ch = t :: q.ch) ∧
      (∀ txts : List Bytes, (NewPublisherEntry 0).ch.length + txts.length ≤ 16 →
        ((NewPublisherEntry 0).sendAll txts).deliveries 16 =
          (NewPublisherEntry 0).ch ++ txts)) :=
  ⟨by decide, send_never_blocks_bounded_fifo (NewPublisherEntry 0) (utf8 "a") (by decide)⟩

/-! ### The cache file -/

/-- C26, amended: for every cache file content of at least 16 bytes whose first 4 bytes
are not the bytes of `lrcd`, `Cache.Get` fails with `ErrSignatureMismatch`, and
`fetchLyrics` goes on to the embedded text as after a miss. -/
theorem get_signature_mismatch (c : Controller) (cache : Cache) (z : LZ4) (fs : FS)
    (meta : MPRISMetadata) (file : Bytes) (hfile : fs (cache.filePath meta) = some file)
    (hlen : 16 ≤ file.length) (hsig : file.take 4 ≠ signature) :
    cache.Get z fs meta = .error .SignatureMismatch ∧
    (c.cache = some cache →
      ∀ providers fastest reqID,
        c.fetchLyrics z fs providers fastest meta reqID =
          c.fetchFromText providers fastest meta reqID) := by
  have hg : cache.Get z fs meta = .error .SignatureMismatch := by
    unfold Cache.Get
    rw [hfile]
    simp only
    unfold decodeFrame
    rw [if_neg (by omega)]
    simp only
    rw [if_pos hsig]
  refine ⟨hg, ?_⟩
  intro hc providers fastest reqID
  simp only [Controller.fetchLyrics, hc, hg]

theorem get_signature_mismatch_witness :
    writeFile emptyFS (sampleCache.filePath sampleMeta) foreignFile
      (sampleCache.filePath sampleMeta) = some foreignFile ∧
    16 ≤ foreignFile.length ∧ foreignFile.take 4 ≠ signature ∧
    (sampleCache.Get storeCodec
        (writeFile emptyFS (sampleCache.filePath sampleMeta) foreignFile) sampleMeta =
          .error .SignatureMismatch ∧
      (sampleController.cache = some sampleCache →
        ∀ providers fastest reqID,
          sampleController.fetchLyrics storeCodec
              (writeFile emptyFS (sampleCache.filePath sampleMeta) foreignFile)
              providers fastest sampleMeta reqID =
            sampleController.fetchFromText providers fastest sampleMeta reqID)) :=
  ⟨by simp [writeFile], by decide, by decide,
    get_signature_mismatch sampleController sampleCache storeCodec
      (writeFile emptyFS (sampleCache.filePath sampleMeta) foreignFile) sampleMeta foreignFile
      (by simp [writeFile]) (by decide) (by decide)⟩

/-- C26, counterexample: a cache file of eight bytes that does not begin with `lrcd`
makes `Cache.Get` fail with the read error of the header, not with
`ErrSignatureMismatch`. -/
theorem get_short_file_read_error :
    shortForeignFile.length = 8 ∧ shortForeignFile.take 4 ≠ signature ∧
    sampleCache.Get storeCodec
        (writeFile emptyFS (sampleCache.filePath sampleMeta) shortForeignFile) sampleMeta =
      .error .Read := by
  decide!

/-- C27: the cache files `truncatedCacheFile`, whose header announces a line and whose
body is empty, and `overlongRecordFile`, whose record announces a text longer than the
body, carry the signature and make `Cache.Get` panic on a read past the end of the
body. -/
theorem get_panics_past_body :
    truncatedCacheFile.take 4 = signature ∧
    decodeFrame storeCodec truncatedCacheFile = .panic ∧
    sampleCache.Get storeCodec
        (writeFile emptyFS (sampleCache.filePath sampleMeta) truncatedCacheFile) sampleMeta =
      .panic ∧
    overlongRecordFile.take 4 = signature ∧
    decodeFrame storeCodec overlongRecordFile = .panic ∧
    sampleCache.Get storeCodec
        (writeFile emptyFS (sampleCache.filePath sampleMeta) overlongRecordFile) sampleMeta =
      .panic := by
  decide!

/-! ### Stale fetches and the clear instruction -/

/-- C23, amended: a fetch task that finishes when its request id no longer equals the
current one leaves the state of the controller untouched and starts no ticking; it
still starts the cache write of the lyrics it obtained when a cache is configured and
the result came from a provider. -/
theorem stale_fetch_keeps_state_writes_cache (c : Controller) (meta : MPRISMetadata)
    (reqID : Int) (lyrics : Option Lyrics) (shouldCache : Bool)
    (h : reqID ≠ c.currentRequestID) :
    (c.finishFetch meta reqID lyrics shouldCache).1 = c ∧
    (c.finishFetch meta reqID lyrics shouldCache).2 = cacheWrites c meta lyrics shouldCache := by
  unfold Controller.finishFetch Controller.commit cacheWrites
  simp only [h, ne_eq, not_false_eq_true, if_true, List.append_nil, true_and]
  cases hc : c.cache <;> cases lyrics <;> cases shouldCache <;> simp

theorem stale_fetch_keeps_state_writes_cache_witness :
    (2 : Int) ≠ sampleController.currentRequestID ∧
    ((sampleController.finishFetch sampleMeta 2 (some sampleLyrics) true).1 = sampleController ∧
      (sampleController.finishFetch sampleMeta 2 (some sampleLyrics) true).2 =
        cacheWrites sampleController sampleMeta (some sampleLyrics) true) :=
  ⟨by decide,
    stale_fetch_keeps_state_writes_cache sampleController sampleMeta 2 (some sampleLyrics) true
      (by decide)⟩

/-- C23, counterexample: the fetch task of request 2 finishes with lyrics from a
provider when request 3 is the current one, and starts the cache write. -/
theorem stale_fetch_writes_cache :
    sampleController.currentRequestID = 3 ∧
    (sampleController.finishFetch sampleMeta 2 (some sampleLyrics) true).2 =
      [.cacheSet sampleMeta sampleLyrics] := by
  decide

/-- C25: on a sink whose inbox holds 16 messages, `Send` returns and drops the text,
while `Clear` cannot proceed; `resetAll`, and with it `process` on a backend reset and
on a pause, then waits on that sink. -/
theorem clear_waits_on_full_inbox :
    fullSink.ch.length = 16 ∧
    fullSink.Send ETX = fullSink ∧
    fullSink.Clear = none ∧
    blockedController.resetAll = none ∧
    blockedController.process pausedSnapshot = none := by
  decide

/-! ### The transition to playing -/

theorem updatePosition_publishers (prev props : MPRISProperties) (c : Controller) :
    (updatePosition prev props c).publishers = c.publishers := by
  unfold updatePosition
  by_cases h : props.Position ≠ prev.Position
  · rw [if_pos h]
  · rw [if_neg h]

/-- C21, amended: on a status change to `Playing` with equivalent metadata, `process`
returns and starts the ticking; every sink keeps its offset and sent index; a sink
whose inbox holds 16 messages gets nothing; to any other sink whose current line index
`IndexOf(position, offset)` is not -1 while lyrics are present, the line last sent to
it, `lyrics.Get(sent_index)`, is enqueued, which is the current line when the sent
index is the current line index; to every other sink the formatted track string is
enqueued iff `showTitle` is set and the title is not empty. -/
theorem process_resume_sends (c : Controller) (props : MPRISProperties)
    (hE : Equal props.Metadata c.props.Metadata = true)
    (hP : props.PlaybackStatus = .Playing) (hC : c.props.PlaybackStatus ≠ .Playing) :
    ∃ c', c.process props = some (c', [.timedSend]) ∧
      c'.publishers.length = c.publishers.length ∧
      ∀ (i : Nat) (p : PublisherEntry), c.publishers[i]? = some p →
        ∃ q, c'.publishers[i]? = some q ∧ q.Offset = p.Offset ∧ q.SentIndex = p.SentIndex ∧
          (¬ p.ch.length < 16 → q.ch = p.ch) ∧
          (p.ch.length < 16 →
            (∀ l, c.lyrics = some l → l.IndexOf c.position p.Offset ≠ -1 →
              q.ch = p.ch ++ [l.Get p.SentIndex] ∧
              (p.SentIndex = l.IndexOf c.position p.Offset →
                q.ch = p.ch ++ [l.Get (l.IndexOf c.position p.Offset)])) ∧
            ((c.lyrics = none ∨ ∃ l, c.lyrics = some l ∧ l.IndexOf c.position p.Offset = -1) →
              q.ch = if c.showTitle = true ∧ props.Metadata.Title ≠ []
                then p.ch ++ [FormatTrack props.Metadata] else p.ch)) := by
  have h1 : ¬ (props.PlaybackStatus = .Unknown ∧ props.Metadata.Title = []) := by
    rw [hP]; simp
  have h3 : props.PlaybackStatus ≠ c.props.PlaybackStatus := by
    rw [hP]; exact fun h => hC h.symm
  unfold Controller.process
  rw [if_neg h1, hE]
  simp only [Bool.not_true, Bool.false_eq_true, if_false]
  rw [if_pos h3, if_pos hP]
  refine ⟨_, rfl, ?_, ?_⟩
  · simp only [updatePosition_publishers, List.length_map]
  · intro i p hp
    simp only [updatePosition_publishers, List.getElem?_map, hp, Option.map_some']
    refine ⟨_, rfl, ?_⟩
    cases hl : c.lyrics with
    | none =>
      simp only
      by_cases ht : c.showTitle = true ∧ props.Metadata.Title ≠ []
      · rw [if_pos ht]
        by_cases hr : p.ch.length < 16
        · rw [send_of_room _ _ hr]
          refine ⟨rfl, rfl, fun h => absurd hr h, fun _ => ⟨?_, ?_⟩⟩
          · intro l hl2; cases hl2
          · intro _; rw [if_pos ht]
        · rw [send_of_full _ _ hr]
          exact ⟨rfl, rfl, fun _ => rfl, fun h => absurd h hr⟩
      · rw [if_neg ht]
        refine ⟨rfl, rfl, fun _ => rfl, fun _ => ⟨?_, ?_⟩⟩
        · intro l hl2; cases hl2
        · intro _; rw [if_neg ht]
    | some l =>
      simp only
      by_cases hi : l.IndexOf c.position p.Offset ≠ -1
      · rw [if_pos hi]
        by_cases hr : p.ch.length < 16
        · rw [send_of_room _ _ hr]
          refine ⟨rfl, rfl, fun h => absurd hr h, fun _ => ⟨?_, ?_⟩⟩
          · intro l2 hl2 _
            cases hl2
            exact ⟨rfl, fun hs => by rw [hs]⟩
          · rintro (h | ⟨l2, hl2, h2⟩)
            · cases h
            · cases hl2
              exact absurd h2 hi
        · rw [send_of_full _ _ hr]
          exact ⟨rfl, rfl, fun _ => rfl, fun h => absurd h hr⟩
      · rw [if_neg hi]
        have hi2 : l.IndexOf c.position p.Offset = -1 := by
          by_contra hne; exact hi hne
        by_cases ht : c.showTitle = true ∧ props.Metadata.Title ≠ []
        · rw [if_pos ht]
          by_cases hr : p.ch.length < 16
          · rw [send_of_room _ _ hr]
            refine ⟨rfl, rfl, fun h => absurd hr h, fun _ => ⟨?_, ?_⟩⟩
            · intro l2 hl2 h2
              cases hl2
              exact absurd hi2 h2
            · intro _; rw [if_pos ht]
          · rw [send_of_full _ _ hr]
            exact ⟨rfl, rfl, fun _ => rfl, fun h => absurd h hr⟩
        · rw [if_neg ht]
          refine ⟨rfl, rfl, fun _ => rfl, fun _ => ⟨?_, ?_⟩⟩
          · intro l2 hl2 h2
            cases hl2
            exact absurd hi2 h2
          · intro _; rw [if_neg ht]

theorem process_resume_sends_witness :
    Equal resumeSnapshot.Metadata seekedController.props.Metadata = true ∧
    resumeSnapshot.PlaybackStatus = .Playing ∧
    seekedController.props.PlaybackStatus ≠ .Playing ∧
    ∃ c', seekedController.process resumeSnapshot = some (c', [.timedSend]) ∧
      c'.publishers.length = seekedController.publishers.length ∧
      ∀ (i : Nat) (p : PublisherEntry), seekedController.publishers[i]? = some p →
        ∃ q, c'.publishers[i]? = some q ∧ q.Offset = p.Offset ∧ q.SentIndex = p.SentIndex ∧
          (¬ p.ch.length < 16 → q.ch = p.ch) ∧
          (p.ch.length < 16 →
            (∀ l, seekedController.lyrics = some l →
              l.IndexOf seekedController.position p.Offset ≠ -1 →
              q.ch = p.ch ++ [l.Get p.SentIndex] ∧
              (p.SentIndex = l.IndexOf seekedController.position p.Offset →
                q.ch = p.ch ++ [l.Get (l.IndexOf seekedController.position p.Offset)])) ∧
            ((seekedController.lyrics = none ∨
                ∃ l, seekedController.lyrics = some l ∧
                  l.IndexOf seekedController.position p.Offset = -1) →
              q.ch = if seekedController.showTitle = true ∧ resumeSnapshot.Metadata.Title ≠ []
                then p.ch ++ [FormatTrack resumeSnapshot.Metadata] else p.ch)) :=
  ⟨by decide, by decide, by decide,
    process_resume_sends seekedController resumeSnapshot (by decide) (by decide) (by decide)⟩

/-- C21, counterexample: lyrics are present and the current line index of the sink is
1, the line `b`; nothing was sent to the sink yet, and the message `process` enqueues
on the change to `Playing` is the empty text. -/
theorem process_resume_sends_last_sent_line :
    seekedController.lyrics = some sampleLyrics ∧
    seekedController.publishers = [NewPublisherEntry 0] ∧
    sampleLyrics.IndexOf seekedController.position 0 = 1 ∧
    sampleLyrics.Get 1 = utf8 "b" ∧
    (seekedController.process resumeSnapshot).map
        (fun r => r.1.publishers.map (fun p => p.ch)) = some [[[]]] := by
  decide

/-! ### The tag bodies that `parseLRCPosition` accepts -/

theorem posLoop_some_of_tagBytes : ∀ (s : Bytes) (i : Nat) (st : PosState),
    (∀ b ∈ s, IsTagByte b) → ∃ st', posLoop s i st = some st' := by
  intro s
  induction s with
  | nil => intro i st _; exact ⟨st, rfl⟩
  | cons ch rest ih =>
    intro i st h
    have hch := h ch (List.mem_cons_self _ _)
    have hrest : ∀ b ∈ rest, IsTagByte b := fun b hb => h b (List.mem_cons_of_mem _ hb)
    rw [posLoop]
    by_cases hsep : ch = 58 ∨ ch = 46
    · rw [if_pos hsep]
      exact ih _ _ hrest
    · rw [if_neg hsep]
      have hd : ¬ (ch + 256 - 48) % 256 > 9 := by
        unfold IsTagByte at hch
        omega
      simp only [hd, if_false]
      exact ih _ _ hrest

theorem parseLRCPosition_isSome_of_posLoop (s : Bytes) (st : PosState)
    (hl : ¬ (s.length < 5 ∨ s.length > 12))
    (hp : posLoop s 0 { n := 0, sec := 0, sepIdx := 0, sepCnt := 0 } = some st) :
    (parseLRCPosition s).isSome = true := by
  unfold parseLRCPosition
  simp only
  rw [if_neg hl, hp]
  simp only
  split_ifs <;> rfl

/-- The tag bodies `parseLRCPosition` accepts: those of 5 to 12 bytes, each an ASCII
digit, `:` or `.`. -/
theorem parseLRCPosition_accepts_iff (s : Bytes) (hs : IsBytes s) :
    (parseLRCPosition s).isSome = true ↔
      (5 ≤ s.length ∧ s.length ≤ 12 ∧ ∀ b ∈ s, IsTagByte b) := by
  constructor
  · intro h
    unfold parseLRCPosition at h
    simp only at h
    by_cases hl : s.length < 5 ∨ s.length > 12
    · rw [if_pos hl] at h; cases h
    · rw [if_neg hl] at h
      refine ⟨by omega, by omega, ?_⟩
      cases hp : posLoop s 0 { n := 0, sec := 0, sepIdx := 0, sepCnt := 0 } with
      | none => rw [hp] at h; cases h
      | some st =>
        intro b hb
        have := posLoop_bytes _ _ _ _ hp b hb
        have hb256 := hs b hb
        unfold IsTagByte
        omega
  · rintro ⟨h1, h2, h3⟩
    obtain ⟨st, hst⟩ := posLoop_some_of_tagBytes s 0 { n := 0, sec := 0, sepIdx := 0, sepCnt := 0 } h3
    exact parseLRCPosition_isSome_of_posLoop s st (by omega) hst

/-- C28: the tag body `2:::::::::::` has 12 bytes, each a digit or `:`, and is
accepted; its position wraps around in 64-bit arithmetic to a negative value. -/
theorem parseLRCPosition_negative_on_overflow :
    (utf8 "2:::::::::::").length = 12 ∧
    (∀ b ∈ utf8 "2:::::::::::", IsTagByte b) ∧
    parseLRCPosition (utf8 "2:::::::::::") = some (-8161588864830406656) ∧
    (-8161588864830406656 : Int) < 0 := by
  decide!

/-! ### The reachable states -/

theorem searchLoop_bounds (f : Nat → Bool) : ∀ (fuel i j : Nat), i ≤ j →
    i ≤ searchLoop f fuel i j ∧ searchLoop f fuel i j ≤ j := by
  intro fuel
  induction fuel with
  | zero => intro i j h; exact ⟨le_refl _, h⟩
  | succ fuel ih =>
    intro i j h
    simp only [searchLoop]
    by_cases hij : i < j
    · rw [if_pos hij]
      by_cases hf : f ((i + j) / 2) = true
      · simp only [hf, Bool.not_true, Bool.false_eq_true, if_false]
        have := ih i ((i + j) / 2) (by omega)
        omega
      · simp only [hf, Bool.not_eq_true, Bool.not_false, if_true]
        have := ih ((i + j) / 2 + 1) j (by omega)
        omega
    · rw [if_neg hij]
      exact ⟨le_refl _, h⟩

theorem indexOf_bounds (l : Lyrics) (position offset : Int) :
    -1 ≤ l.IndexOf position offset ∧ l.IndexOf position offset < l.Lines.length := by
  rw [indexOf_eq]
  have := searchLoop_bounds (l.atOrAfter (wrapInt64 (position - offset))) l.Lines.length 0
    l.Lines.length (Nat.zero_le _)
  omega

theorem resetLoop_some : ∀ (ps qs : List PublisherEntry), resetLoop ps = some qs →
    qs = ps.map clearedSink := by
  intro ps
  induction ps with
  | nil => intro qs h; cases h; rfl
  | cons p ps ih =>
    intro qs h
    by_cases hp : p.ch.length < 16
    · have e : ({ p with SentIndex := -1 } : PublisherEntry).Clear = some (clearedSink p) := by
        simp only [PublisherEntry.Clear, hp, if_true, clearedSink]
      cases hr : resetLoop ps with
      | none => simp only [resetLoop, e, hr] at h; cases h
      | some rs =>
        simp only [resetLoop, e, hr] at h
        rw [← Option.some.inj h, ih rs hr]
        rfl
    · have e : ({ p with SentIndex := -1 } : PublisherEntry).Clear = none := by
        simp only [PublisherEntry.Clear, hp, if_false]
      simp only [resetLoop, e] at h
      cases h

theorem clearLoop_sentIndex : ∀ (ps qs : List PublisherEntry), clearLoop ps = some qs →
    ∀ q ∈ qs, ∃ p ∈ ps, q.SentIndex = p.SentIndex := by
  intro ps
  induction ps with
  | nil => intro qs h; cases h; intro q hq; cases hq
  | cons p ps ih =>
    intro qs h
    by_cases hp : p.ch.length < 16
    · have e : p.Clear = some { p with ch := p.ch ++ [ETX] } := by
        simp only [PublisherEntry.Clear, hp, if_true]
      cases hr : clearLoop ps with
      | none => simp only [clearLoop, e, hr] at h; cases h
      | some rs =>
        simp only [clearLoop, e, hr] at h
        rw [← Option.some.inj h]
        intro q hq
        rcases List.mem_cons.1 hq with hq | hq
        · exact ⟨p, List.mem_cons_self _ _, by rw [hq]⟩
        · obtain ⟨p2, hp2, e2⟩ := ih rs hr q hq
          exact ⟨p2, List.mem_cons_of_mem _ hp2, e2⟩
    · have e : p.Clear = none := by
        simp only [PublisherEntry.Clear, hp, if_false]
      simp only [clearLoop, e] at h
      cases h

theorem resetAll_some (c c1 : Controller) (effects : List Effect)
    (h : c.resetAll = some (c1, effects)) :
    c1 = { c with cancelTicking := false, cancelFetching := false, position := 0,
                  lyrics := none, publishers := c.publishers.map clearedSink } ∧
    effects = resetCancels c := by
  unfold Controller.resetAll at h
  cases hr : resetLoop c.publishers with
  | none => simp only [hr] at h; cases h
  | some ps =>
    simp only [hr, Option.some.injEq, Prod.mk.injEq] at h
    rw [← h.1, ← h.2, resetLoop_some _ _ hr]
    exact ⟨rfl, rfl⟩

theorem launched_resetCancels (c : Controller) : launched (resetCancels c) = [] := by
  unfold resetCancels
  cases c.cancelTicking <;> cases c.cancelFetching <;> rfl

theorem launched_append (a b : List Effect) : launched (a ++ b) = launched a ++ launched b := by
  induction a with
  | nil => rfl
  | cons e a ih =>
    cases e <;> simp [launched, ih]

theorem send_sentIndex (p : PublisherEntry) (txt : Bytes) :
    (p.Send txt).SentIndex = p.SentIndex := by
  unfold PublisherEntry.Send
  by_cases h : p.ch.length < 16
  · rw [if_pos h]
  · rw [if_neg h]

theorem updatePosition_fields (prev props : MPRISProperties) (c : Controller) :
    (updatePosition prev props c).lyrics = c.lyrics ∧
    (updatePosition prev props c).publishers = c.publishers ∧
    (updatePosition prev props c).currentRequestID = c.currentRequestID := by
  unfold updatePosition
  by_cases h : props.Position ≠ prev.Position
  · rw [if_pos h]; exact ⟨rfl, rfl, rfl⟩
  · rw [if_neg h]; exact ⟨rfl, rfl, rfl⟩

theorem cleared_sentIndex (ps : List PublisherEntry) :
    ∀ q ∈ ps.map clearedSink, q.SentIndex = -1 := by
  intro q hq
  obtain ⟨p, -, e⟩ := List.mem_map.1 hq
  rw [← e]
  rfl

/-- What `process` does to the lyrics, the sent indices and the request counter when
it returns: it leaves the counter and launches nothing, with the lyrics and the sent
indices kept or reset, or it resets them, advances the counter and launches the fetch
task of the new request for the track of the snapshot. -/
theorem process_shape (c c' : Controller) (props : MPRISProperties) (effects : List Effect)
    (h : c.process props = some (c', effects)) :
    (c'.currentRequestID = c.currentRequestID ∧ launched effects = [] ∧
      ((c'.lyrics = c.lyrics ∧
          ∀ q ∈ c'.publishers, ∃ p ∈ c.publishers, q.SentIndex = p.SentIndex) ∨
        (c'.lyrics = none ∧ ∀ q ∈ c'.publishers, q.SentIndex = -1))) ∨
    (c'.currentRequestID = wrapInt64 (c.currentRequestID + 1) ∧
      launched effects = [(wrapInt64 (c.currentRequestID + 1), props.Metadata)] ∧
      c'.lyrics = none ∧ ∀ q ∈ c'.publishers, q.SentIndex = -1) := by
  unfold Controller.process at h
  by_cases h1 : props.PlaybackStatus = .Unknown ∧ props.Metadata.Title = []
  · rw [if_pos h1] at h
    cases hr : c.resetAll with
    | none => rw [hr] at h; cases h
    | some r =>
      obtain ⟨c1, es⟩ := r
      rw [hr] at h
      simp only [Option.some.injEq, Prod.mk.injEq] at h
      obtain ⟨e1, e2⟩ := resetAll_some c c1 es hr
      obtain ⟨u1, u2, u3⟩ := updatePosition_fields c.props props c1
      left
      rw [← h.1, ← h.2]
      refine ⟨?_, ?_, Or.inr ⟨?_, ?_⟩⟩
      · show (updatePosition c.props props c1).currentRequestID = _
        rw [u3, e1]
      · rw [e2]; exact launched_resetCancels c
      · show (updatePosition c.props props c1).lyrics = none
        rw [u1, e1]
      · show ∀ q ∈ (updatePosition c.props props c1).publishers, q.SentIndex = -1
        rw [u2, e1]
        exact cleared_sentIndex _
  · rw [if_neg h1] at h
    by_cases h2 : (!Equal props.Metadata c.props.Metadata) = true
    · rw [if_pos h2] at h
      cases hr : c.resetAll with
      | none => rw [hr] at h; cases h
      | some r =>
        obtain ⟨c1, es⟩ := r
        rw [hr] at h
        obtain ⟨e1, e2⟩ := resetAll_some c c1 es hr
        have hl1 : c1.lyrics = none := by rw [e1]
        have hp1 : ∀ q ∈ c1.publishers, q.SentIndex = -1 := by
          rw [e1]; exact cleared_sentIndex _
        have hid1 : c1.currentRequestID = c.currentRequestID := by rw [e1]
        simp only at h
        by_cases h3 : props.Metadata.Title = [] ∨ props.Metadata.Artists.length = 0
        · rw [if_pos h3] at h
          simp only [Option.some.injEq, Prod.mk.injEq] at h
          left
          rw [← h.1, ← h.2]
          exact ⟨hid1, by rw [e2]; exact launched_resetCancels c, Or.inr ⟨hl1, hp1⟩⟩
        · rw [if_neg h3] at h
          split_ifs at h with h4 h5
          · simp only [Option.some.injEq, Prod.mk.injEq] at h
            left
            rw [← h.1, ← h.2]
            exact ⟨hid1, by rw [e2]; exact launched_resetCancels c, Or.inr ⟨hl1, hp1⟩⟩
          · simp only [Option.some.injEq, Prod.mk.injEq] at h
            right
            rw [← h.1, ← h.2]
            refine ⟨?_, ?_, ?_, ?_⟩
            · show (updatePosition c.props props _).currentRequestID = _
              rw [(updatePosition_fields _ _ _).2.2]
              show wrapInt64 (c1.currentRequestID + 1) = _
              rw [hid1]
            · rw [launched_append, e2, launched_resetCancels]
              show [(wrapInt64 (c1.currentRequestID + 1), props.Metadata)] = _
              rw [hid1]
            · show (updatePosition c.props props _).lyrics = none
              rw [(updatePosition_fields _ _ _).1]
              exact hl1
            · show ∀ q ∈ (updatePosition c.props props _).publishers, q.SentIndex = -1
              rw [(updatePosition_fields _ _ _).2.1]
              intro q hq
              obtain ⟨p, hp, e⟩ := List.mem_map.1 hq
              rw [← e, send_sentIndex]
              exact hp1 p hp
          · simp only [Option.some.injEq, Prod.mk.injEq] at h
            right
            rw [← h.1, ← h.2]
            refine ⟨?_, ?_, ?_, ?_⟩
            · show (updatePosition c.props props _).currentRequestID = _
              rw [(updatePosition_fields _ _ _).2.2]
              show wrapInt64 (c1.currentRequestID + 1) = _
              rw [hid1]
            · rw [launched_append, e2, launched_resetCancels]
              show [(wrapInt64 (c1.currentRequestID + 1), props.Metadata)] = _
              rw [hid1]
            · show (updatePosition c.props props _).lyrics = none
              rw [(updatePosition_fields _ _ _).1]
              exact hl1
            · show ∀ q ∈ (updatePosition c.props props _).publishers, q.SentIndex = -1
              rw [(updatePosition_fields _ _ _).2.1]
              exact hp1
    · rw [if_neg h2] at h
      by_cases h3 : props.PlaybackStatus ≠ c.props.PlaybackStatus
      · rw [if_pos h3] at h
        by_cases h4 : props.PlaybackStatus = .Playing
        · rw [if_pos h4] at h
          simp only [Option.some.injEq, Prod.mk.injEq] at h
          left
          rw [← h.1, ← h.2]
          refine ⟨?_, rfl, Or.inl ⟨?_, ?_⟩⟩
          · show (updatePosition c.props props _).currentRequestID = _
            rw [(updatePosition_fields _ _ _).2.2]
          · show (updatePosition c.props props _).lyrics = _
            rw [(updatePosition_fields _ _ _).1]
          · show ∀ q ∈ (updatePosition c.props props _).publishers, _
            rw [(updatePosition_fields _ _ _).2.1]
            intro q hq
            obtain ⟨p, hp, e⟩ := List.mem_map.1 hq
            refine ⟨p, hp, ?_⟩
            rw [← e]
            cases c.lyrics with
            | none =>
              simp only
              split_ifs
              · exact send_sentIndex _ _
              · rfl
            | some l =>
              simp only
              split_ifs
              · exact send_sentIndex _ _
              · exact send_sentIndex _ _
              · rfl
        · rw [if_neg h4] at h
          cases hcl : clearLoop c.publishers with
          | none => simp only [hcl] at h; cases h
          | some ps =>
            simp only [hcl, Option.some.injEq, Prod.mk.injEq] at h
            left
            rw [← h.1, ← h.2]
            refine ⟨?_, ?_, Or.inl ⟨?_, ?_⟩⟩
            · show (updatePosition c.props props _).currentRequestID = _
              rw [(updatePosition_fields _ _ _).2.2]
            · cases c.cancelTicking <;> rfl
            · show (updatePosition c.props props _).lyrics = _
              rw [(updatePosition_fields _ _ _).1]
            · show ∀ q ∈ (updatePosition c.props props _).publishers, _
              rw [(updatePosition_fields _ _ _).2.1]
              exact clearLoop_sentIndex _ _ hcl
      · rw [if_neg h3] at h
        simp only [Option.some.injEq, Prod.mk.injEq] at h
        left
        rw [← h.1, ← h.2]
        refine ⟨?_, rfl, Or.inl ⟨?_, ?_⟩⟩
        · show (updatePosition c.props props _).currentRequestID = _
          rw [(updatePosition_fields _ _ _).2.2]
        · show (updatePosition c.props props _).lyrics = _
          rw [(updatePosition_fields _ _ _).1]
        · show ∀ q ∈ (updatePosition c.props props _).publishers, _
          rw [(updatePosition_fields _ _ _).2.1]
          intro q hq
          exact ⟨q, hq, rfl⟩

theorem tick_shape (c : Controller) :
    (c.tick).1.currentRequestID = c.currentRequestID ∧
    (c.tick).1.lyrics = c.lyrics ∧
    (c.lyrics = none → (c.tick).1.publishers = c.publishers) ∧
    (∀ l, c.lyrics = some l → ∀ q ∈ (c.tick).1.publishers,
      -1 ≤ q.SentIndex ∧ q.SentIndex < l.Lines.length) := by
  cases hl : c.lyrics with
  | none =>
    have e : c.tick = ({ c with cancelTicking := false }, false) := by
      simp only [Controller.tick, hl]
    rw [e]
    exact ⟨rfl, hl, fun _ => rfl, fun l h => by cases h⟩
  | some l =>
    obtain ⟨-, t2, t3⟩ := tick_fst c l hl
    refine ⟨?_, t3, (fun h => by cases h), ?_⟩
    · unfold Controller.tick
      simp only [hl]
      split <;> rfl
    · intro l2 hl2 q hq
      cases hl2
      rw [t2] at hq
      obtain ⟨p, -, e⟩ := List.mem_map.1 hq
      rw [← e]
      exact indexOf_bounds l _ _

theorem setLyrics_shape (c : Controller) (l : Lyrics) :
    (c.setLyrics l).publishers = c.publishers ∧
    (c.setLyrics l).currentRequestID = c.currentRequestID ∧
    ∃ l2, (c.setLyrics l).lyrics = some l2 := by
  rw [setLyrics_eq]
  refine ⟨rfl, rfl, ?_⟩
  rw [setLyrics_lyrics]
  cases c.filterMatcher with
  | none => exact ⟨_, rfl⟩
  | some m => exact ⟨_, rfl⟩

theorem commit_shape (c : Controller) (reqID : Int) (lyrics : Option Lyrics) :
    (c.commit reqID lyrics).1 = c ∨
    (reqID = c.currentRequestID ∧ ∃ l, lyrics = some l ∧ (c.commit reqID lyrics).1 = c.setLyrics l) := by
  unfold Controller.commit
  by_cases h : reqID ≠ c.currentRequestID
  · rw [if_pos h]; exact Or.inl rfl
  · rw [if_neg h]
    have h2 : reqID = c.currentRequestID := by
      by_contra hne; exact h hne
    cases lyrics with
    | none => exact Or.inl rfl
    | some l =>
      right
      refine ⟨h2, l, rfl, ?_⟩
      simp only
      split <;> rfl

theorem invariants_start (opt : ControllerOptions) (hF : opt.Fresh) :
    PendingInvariant { c := NewController opt, pending := [] } ∧
    SentIndexInvariant (NewController opt) := by
  constructor
  · exact ⟨le_refl _, fun _ h => absurd h (List.not_mem_nil _), List.nodup_nil,
      fun _ h => absurd h (List.not_mem_nil _)⟩
  · intro p hp
    have hp2 : p.SentIndex = -1 := by
      have := hF p hp
      rw [this]
      rfl
    refine ⟨fun _ => hp2, ?_⟩
    intro l hl
    cases hl

theorem receive_sentIndex (p q : PublisherEntry) (txt : Bytes)
    (h : p.receive = some (txt, q)) : q.SentIndex = p.SentIndex := by
  obtain ⟨ch, o, i⟩ := p
  cases ch with
  | nil => cases h
  | cons t rest =>
    simp only [PublisherEntry.receive, Option.some.injEq, Prod.mk.injEq] at h
    rw [← h.2]

theorem invariants_step (s t : Machine) (hP : PendingInvariant s)
    (hS : SentIndexInvariant s.c) (h : Step s t) :
    PendingInvariant t ∧ SentIndexInvariant t.c := by
  cases h with
  | process props c effects hmax hproc =>
    rcases process_shape s.c c props effects hproc with
      ⟨e1, e2, (⟨e3, e4⟩ | ⟨e3, e4⟩)⟩ | ⟨e1, e2, e3, e4⟩
    · constructor
      · refine ⟨?_, ?_, ?_, ?_⟩
        · show 0 ≤ c.currentRequestID
          rw [e1]; exact hP.counter
        · show ∀ task ∈ s.pending ++ launched effects, task.1 ≤ c.currentRequestID
          rw [e1, e2, List.append_nil]; exact hP.below
        · show ((s.pending ++ launched effects).map Prod.fst).Nodup
          rw [e2, List.append_nil]; exact hP.distinct
        · show ∀ task ∈ s.pending ++ launched effects, task.1 = c.currentRequestID →
            c.lyrics = none
          rw [e1, e2, List.append_nil, e3]; exact hP.waiting
      · intro q hq
        obtain ⟨p, hp, e⟩ := e4 q hq
        show (c.lyrics = none → _) ∧ _
        rw [e3, e]
        exact hS p hp
    · constructor
      · refine ⟨?_, ?_, ?_, ?_⟩
        · show 0 ≤ c.currentRequestID
          rw [e1]; exact hP.counter
        · show ∀ task ∈ s.pending ++ launched effects, task.1 ≤ c.currentRequestID
          rw [e1, e2, List.append_nil]; exact hP.below
        · show ((s.pending ++ launched effects).map Prod.fst).Nodup
          rw [e2, List.append_nil]; exact hP.distinct
        · intro _ _ _
          exact e3
      · intro q hq
        show (c.lyrics = none → _) ∧ _
        refine ⟨fun _ => e4 q hq, ?_⟩
        intro l hl
        rw [e3] at hl
        cases hl
    · have hw : wrapInt64 (s.c.currentRequestID + 1) = s.c.currentRequestID + 1 :=
        wrapInt64_of_isInt64 _ ⟨by have := hP.counter; omega, by omega⟩
      rw [hw] at e1 e2
      constructor
      · refine ⟨?_, ?_, ?_, ?_⟩
        · show 0 ≤ c.currentRequestID
          rw [e1]; have := hP.counter; omega
        · show ∀ task ∈ s.pending ++ launched effects, task.1 ≤ c.currentRequestID
          rw [e1, e2]
          intro task ht
          rcases List.mem_append.1 ht with ht | ht
          · have := hP.below task ht; omega
          · rw [List.mem_singleton] at ht
            rw [ht]
        · show ((s.pending ++ launched effects).map Prod.fst).Nodup
          rw [e2, List.map_append, List.nodup_append]
          refine ⟨hP.distinct, by simp, ?_⟩
          intro r hr hr2
          obtain ⟨task, ht, e⟩ := List.mem_map.1 hr
          have := hP.below task ht
          simp at hr2
          omega
        · intro _ _ _
          exact e3
      · intro q hq
        show (c.lyrics = none → _) ∧ _
        refine ⟨fun _ => e4 q hq, ?_⟩
        intro l hl
        rw [e3] at hl
        cases hl
  | tick =>
    obtain ⟨t1, t2, t3, t4⟩ := tick_shape s.c
    constructor
    · refine ⟨?_, ?_, hP.distinct, ?_⟩
      · show 0 ≤ (s.c.tick).1.currentRequestID
        rw [t1]; exact hP.counter
      · show ∀ task ∈ s.pending, task.1 ≤ (s.c.tick).1.currentRequestID
        rw [t1]; exact hP.below
      · show ∀ task ∈ s.pending, task.1 = (s.c.tick).1.currentRequestID →
          (s.c.tick).1.lyrics = none
        rw [t1, t2]; exact hP.waiting
    · intro q hq
      show ((s.c.tick).1.lyrics = none → _) ∧ _
      rw [t2]
      cases hl : s.c.lyrics with
      | none =>
        have hq2 : q ∈ s.c.publishers := by
          have := t3 hl
          rw [← this]; exact hq
        have := hS q hq2
        rw [hl] at this
        exact this
      | some l =>
        refine ⟨(fun h => by cases h), ?_⟩
        intro l2 hl2
        cases hl2
        exact t4 l hl q hq
  | receive i p q txt hget hrecv =>
    refine ⟨⟨hP.counter, hP.below, hP.distinct, hP.waiting⟩, ?_⟩
    intro r hr
    show (s.c.lyrics = none → _) ∧ _
    have hp : p ∈ s.c.publishers := List.getElem?_mem hget
    have hq : q.SentIndex = p.SentIndex := receive_sentIndex p q txt hrecv
    rcases List.mem_or_eq_of_mem_set hr with h | h
    · exact hS r h
    · rw [h, hq]
      exact hS p hp
  | startTicking => exact ⟨⟨hP.counter, hP.below, hP.distinct, hP.waiting⟩, hS⟩
  | stopTicking => exact ⟨⟨hP.counter, hP.below, hP.distinct, hP.waiting⟩, hS⟩
  | commit task lyrics hmem =>
    have hdist : ∀ x ∈ s.pending.erase task, x.1 ≠ task.1 := by
      intro x hx hxe
      have hx2 := (List.Nodup.mem_erase_iff (List.Nodup.of_map _ hP.distinct)).1 hx
      exact hx2.1 (List.inj_on_of_nodup_map hP.distinct hx2.2 hmem hxe)
    have hsub : ∀ x ∈ s.pending.erase task, x ∈ s.pending :=
      fun x hx => List.mem_of_mem_erase hx
    have hnodup : ((s.pending.erase task).map Prod.fst).Nodup :=
      List.Nodup.sublist ((List.erase_sublist task s.pending).map Prod.fst) hP.distinct
    rcases commit_shape s.c task.1 lyrics with e | ⟨e1, l, e2, e3⟩
    · constructor
      · refine ⟨?_, ?_, hnodup, ?_⟩
        · show 0 ≤ (s.c.commit task.1 lyrics).1.currentRequestID
          rw [e]; exact hP.counter
        · show ∀ x ∈ s.pending.erase task, x.1 ≤ (s.c.commit task.1 lyrics).1.currentRequestID
          rw [e]; exact fun x hx => hP.below x (hsub x hx)
        · show ∀ x ∈ s.pending.erase task,
            x.1 = (s.c.commit task.1 lyrics).1.currentRequestID →
              (s.c.commit task.1 lyrics).1.lyrics = none
          rw [e]; exact fun x hx => hP.waiting x (hsub x hx)
      · show SentIndexInvariant (s.c.commit task.1 lyrics).1
        rw [e]; exact hS
    · obtain ⟨g1, g2, l2, g3⟩ := setLyrics_shape s.c l
      have hnone : s.c.lyrics = none := hP.waiting task hmem e1
      constructor
      · refine ⟨?_, ?_, hnodup, ?_⟩
        · show 0 ≤ (s.c.commit task.1 lyrics).1.currentRequestID
          rw [e3, g2]; exact hP.counter
        · show ∀ x ∈ s.pending.erase task, x.1 ≤ (s.c.commit task.1 lyrics).1.currentRequestID
          rw [e3, g2]; exact fun x hx => hP.below x (hsub x hx)
        · show ∀ x ∈ s.pending.erase task,
            x.1 = (s.c.commit task.1 lyrics).1.currentRequestID →
              (s.c.commit task.1 lyrics).1.lyrics = none
          rw [e3, g2]
          intro x hx hxe
          exact absurd (hxe.trans e1.symm) (hdist x hx)
      · show SentIndexInvariant (s.c.commit task.1 lyrics).1
        rw [e3]
        intro q hq
        rw [g1] at hq
        have hq1 : q.SentIndex = -1 := (hS q hq).1 hnone
        refine ⟨fun _ => hq1, ?_⟩
        intro l3 _
        rw [hq1]
        omega

theorem invariants_reachable (opt : ControllerOptions) (hF : opt.Fresh) (s : Machine)
    (h : Reachable opt s) : PendingInvariant s ∧ SentIndexInvariant s.c := by
  induction h with
  | start => exact invariants_start opt hF
  | step s t _ hst ih => exact invariants_step s t ih.1 ih.2 hst

theorem step_processed (s : Machine) (props : MPRISProperties)
    (hmax : s.c.currentRequestID < 9223372036854775807)
    (h : (s.c.process props).isSome = true) : Step s (s.processed props) := by
  cases hp : s.c.process props with
  | none => rw [hp] at h; cases h
  | some r =>
    obtain ⟨c, effects⟩ := r
    have e : s.processed props = { c := c, pending := s.pending ++ launched effects } := by
      simp only [Machine.processed, hp]
    rw [e]
    exact Step.process s props c effects hmax hp

theorem step_ticked (s : Machine) : Step s s.ticked :=
  Step.tick s

theorem step_committed (s : Machine) (task : Int × MPRISMetadata) (lyrics : Option Lyrics)
    (h : task ∈ s.pending) : Step s (s.committed task lyrics) :=
  Step.commit s task lyrics h

theorem playedTrace_reachable : Reachable sampleOptions playedTrace :=
  Reachable.step _ _
    (Reachable.step _ _
      (Reachable.step _ _ Reachable.start
        (step_processed sampleStart playingSnapshot (by decide) (by decide)))
      (step_committed _ (1, sampleMeta) (some sampleLyrics) (by decide)))
    (step_ticked _)

theorem step_started (s : Machine) : Step s s.started :=
  Step.startTicking s

theorem step_received (s : Machine) (i : Nat) (p q : PublisherEntry) (txt : Bytes)
    (hget : s.c.publishers[i]? = some p) (hrecv : p.receive = some (txt, q)) :
    Step s (s.received i) := by
  have e : s.received i =
      { c := { s.c with publishers := s.c.publishers.set i q }, pending := s.pending } := by
    simp only [Machine.received, hget, hrecv]
  rw [e]
  exact Step.receive s i p q txt hget hrecv

theorem servedTrace_reachable : Reachable sampleOptions servedTrace :=
  Reachable.step _ _
    (Reachable.step _ _
      (Reachable.step _ _
        (Reachable.step _ _
          (Reachable.step _ _ Reachable.start
            (step_processed sampleStart playingSnapshot (by decide) (by decide)))
          (step_committed _ (1, sampleMeta) (some sampleLyrics) (by decide)))
        (step_started _))
      (step_ticked _))
    (step_received _ 0 ⟨[ETX, utf8 "a"], 0, 0⟩ ⟨[utf8 "a"], 0, 0⟩ ETX (by decide) (by decide))

theorem staleTrace_reachable : Reachable sampleOptions staleTrace :=
  Reachable.step _ _
    (Reachable.step _ _
      (Reachable.step _ _ Reachable.start
        (step_processed sampleStart embeddedSnapshot (by decide) (by decide)))
      (step_processed _ invalidSnapshot (by decide) (by decide)))
    (step_committed _ (1, embeddedMeta) (some embeddedLyrics) (by decide))

theorem commit_current (c : Controller) (l : Lyrics) :
    (c.commit c.currentRequestID (some l)).1 = c.setLyrics l := by
  unfold Controller.commit
  rw [if_neg (by simp)]
  simp only
  split <;> rfl

/-- C22: in every state reachable from the start of the controller by `process`
steps, starts, ticks and returns of `timedSend`, commits of launched fetch tasks, one
per task, and receives of the workers of the sinks, every sink's sent index is -1
while there are no lyrics and else at least -1 and below the number of lines; and when
the task of the current request commits lyrics, lyrics are installed with every sent
index at -1. -/
theorem sentIndex_within_lyrics (opt : ControllerOptions) (hF : opt.Fresh) (s : Machine)
    (h : Reachable opt s) :
    SentIndexInvariant s.c ∧
    ∀ task ∈ s.pending, task.1 = s.c.currentRequestID → ∀ l : Lyrics,
      (∃ l2, (s.committed task (some l)).c.lyrics = some l2) ∧
      ∀ p ∈ (s.committed task (some l)).c.publishers, p.SentIndex = -1 := by
  obtain ⟨hP, hS⟩ := invariants_reachable opt hF s h
  refine ⟨hS, ?_⟩
  intro task ht hcur l
  have hnone := hP.waiting task ht hcur
  obtain ⟨g1, -, g3⟩ := setLyrics_shape s.c l
  have e : (s.committed task (some l)).c = s.c.setLyrics l := by
    show (s.c.commit task.1 (some l)).1 = _
    rw [hcur]
    exact commit_current s.c l
  rw [e]
  refine ⟨g3, ?_⟩
  intro p hp
  rw [g1] at hp
  exact (hS p hp).1 hnone

/-- C22, witness: the state after the track `sampleMeta` started, its lyrics were
committed, `timedSend` started and took a tick, and the worker of the sink took a
message: the sink was sent line 0 of three and has that line left in its channel. -/
theorem sentIndex_within_lyrics_witness :
    sampleOptions.Fresh ∧ Reachable sampleOptions servedTrace ∧
    servedTrace.c.lyrics = some sampleLyrics ∧
    servedTrace.c.publishers = [⟨[utf8 "a"], 0, 0⟩] ∧
    servedTrace.c.cancelTicking = true ∧
    (SentIndexInvariant servedTrace.c ∧
      ∀ task ∈ servedTrace.pending, task.1 = servedTrace.c.currentRequestID → ∀ l : Lyrics,
        (∃ l2, (servedTrace.committed task (some l)).c.lyrics = some l2) ∧
        ∀ p ∈ (servedTrace.committed task (some l)).c.publishers, p.SentIndex = -1) :=
  ⟨by decide, servedTrace_reachable, by decide, by decide, by decide,
    sentIndex_within_lyrics sampleOptions (by decide) servedTrace servedTrace_reachable⟩

/-- C29: the track `embeddedMeta` starts and its fetch task, of request 1, returns the
embedded lyrics; the snapshot of another track without artists is handled before the
task commits and leaves the request counter at 1; the task then commits, and its
lyrics are installed while `props` records the other track. -/
theorem stale_lyrics_installed_after_invalid_snapshot :
    Reachable sampleOptions staleTrace ∧
    (sampleStart.processed embeddedSnapshot).pending = [(1, embeddedMeta)] ∧
    (sampleStart.processed embeddedSnapshot).c.fetchLyrics storeCodec emptyFS [] none
        embeddedMeta 1 =
      .returned (sampleStart.processed embeddedSnapshot).c (some embeddedLyrics) false [] ∧
    ((sampleStart.processed embeddedSnapshot).processed invalidSnapshot).c.currentRequestID
      = 1 ∧
    ((sampleStart.processed embeddedSnapshot).processed invalidSnapshot).c.lyrics = none ∧
    staleTrace.c.lyrics = some embeddedLyrics ∧
    staleTrace.c.props.Metadata = invalidSnapshot.Metadata ∧
    Equal invalidSnapshot.Metadata embeddedMeta = false :=
  ⟨staleTrace_reachable, by decide, by decide!, by decide, by decide, by decide, by decide,
    by decide⟩

/-! ### Snapshots with the workers of the sinks -/

theorem drained_ch : ∀ (k : Nat) (p : PublisherEntry),
    p.drained k = { p with ch := p.ch.drop k } := by
  intro k
  induction k with
  | zero => intro p; rfl
  | succ k ih =>
    intro p
    obtain ⟨ch, o, i⟩ := p
    cases ch with
    | nil => rfl
    | cons txt rest =>
      show PublisherEntry.drained k { ch := rest, Offset := o, SentIndex := i } = _
      rw [ih]
      rfl

theorem drainedEach_nil (ps : List PublisherEntry) : drainedEach ps [] = ps := by
  cases ps <;> rfl

theorem drainedEach_map (f : PublisherEntry → Nat) : ∀ (ps : List PublisherEntry),
    drainedEach ps (ps.map f) = ps.map (fun p => p.drained (f p)) := by
  intro ps
  induction ps with
  | nil => rfl
  | cons p ps ih => simp only [List.map_cons, drainedEach, ih]

theorem room_after_waitedFor (c : Controller) :
    ∀ p ∈ (c.drained c.waitedFor).publishers, p.ch.length < 16 := by
  intro p hp
  simp only [Controller.drained, Controller.waitedFor, drainedEach_map] at hp
  obtain ⟨q, -, e⟩ := List.mem_map.1 hp
  rw [← e, drained_ch]
  simp only [List.length_drop]
  omega

theorem clearLoop_of_room : ∀ (ps : List PublisherEntry), (∀ p ∈ ps, p.ch.length < 16) →
    clearLoop ps = some (ps.map (fun p => { p with ch := p.ch ++ [ETX] })) := by
  intro ps
  induction ps with
  | nil => intro _; rfl
  | cons p ps ih =>
    intro h
    have hp : p.ch.length < 16 := h p (List.mem_cons_self _ _)
    have e : p.Clear = some { p with ch := p.ch ++ [ETX] } := by
      simp only [PublisherEntry.Clear, hp, if_true]
    simp only [clearLoop, e, ih (fun q hq => h q (List.mem_cons_of_mem _ hq)), List.map_cons]

theorem process_reset_of_room (c : Controller) (props : MPRISProperties)
    (hS : props.PlaybackStatus = .Unknown) (hT : props.Metadata.Title = [])
    (hroom : ∀ p ∈ c.publishers, p.ch.length < 16) :
    c.process props =
      some ({ c with cancelTicking := false, cancelFetching := false, lyrics := none,
                     publishers := c.publishers.map clearedSink,
                     position := if props.Position ≠ c.props.Position then props.Position else 0,
                     props := props },
        resetCancels c) := by
  unfold Controller.process
  rw [if_pos ⟨hS, hT⟩, resetAll_of_room c hroom]
  simp only [updatePosition]
  by_cases hp : props.Position ≠ c.props.Position
  · rw [if_pos hp, if_pos hp]
  · rw [if_neg hp, if_neg hp]

/-- C18: for every controller state and every snapshot with status `Unknown` and an
empty title, `process` returns once the workers of the sinks took the messages its
`Clear` waits for, which are those buffered beyond 15 in a channel; whatever the
workers took before the sends proceeded, and with nothing taken when every channel has
room, it leaves no lyrics, both cancel handles cleared, every sink with sent index -1
and the clear instruction `ETX` enqueued as the last message of its channel, the
request id unchanged, the snapshot as `props`, and the position 0 unless the position
of the snapshot differs from that of the previous snapshot, in which case it is the
position of the snapshot. -/
theorem process_backend_reset (c : Controller) (props : MPRISProperties)
    (hS : props.PlaybackStatus = .Unknown) (hT : props.Metadata.Title = []) :
    (∀ p ∈ (c.drained c.waitedFor).publishers, p.ch.length < 16) ∧
    (∀ ks, (∀ p ∈ (c.drained ks).publishers, p.ch.length < 16) →
      (c.drained ks).process props =
        some ({ c with cancelTicking := false, cancelFetching := false, lyrics := none,
                       publishers := (c.drained ks).publishers.map clearedSink,
                       position :=
                         if props.Position ≠ c.props.Position then props.Position else 0,
                       props := props },
          resetCancels c)) ∧
    ((∀ p ∈ c.publishers, p.ch.length < 16) →
      c.process props =
        some ({ c with cancelTicking := false, cancelFetching := false, lyrics := none,
                       publishers := c.publishers.map clearedSink,
                       position :=
                         if props.Position ≠ c.props.Position then props.Position else 0,
                       props := props },
          resetCancels c)) := by
  refine ⟨room_after_waitedFor c, ?_, process_reset_of_room c props hS hT⟩
  intro ks hroom
  rw [process_reset_of_room (c.drained ks) props hS hT hroom]
  rfl

/-- C18, witness: the controller whose only sink holds 16 messages handles a backend
reset once the worker of the sink took one message: the channel then holds the 15
messages left and the clear instruction. -/
theorem process_backend_reset_witness :
    resetSnapshot.PlaybackStatus = .Unknown ∧ resetSnapshot.Metadata.Title = [] ∧
    blockedController.publishers = [fullSink] ∧ blockedController.waitedFor = [1] ∧
    (blockedController.drained [1]).process resetSnapshot =
      some ({ blockedController with
                cancelTicking := false, cancelFetching := false, lyrics := none,
                publishers := [{ ch := List.replicate 15 ETX ++ [ETX], Offset := 0,
                                 SentIndex := -1 }],
                position := 700,
                props := resetSnapshot },
        [.cancelTicking]) :=
  ⟨rfl, rfl, rfl, by decide,
    ((process_backend_reset blockedController resetSnapshot rfl rfl).2.1 [1]
      (by decide)).trans (by decide)⟩

theorem updatePosition_position (prev props : MPRISProperties) (c : Controller)
    (h : props.Position ≠ prev.Position) :
    (updatePosition prev props c).position = props.Position := by
  unfold updatePosition
  rw [if_pos h]

/-- With room in every channel `process` returns, records the snapshot, and leaves
the position at 0 on the two early exits and else, for a snapshot whose position
differs from that of the previous one, at the position of the snapshot. -/
theorem process_position_of_room (c : Controller) (props : MPRISProperties)
    (hpos : props.Position ≠ c.props.Position)
    (hroom : ∀ p ∈ c.publishers, p.ch.length < 16) :
    ∃ c2 effects, c.process props = some (c2, effects) ∧ c2.props = props ∧
      (c.leavesEarly props → c2.position = 0) ∧
      (¬ c.leavesEarly props → c2.position = props.Position) := by
  unfold Controller.process
  by_cases h1 : props.PlaybackStatus = .Unknown ∧ props.Metadata.Title = []
  · rw [if_pos h1, resetAll_of_room c hroom]
    refine ⟨_, _, rfl, rfl, ?_, ?_⟩
    · intro hl; exact absurd h1 hl.1
    · intro _
      exact updatePosition_position _ _ _ hpos
  · rw [if_neg h1]
    by_cases h2 : (!Equal props.Metadata c.props.Metadata) = true
    · rw [if_pos h2, resetAll_of_room c hroom]
      have hE : Equal props.Metadata c.props.Metadata = false := by
        simpa using h2
      simp only
      by_cases h3 : props.Metadata.Title = [] ∨ props.Metadata.Artists.length = 0
      · rw [if_pos h3]
        refine ⟨_, _, rfl, rfl, fun _ => rfl, ?_⟩
        intro hn
        exfalso
        apply hn
        refine ⟨h1, hE, ?_⟩
        rcases h3 with h3 | h3
        · exact Or.inl h3
        · exact Or.inr (Or.inl (List.length_eq_zero.1 h3))
      · rw [if_neg h3]
        have hT : props.Metadata.Title ≠ [] := fun h => h3 (Or.inl h)
        have hA : props.Metadata.Artists ≠ [] := fun h => h3 (Or.inr (by rw [h]; rfl))
        cases hm : c.urlMatcher with
        | none =>
          simp only [hm]
          refine ⟨_, _, rfl, rfl, ?_, ?_⟩
          · intro hl
            rcases hl.2.2 with h | h | h
            · exact absurd h hT
            · exact absurd h hA
            · rw [hm] at h; cases h
          · intro _
            exact updatePosition_position _ _ _ hpos
        | some m =>
          simp only [hm]
          by_cases h4 : m.Contains props.Metadata.URL = true
          · rw [if_pos h4]
            refine ⟨_, _, rfl, rfl, fun _ => rfl, ?_⟩
            intro hn
            exfalso
            apply hn
            refine ⟨h1, hE, Or.inr (Or.inr ?_)⟩
            rw [hm]
            simp only [Option.map_some', h4]
          · rw [if_neg h4]
            refine ⟨_, _, rfl, rfl, ?_, ?_⟩
            · intro hl
              rcases hl.2.2 with h | h | h
              · exact absurd h hT
              · exact absurd h hA
              · rw [hm] at h
                simp only [Option.map_some', Option.some.injEq] at h
                exact absurd h h4
            · intro _
              exact updatePosition_position _ _ _ hpos
    · rw [if_neg h2]
      have hE : ¬ Equal props.Metadata c.props.Metadata = false := by
        simpa using h2
      by_cases h3 : props.PlaybackStatus ≠ c.props.PlaybackStatus
      · rw [if_pos h3]
        by_cases h4 : props.PlaybackStatus = .Playing
        · rw [if_pos h4]
          refine ⟨_, _, rfl, rfl, ?_, ?_⟩
          · intro hl; exact absurd hl.2.1 hE
          · intro _
            exact updatePosition_position _ _ _ hpos
        · rw [if_neg h4, clearLoop_of_room c.publishers hroom]
          refine ⟨_, _, rfl, rfl, ?_, ?_⟩
          · intro hl; exact absurd hl.2.1 hE
          · intro _
            exact updatePosition_position _ _ _ hpos
      · rw [if_neg h3]
        refine ⟨_, _, rfl, rfl, ?_, ?_⟩
        · intro hl; exact absurd hl.2.1 hE
        · intro _
          exact updatePosition_position _ _ _ hpos

/-- C20, amended: for every controller state and every snapshot whose position differs
from that of the previous snapshot, `process` returns once the workers of the sinks
took the messages its `Clear` waits for, records the snapshot, and leaves the position
of the controller at the position of the snapshot in the branch of a backend reset, in
the branch of a changed track when it goes on to launch the fetch, in the branch of a
changed status and when nothing changed; on the two exits of the branch of a changed
track, for invalid metadata and for a blacklisted URL, the position is 0. -/
theorem process_position (c : Controller) (props : MPRISProperties)
    (hpos : props.Position ≠ c.props.Position) :
    (∀ p ∈ (c.drained c.waitedFor).publishers, p.ch.length < 16) ∧
    ∀ ks, (∀ p ∈ (c.drained ks).publishers, p.ch.length < 16) →
      ∃ c2 effects, (c.drained ks).process props = some (c2, effects) ∧ c2.props = props ∧
        (c.leavesEarly props → c2.position = 0) ∧
        (¬ c.leavesEarly props → c2.position = props.Position) := by
  refine ⟨room_after_waitedFor c, ?_⟩
  intro ks hroom
  exact process_position_of_room (c.drained ks) props hpos hroom

/-- C20, witness: the controller `sampleController`, whose previous snapshot has the
position 0, handles the snapshot of a backend reset at 700 ms, which takes none of the
two early exits: its position is then 700. -/
theorem process_position_witness :
    resetSnapshot.Position ≠ sampleController.props.Position ∧
    ¬ sampleController.leavesEarly resetSnapshot ∧
    (sampleController.process resetSnapshot).map (fun r => r.1.position) = some 700 ∧
    ((∀ p ∈ (sampleController.drained sampleController.waitedFor).publishers,
        p.ch.length < 16) ∧
      ∀ ks, (∀ p ∈ (sampleController.drained ks).publishers, p.ch.length < 16) →
        ∃ c2 effects, (sampleController.drained ks).process resetSnapshot = some (c2, effects) ∧
          c2.props = resetSnapshot ∧
          (sampleController.leavesEarly resetSnapshot → c2.position = 0) ∧
          (¬ sampleController.leavesEarly resetSnapshot → c2.position = resetSnapshot.Position)) :=
  ⟨by decide, by decide, by decide,
    process_position sampleController resetSnapshot (by decide)⟩

end Lrcd
